import Mathlib

/-!
# Verification of the drug-interaction app's text pipeline

Shallow embedding of the two source files of the repository
(`backend/main.py`, `frontend/app.py`).  Strings are modelled as `List Char`
(ASCII scope: Python's `str.upper`/`str.lower`/`str.capitalize` agree with
`Char.toUpper`/`Char.toLower` on ASCII, and all pattern literals in the code
are ASCII).  Python's `re.sub`/`re.split` calls use only fixed alternations of
literal words, digit runs, and character classes, so each one is embedded as a
direct scanner with the same leftmost, non-overlapping match semantics.
Fallible Python code (division by zero) is modelled with `Except`.
-/

set_option maxRecDepth 10000

abbrev Chars := List Char

/-- Python `str.strip()` whitespace set (ASCII part). -/
def isPySpace (c : Char) : Bool :=
  c == ' ' || c == '\t' || c == '\n' || c == '\r' || c == '\x0b' || c == '\x0c'

/-- Drop trailing Python whitespace. -/
def pyStripEnd (l : Chars) : Chars :=
  (l.reverse.dropWhile isPySpace).reverse

/-- Python `str.strip()`: drop leading and trailing whitespace. -/
def pyStrip (l : Chars) : Chars :=
  pyStripEnd (l.dropWhile isPySpace)

/-- Python `str.capitalize()` (ASCII): first char upper-cased, rest lower-cased. -/
def pyCapitalize : Chars → Chars
  | [] => []
  | c :: cs => c.toUpper :: cs.map Char.toLower

/-- Match a literal pattern at the head of the input (case-sensitive);
on success return the input after the pattern. -/
def takeAfter : Chars → Chars → Option Chars
  | [], l => some l
  | _ :: _, [] => none
  | p :: ps, c :: cs => if c = p then takeAfter ps cs else none

/-- Match a literal pattern at the head of the input, ASCII case-insensitively
(Python `re.IGNORECASE`); on success return the input after the pattern. -/
def takeAfterCi : Chars → Chars → Option Chars
  | [], l => some l
  | _ :: _, [] => none
  | p :: ps, c :: cs => if c.toLower = p.toLower then takeAfterCi ps cs else none

/-- `frontend/app.py`: `explanation.replace(r"\*\*", "**")` — replace every
occurrence of the four-character literal `\*\*` by `**`, scanning left to
right (Python `str.replace`). -/
def unescape : Chars → Chars
  | '\\' :: '*' :: '\\' :: '*' :: rest => '*' :: '*' :: unescape rest
  | c :: rest => c :: unescape rest
  | [] => []

/-- Helper for structural split scanners: prepend a char to the piece being
built (the head of the piece list). -/
def consHead (c : Char) : List Chars → List Chars
  | [] => [[c]]
  | p :: ps => (c :: p) :: ps

/-- Fuel-driven scanner for
`re.split(r"\n\*\*Interaction", explanation)`: split on each occurrence of
the 14-char literal `"\n" ++ "**Interaction"`, scanning left to right.
Fuel `≥` input length never runs out. -/
def splitInterGo : Nat → Chars → List Chars
  | 0, l => [l]
  | _ + 1, [] => [[]]
  | fuel + 1, c :: rest =>
    if c == '\n' && "**Interaction".data.isPrefixOf rest then
      [] :: splitInterGo fuel (rest.drop 13)
    else consHead c (splitInterGo fuel rest)

def splitInter (l : Chars) : List Chars := splitInterGo l.length l

/-- `re.split(r"\n", block)`: split on every newline. -/
def splitNl : Chars → List Chars
  | '\n' :: rest => [] :: splitNl rest
  | c :: rest => consHead c (splitNl rest)
  | [] => [[]]

/-- Python `drugs.split('+')`: split on every `'+'`, keeping empty pieces. -/
def splitPlus : Chars → List Chars
  | '+' :: rest => [] :: splitPlus rest
  | c :: rest => consHead c (splitPlus rest)
  | [] => [[]]

/-- A regex `" ?"` at the end of an anchored pattern: consume one space when
present. -/
def dropOptSpace : Chars → Chars
  | ' ' :: t => t
  | t => t

/-- `re.sub(r"^\*\*Interaction ?\d+\*\*: ?", "", sec)`: if the anchored
pattern (literal `**Interaction`, optional space, one or more digits,
`**:`, optional space) matches, remove it; otherwise leave `sec` unchanged. -/
def stripInterHdr (sec : Chars) : Chars :=
  match takeAfter "**Interaction".data sec with
  | none => sec
  | some r1 =>
    let r2 := dropOptSpace r1
    let ds := r2.takeWhile Char.isDigit
    if ds = [] then sec
    else
      match takeAfter "**:".data (r2.dropWhile Char.isDigit) with
      | none => sec
      | some r3 => dropOptSpace r3

/-- `re.sub(r"^\*\*Severity\*\*: ?", "", sec)` and the three analogous
anchored header-stripping substitutions: remove the literal header plus an
optional trailing space, else leave the input unchanged. -/
def stripHdr (hdr : Chars) (sec : Chars) : Chars :=
  match takeAfter hdr sec with
  | none => sec
  | some r => dropOptSpace r

/-- The interaction record built by `parse_interactions`
(the Python dict `{"interaction": …, "severity": …, "what": …, "risks": …,
"advice": …, "message": …}`). -/
structure InterRec where
  interaction : Chars
  severity : Chars
  what : Chars
  risks : Chars
  advice : Chars
  message : Chars
deriving DecidableEq, Repr

def emptyInterRec : InterRec := ⟨[], [], [], [], [], []⟩

/-- One iteration of the `for sec in sections` loop of `parse_interactions`:
strip the line, skip it when blank, else classify it by which header prefix
it starts with and store the header-stripped, re-stripped value. -/
def parseSection (inter : InterRec) (sec0 : Chars) : InterRec :=
  let sec := pyStrip sec0
  if sec = [] then inter
  else if "**Interaction".data.isPrefixOf sec then
    { inter with interaction := pyStrip (stripInterHdr sec) }
  else if "**Severity**:".data.isPrefixOf sec then
    { inter with severity := pyStrip (stripHdr "**Severity**:".data sec) }
  else if "**What happens**:".data.isPrefixOf sec then
    { inter with what := pyStrip (stripHdr "**What happens**:".data sec) }
  else if "**Risks or symptoms**:".data.isPrefixOf sec then
    { inter with risks := pyStrip (stripHdr "**Risks or symptoms**:".data sec) }
  else if "**Advice**:".data.isPrefixOf sec then
    { inter with advice := pyStrip (stripHdr "**Advice**:".data sec) }
  else inter

/-- Body of the `for block in blocks` loop of `parse_interactions`: strip the
block, skip it when blank, else re-attach the `**Interaction` token when it
is missing, split into lines and fold the section classifier. -/
def parseBlock (b0 : Chars) : InterRec :=
  let b := if "**Interaction".data.isPrefixOf b0 then b0 else "**Interaction".data ++ b0
  (splitNl b).foldl parseSection emptyInterRec

def parseBlocks : List Chars → List InterRec
  | [] => []
  | b :: bs =>
    let b' := pyStrip b
    if b' = [] then parseBlocks bs else parseBlock b' :: parseBlocks bs

/-- `frontend/app.py` `parse_interactions`: unescape `\*\*`, return the
single info record when the trimmed text starts with `>`, otherwise split on
`"\n**Interaction"` and parse each non-blank block. -/
def parse_interactions (explanation : Chars) : List InterRec :=
  let expl := unescape explanation
  if ">".data.isPrefixOf (pyStrip expl) then
    [{ interaction := [], severity := "info".data, what := [], risks := [],
       advice := [], message := pyStrip expl }]
  else
    parseBlocks (splitInter expl)

/-- The drug-info record built by `parse_drug_info` (the Python dict with
keys `description, uses, side_effects, dosage, names, pregnancy,
personalized_dose`). -/
structure DrugInfoRec where
  description : Chars
  uses : Chars
  side_effects : Chars
  dosage : Chars
  names : Chars
  pregnancy : Chars
  personalized_dose : Chars
deriving DecidableEq, Repr

def emptyDrugInfoRec : DrugInfoRec := ⟨[], [], [], [], [], [], []⟩

/-- The seven alternatives of
`re.split(r'\*\*(Description|Uses|Side Effects|Dosage|Names|Pregnancy|Personalized Dose)\*\*:', …)`,
in the pattern's order. -/
def drugHdrs : List Chars :=
  ["Description".data, "Uses".data, "Side Effects".data, "Dosage".data,
   "Names".data, "Pregnancy".data, "Personalized Dose".data]

/-- Try the drug-info header pattern at the head of the input: `**`, one of
the seven alternatives (tried in order, as regex alternation does), `**:`.
On success return the captured alternative and the rest of the input. -/
def matchDrugHdr (l : Chars) : Option (Chars × Chars) :=
  (takeAfter "**".data l).bind fun r =>
    drugHdrs.findSome? fun w =>
      (takeAfter w r).bind fun r2 =>
        (takeAfter "**:".data r2).map fun r3 => (w, r3)

/-- Fuel-driven scanner for the capturing split: the result alternates
`piece, header, piece, header, …, piece` exactly as Python's `re.split` with
one capture group does.  Fuel `≥` input length never runs out. -/
def splitDrugGo : Nat → Chars → List Chars
  | 0, l => [l]
  | _ + 1, [] => [[]]
  | fuel + 1, c :: rest =>
    match matchDrugHdr (c :: rest) with
    | some (w, after) => [] :: w :: splitDrugGo fuel after
    | none => consHead c (splitDrugGo fuel rest)

def splitDrug (l : Chars) : List Chars := splitDrugGo l.length l

/-- `re.sub(r'\n\s*\n', ' ', content)`: replace each newline followed by
whitespace ending in a further newline (greedy, so the match runs to the last
newline of the whitespace run) by a single space. -/
def subDoubleNlGo : Nat → Chars → Chars
  | 0, l => l
  | _ + 1, [] => []
  | fuel + 1, c :: rest =>
    if c = '\n' then
      let w := rest.takeWhile isPySpace
      if w.contains '\n' then
        let k := w.length - (w.reverse.takeWhile (· ≠ '\n')).length
        ' ' :: subDoubleNlGo fuel (rest.drop k)
      else '\n' :: subDoubleNlGo fuel rest
    else c :: subDoubleNlGo fuel rest

def subDoubleNl (l : Chars) : Chars := subDoubleNlGo l.length l

/-- The per-section content cleanup of `parse_drug_info`:
`.strip()`, `re.sub(r'\n\s*\n', ' ', …)`, `re.sub(r'\n', ' ', …)`, `.strip()`. -/
def cleanSectionContent (body : Chars) : Chars :=
  pyStrip ((subDoubleNl (pyStrip body)).map fun c => if c = '\n' then ' ' else c)

/-- `section_name = sections[i].lower().replace(" ", "_")`. -/
def sectionKey (name : Chars) : Chars :=
  name.map fun c => if c = ' ' then '_' else c.toLower

/-- The `if/elif` chain assigning a cleaned section body to the record field
named by the section key. -/
def assignSection (d : DrugInfoRec) (name body : Chars) : DrugInfoRec :=
  let k := sectionKey name
  let content := cleanSectionContent body
  if k = "description".data then { d with description := content }
  else if k = "uses".data then { d with uses := content }
  else if k = "side_effects".data then { d with side_effects := content }
  else if k = "dosage".data then { d with dosage := content }
  else if k = "names".data then { d with names := content }
  else if k = "pregnancy".data then { d with pregnancy := content }
  else if k = "personalized_dose".data then { d with personalized_dose := content }
  else d

/-- `for i in range(1, len(sections), 2): if i + 1 < len(sections): …` —
consume (header, body) pairs from the split result after its first piece. -/
def assignPairs : DrugInfoRec → List Chars → DrugInfoRec
  | d, name :: body :: rest => assignPairs (assignSection d name body) rest
  | d, _ => d

/-- `frontend/app.py` `parse_drug_info`: unescape `\*\*`, split on the
combined seven-header pattern, and assign each (header, body) pair. -/
def parse_drug_info (explanation : Chars) : DrugInfoRec :=
  let expl := unescape explanation
  match splitDrug expl with
  | [] => emptyDrugInfoRec
  | _pre :: pairs => assignPairs emptyDrugInfoRec pairs

/-! ## backend/main.py: the response normalizer -/

/-- `re.sub(r"\n{3,}", "\n\n", answer)`: runs of three or more newlines are
shortened to exactly two (the window drops the first newline of any three
consecutive ones, so each maximal run keeps its last two newlines — the same
output the regex produces). -/
def collapse_newlines : Chars → Chars
  | c1 :: c2 :: c3 :: rest =>
    if c1 = '\n' ∧ c2 = '\n' ∧ c3 = '\n' then collapse_newlines (c2 :: c3 :: rest)
    else c1 :: collapse_newlines (c2 :: c3 :: rest)
  | l => l

/-- `re.sub(r" +", " ", answer)`: runs of spaces are shortened to a single
space (the window drops a space followed by another space, keeping the last
space of each run — the same output the regex produces). -/
def collapse_spaces : Chars → Chars
  | c1 :: c2 :: rest =>
    if c1 = ' ' ∧ c2 = ' ' then collapse_spaces (c2 :: rest)
    else c1 :: collapse_spaces (c2 :: rest)
  | l => l

/-- The four severity alternatives `(mild|moderate|severe|unknown)` in the
pattern's order. -/
def sevWords : List Chars :=
  ["mild".data, "moderate".data, "severe".data, "unknown".data]

/-- Try `\*\*Severity\*\*: (mild|moderate|severe|unknown)` (IGNORECASE) at
the head of the input.  On success return the replacement
`"**Severity**: " ++ group(1).upper()` and the rest of the input. -/
def matchSev (l : Chars) : Option (Chars × Chars) :=
  (takeAfterCi "**Severity**: ".data l).bind fun r =>
    sevWords.findSome? fun w =>
      (takeAfterCi w r).map fun rest =>
        ("**Severity**: ".data ++ (r.take w.length).map Char.toUpper, rest)

/-- Scanner for `uppercase_severity`'s `re.sub`: leftmost, non-overlapping
matches; fuel `≥` input length never runs out. -/
def usevGo : Nat → Chars → Chars
  | 0, l => l
  | _ + 1, [] => []
  | fuel + 1, c :: rest =>
    match matchSev (c :: rest) with
    | some (repl, after) => repl ++ usevGo fuel after
    | none => c :: usevGo fuel rest

/-- `backend/main.py` `uppercase_severity`. -/
def uppercase_severity (l : Chars) : Chars := usevGo l.length l

/-- The replacement body of `capitalize_medications`:
`' + '.join([d.strip().capitalize() for d in drugs.split('+')])`. -/
def capDrugs (drugs : Chars) : Chars :=
  List.intercalate " + ".data ((splitPlus drugs).map fun d => pyCapitalize (pyStrip d))

/-- Try `\*\*Interaction (\d+)\*\*: ([^\n]+)` at the head of the input.  On
success return the replacement
`"**Interaction " ++ group(1) ++ "**: " ++ capDrugs group(2)` and the rest of
the input (the greedy `[^\n]+` runs to the end of the line). -/
def matchInterLine (l : Chars) : Option (Chars × Chars) :=
  (takeAfter "**Interaction ".data l).bind fun r1 =>
    let ds := r1.takeWhile Char.isDigit
    if ds = [] then none
    else
      (takeAfter "**: ".data (r1.dropWhile Char.isDigit)).bind fun r3 =>
        let body := r3.takeWhile (· ≠ '\n')
        if body = [] then none
        else some ("**Interaction ".data ++ ds ++ "**: ".data ++ capDrugs body,
                   r3.drop body.length)

/-- Scanner for `capitalize_medications`'s `re.sub`. -/
def capGo : Nat → Chars → Chars
  | 0, l => l
  | _ + 1, [] => []
  | fuel + 1, c :: rest =>
    match matchInterLine (c :: rest) with
    | some (repl, after) => repl ++ capGo fuel after
    | none => c :: capGo fuel rest

/-- `backend/main.py` `capitalize_medications`. -/
def capitalize_medications (l : Chars) : Chars := capGo l.length l

/-- The post-processing applied to the generator's answer inside the
`/interactions` endpoint (the Response Normalizer):
two whitespace substitutions, then `uppercase_severity`, then
`capitalize_medications`. -/
def normalize_answer (answer : Chars) : Chars :=
  capitalize_medications (uppercase_severity (collapse_spaces (collapse_newlines answer)))

/-- `backend/main.py` `clean_drug_info_response`. -/
def clean_drug_info_response (text : Chars) : Chars :=
  pyStrip (collapse_spaces (collapse_newlines text))

/-! ## backend/main.py: prompt builders and endpoints -/

/-- `build_prompt`: the interaction-mode prompt template with
`", ".join(meds)` interpolated (literal `{`/`}` of the template rendered via
escapes). -/
def build_prompt (meds : List Chars) : Chars :=
  let meds_str := List.intercalate ", ".data meds
  "\nYou are a licensed clinical pharmacist tasked with explaining potential drug interactions to patients in plain English.\n\nThe patient has listed the following medications: ".data
  ++ meds_str ++
  "\n\nYour job is to:\n\n1. Identify if there are any known drug interactions among these medications.\n2. For each interaction:\n   - Describe what happens (the mechanism or risk)\n   - Rate the severity as mild, moderate, or severe\n   - Explain possible symptoms or consequences the patient might experience\n3. Use simple, clear language without medical jargon.\n4. If possible, suggest a safer alternative medication or precautions (e.g., spacing doses, consulting a doctor).\n5. If any medication name is unclear or unknown, politely mention it and recommend verifying with a healthcare professional.\n6. USE RXCUIS API FOR ACCURACY.\n\nFormat the response STRICTLY like this :\n\n**Interaction 1**: \x7bDrug A\x7d + \x7bDrug B\x7d\n\n**Severity**: \x7bmild/moderate/severe\x7d\n\n**What happens**: \x7bbrief mechanism\x7d\n\n**Risks or symptoms**: \x7bpatient-friendly explanation\x7d\n\n**Advice**: \x7brecommendation or safer alternative\x7d\n\nIf there are no known interactions, respond with:\n>No known interactions were found between these medications. Always check with a doctor or pharmacist.\n\nDo not use extra Markdown, code blocks, or HTML. Do not add extra whitespace or blank lines. Do not use bullet points. Keep the format strict and consistent.\n\nYou must capitalize the first letter of each medication.\n\nBegin when ready.\n".data

/-- The `personal_info: Dict[str, Any]` mapping of a `/drug-info` request:
each of the four keys the backend reads may be absent.  Numbers are modelled
as exact rationals. -/
structure PersonalInfo where
  height : Option ℚ
  weight : Option ℚ
  age : Option ℚ
  is_pregnant : Option Bool
deriving DecidableEq, Repr

/-- Decimal rendering of the numbers interpolated into the drug-info prompt
(`{age}`, `{height}`, `{weight}`).  The exact digits are irrelevant to every
claim; only that equal values render equally. -/
def ratStr (q : ℚ) : Chars := (toString q).data

/-- `f"{bmi:.1f}"`: fixed-point rendering with one decimal digit. -/
def format1f (q : ℚ) : Chars :=
  let n : ℤ := round (q * 10)
  let render : ℕ → Chars := fun m => (toString (m / 10)).data ++ ".".data ++ (toString (m % 10)).data
  if n < 0 then '-' :: render n.natAbs else render n.toNat

/-- `build_drug_info_prompt`: reads `height`, `weight`, `age`, `is_pregnant`
from the mapping with defaults `170`, `70`, `30`, `False`; computes
`bmi = weight / ((height / 100) ** 2)` — in Python a zero height raises
`ZeroDivisionError` here (modelled as the `Except.error` case); otherwise the
prompt template is rendered, with the `**Pregnancy**` instruction line
included only when `is_pregnant` is true. -/
def build_drug_info_prompt (medication : Chars) (personal_info : PersonalInfo) :
    Except Chars Chars :=
  let height := personal_info.height.getD 170
  let weight := personal_info.weight.getD 70
  let age := personal_info.age.getD 30
  let is_pregnant := personal_info.is_pregnant.getD false
  if (height / 100) ^ 2 = 0 then
    Except.error "ZeroDivisionError: float division by zero".data
  else
    let bmi := weight / (height / 100) ^ 2
    let pregnancy_text :=
      if is_pregnant then "The patient is currently pregnant.".data
      else "The patient is not pregnant.".data
    Except.ok (
      "\nYou are a licensed clinical pharmacist providing comprehensive drug information to a patient.\n\nThe patient is asking about: ".data
      ++ medication ++
      "\n\nPatient information:\n- Age: ".data ++ ratStr age ++
      " years\n- Height: ".data ++ ratStr height ++
      " cm\n- Weight: ".data ++ ratStr weight ++
      " kg\n- BMI: ".data ++ format1f bmi ++
      "\n- ".data ++ pregnancy_text ++
      "\n\nPlease provide detailed pharmaceutical information in the following format:\n\n**Description**: \x7bBrief description of what this medication is and its drug class\x7d\n\n**Uses**: \x7bWhat conditions this medication treats, primary and secondary uses\x7d\n\n**Names**: \x7bList common generic names and popular brand names\x7d\n\n**Dosage**: \x7bStandard adult dosing guidelines, frequency, and administration notes\x7d\n\n**Personalized Dose**: \x7bBased on the patient\x27s age, weight, and BMI, provide personalized dosage recommendations. Consider any adjustments needed for their specific demographics. Mention if weight-based dosing is used for this medication.\x7d\n\n**Side Effects**: \x7bCommon side effects patients should be aware of, organized by frequency (very common, common, uncommon)\x7d\n\n".data
      ++ (if is_pregnant then "**Pregnancy**: \x7bSafety information for pregnancy, FDA pregnancy category if known, risks to mother and fetus, alternative medications if this drug should be avoided\x7d".data else [])
      ++ "\n\nGuidelines:\n1. Use simple, patient-friendly language\n2. Be specific about dosages but always remind to follow doctor\x27s instructions\n3. Focus on practical information patients need to know\n4. If the medication name is unclear or unknown, mention this\n5. Always emphasize consulting healthcare providers for personalized advice\n6. For personalized dosing, consider renal function, hepatic function, and age-related changes\n7. Mention if the dose should be adjusted for elderly patients (age > 65)\n\nDo not use extra Markdown, code blocks, or HTML. Keep the format strict and consistent.\n\nCapitalize the first letter of the medication name.\n\nBegin when ready.\n".data)

/-- The `/interactions` endpoint around the generator call: build the prompt
(unconditionally — the code has no input validation), call the generator,
strip and normalize its answer; a generator failure becomes an HTTP 500
carrying the error text.  The generator is the external collaborator,
abstracted as a function argument. -/
def interactions_endpoint (gen : Chars → Except Chars Chars) (meds : List Chars) :
    Except Chars Chars :=
  let prompt := build_prompt meds
  match gen prompt with
  | Except.ok content => Except.ok (normalize_answer (pyStrip content))
  | Except.error e => Except.error e

/-- The `/drug-info` endpoint: `build_drug_info_prompt` runs before the
`try:` block, so its `ZeroDivisionError` propagates; otherwise the generator
is called and its answer cleaned. -/
def drug_info_endpoint (gen : Chars → Except Chars Chars) (medication : Chars)
    (personal_info : PersonalInfo) : Except Chars Chars :=
  match build_drug_info_prompt medication personal_info with
  | Except.error e => Except.error e
  | Except.ok prompt =>
    match gen prompt with
    | Except.ok content => Except.ok (clean_drug_info_response (pyStrip content))
    | Except.error e => Except.error e

/-! ## Auxiliary definitions used to state the claims -/

/-- Inverse direction of the unescaping step: rewrite every literal `**` as
the backslash-escaped sequence `\*\*` (used to state that escaped and
unescaped headers parse identically). -/
def escapeStars : Chars → Chars
  | '*' :: '*' :: rest => '\\' :: '*' :: '\\' :: '*' :: escapeStars rest
  | c :: rest => c :: escapeStars rest
  | [] => []

/-- `true` iff the severity pattern of `uppercase_severity` matches somewhere
in the text (i.e. the text contains a recognizable severity header). -/
def hasSevMatchB : Chars → Bool
  | [] => false
  | c :: rest => (matchSev (c :: rest)).isSome || hasSevMatchB rest

/-- `true` iff the interaction-line pattern of `capitalize_medications`
matches somewhere in the text. -/
def hasInterLineMatchB : Chars → Bool
  | [] => false
  | c :: rest => (matchInterLine (c :: rest)).isSome || hasInterLineMatchB rest

/-- `true` iff one of the seven drug-info header patterns matches somewhere
in the text. -/
def hasDrugHdrB : Chars → Bool
  | [] => false
  | c :: rest => (matchDrugHdr (c :: rest)).isSome || hasDrugHdrB rest

/-- `true` iff `pat` occurs as a contiguous substring of the text. -/
def containsSeqB (pat : Chars) : Chars → Bool
  | [] => pat.isPrefixOf []
  | c :: rest => pat.isPrefixOf (c :: rest) || containsSeqB pat rest

/-- The five header prefixes recognized by `parse_interactions`. -/
def interHdrs : List Chars :=
  ["**Interaction".data, "**Severity**:".data, "**What happens**:".data,
   "**Risks or symptoms**:".data, "**Advice**:".data]

/-- `true` iff none of the five interaction header prefixes occurs in the
text. -/
def noInterHdrsB (l : Chars) : Bool :=
  interHdrs.all fun h => !(containsSeqB h l)

/-- Append to the head piece of a piece list (proof device describing how
split scanners traverse text containing no match). -/
def prependHead (a : Chars) : List Chars → List Chars
  | [] => [a]
  | p :: ps => (a ++ p) :: ps

/-- A well-formed generator interaction block as described by the spec's
output grammar: the digit string of the header's ordinal and the five field
texts. -/
structure GenBlock where
  ordinal : Chars
  pair : Chars
  sev : Chars
  what : Chars
  risks : Chars
  advice : Chars
deriving DecidableEq, Repr

/-- A field text suitable for the single-line grammar: non-empty, already
trimmed, on one line, and free of backslashes (so no `\*\*` unescaping
applies). -/
abbrev goodText (f : Chars) : Prop :=
  f ≠ [] ∧ pyStrip f = f ∧ '\n' ∉ f ∧ '\\' ∉ f

/-- Well-formedness of a generator block: a non-empty digit ordinal and five
good field texts. -/
abbrev goodBlock (b : GenBlock) : Prop :=
  b.ordinal ≠ [] ∧ (∀ c ∈ b.ordinal, c.isDigit = true) ∧
  goodText b.pair ∧ goodText b.sev ∧ goodText b.what ∧ goodText b.risks ∧
  goodText b.advice

/-- The five lines of one rendered block (§6 output grammar). -/
def interLine (b : GenBlock) : Chars :=
  "**Interaction ".data ++ b.ordinal ++ "**: ".data ++ b.pair

def sevLine (b : GenBlock) : Chars := "**Severity**: ".data ++ b.sev

def whatLine (b : GenBlock) : Chars := "**What happens**: ".data ++ b.what

def risksLine (b : GenBlock) : Chars := "**Risks or symptoms**: ".data ++ b.risks

def advLine (b : GenBlock) : Chars := "**Advice**: ".data ++ b.advice

/-- The newline-led body of one rendered block after its interaction line. -/
def blockBody (b : GenBlock) : Chars :=
  '\n' :: (sevLine b ++ '\n' :: (whatLine b ++ '\n' :: (risksLine b ++ '\n' :: advLine b)))

/-- Render one block in the exact output grammar the prompt dictates:
the interaction header line followed by the four field lines. -/
def renderBlock (b : GenBlock) : Chars := interLine b ++ blockBody b

/-- Render a stream of blocks separated by one blank line
(`"\n\n"` between consecutive blocks). -/
def renderStream : List GenBlock → Chars
  | [] => []
  | [b] => renderBlock b
  | b :: rest => renderBlock b ++ '\n' :: '\n' :: renderStream rest

/-- `renderBlock b` with the leading `**Interaction` token removed: the
fragment the splitter produces for a non-first block. -/
def blockTail (b : GenBlock) : Chars :=
  (' ' :: (b.ordinal ++ "**: ".data ++ b.pair)) ++ blockBody b

/-- The first line of a re-attached non-first block: the `**Interaction`
token (re-added without a space) directly followed by the ordinal. -/
def interLineNoSp (b : GenBlock) : Chars :=
  "**Interaction".data ++ (b.ordinal ++ ("**: ".data ++ b.pair))

/-- A non-first block's fragment after stripping: the leading space (left
over from the consumed `**Interaction` token) is gone. -/
def strippedTail (b : GenBlock) : Chars :=
  (b.ordinal ++ "**: ".data ++ b.pair) ++ blockBody b

/-- A stream with the leading `**Interaction` token of its first block
removed. -/
def tailStream : List GenBlock → Chars
  | [] => []
  | [b] => blockTail b
  | b :: rest => blockTail b ++ '\n' :: '\n' :: renderStream rest

/-- The fragments the splitter produces for the non-first blocks of a
stream: each keeps the first separator newline at its end, except the last. -/
def tailPieces : List GenBlock → List Chars
  | [] => []
  | [b] => [blockTail b]
  | b :: rest => (blockTail b ++ ['\n']) :: tailPieces rest

/-- The record `parse_interactions` is expected to produce for one block:
the five fields, and no ordinal — `InterRec` has no ordinal component. -/
def recOfBlock (b : GenBlock) : InterRec :=
  ⟨b.pair, b.sev, b.what, b.risks, b.advice, []⟩

/-- A record whose only possibly non-empty field is `interaction` (what
`parse_interactions` produces from header-free text). -/
def onlyInteractionField (r : InterRec) : Prop :=
  r.severity = [] ∧ r.what = [] ∧ r.risks = [] ∧ r.advice = [] ∧ r.message = []

/-! ## Auxiliary definitions for the idempotence analysis (C6) -/

/-- A code point outside both ASCII letter ranges (`toLower`/`toUpper` fix it). -/
abbrev nonLetter (K : Char) : Prop :=
  K.toNat < 65 ∨ (90 < K.toNat ∧ K.toNat < 97) ∨ 122 < K.toNat

/-- Case-insensitive projection of a string (Python `re.IGNORECASE` compares
after lowercasing). -/
def lowStr (l : Chars) : Chars := l.map Char.toLower

/-- `true` iff the string contains no two adjacent spaces (the fixed points
of `re.sub(r" +", " ", ·)`). -/
def sp2OK : Chars → Bool
  | c :: d :: t => !(c == ' ' && d == ' ') && sp2OK (d :: t)
  | _ => true

/-- `true` iff the string contains no three adjacent newlines (the fixed
points of `re.sub(r"\n{3,}", "\n\n", ·)`). -/
def nlOK3 : Chars → Bool
  | c1 :: c2 :: c3 :: t => !(c1 == '\n' && c2 == '\n' && c3 == '\n') && nlOK3 (c2 :: c3 :: t)
  | _ => true

/-- Join line pieces with single newlines (left inverse of `splitNl`). -/
def joinNl : List Chars → Chars
  | [] => []
  | [p] => p
  | p :: ps => p ++ '\n' :: joinNl ps

/-- The part of the Response Normalizer that acts within one line: the two
regex passes `uppercase_severity` and `capitalize_medications` after the
space collapse (the newline collapse never fires inside a line). -/
def lineNorm (s : Chars) : Chars :=
  capitalize_medications (uppercase_severity (collapse_spaces s))

/-- Severity-canonical string: at every position the severity regex either
fails or reproduces the text it consumed. -/
def sevOK (l : Chars) : Prop :=
  ∀ i, matchSev (l.drop i) = none ∨
    ∃ ρ A, matchSev (l.drop i) = some (ρ, A) ∧ l.drop i = ρ ++ A

/-! # Theorems

## Generic helper lemmas -/

theorem takeAfter_self_append (p r : Chars) : takeAfter p (p ++ r) = some r := by
  induction p with
  | nil => rfl
  | cons c p ih => simp [takeAfter, ih]

theorem dropWhile_sat_append (p : Char → Bool) (a r : Chars)
    (ha : ∀ c ∈ a, p c = true) : (a ++ r).dropWhile p = r.dropWhile p := by
  induction a with
  | nil => rfl
  | cons c a ih =>
    simp only [List.cons_append, List.dropWhile_cons]
    rw [ha c (by simp)]
    exact ih fun c hc => ha c (by simp [hc])

theorem takeWhile_sat_append (p : Char → Bool) (a : Chars) (c : Char) (r : Chars)
    (ha : ∀ x ∈ a, p x = true) (hc : p c = false) :
    (a ++ c :: r).takeWhile p = a := by
  induction a with
  | nil => simp [List.takeWhile_cons, hc]
  | cons x a ih =>
    simp only [List.cons_append, List.takeWhile_cons]
    rw [ha x (by simp)]
    simp only [if_true]
    rw [ih fun y hy => ha y (by simp [hy])]

theorem pyStripEnd_nil : pyStripEnd [] = [] := rfl

theorem pyStripEnd_cons_nonspace (c : Char) (t : Chars) (hc : isPySpace c = false) :
    pyStripEnd (c :: t) = c :: pyStripEnd t := by
  unfold pyStripEnd
  rw [List.reverse_cons, List.dropWhile_append]
  by_cases h : (t.reverse.dropWhile isPySpace).isEmpty
  · rw [if_pos h]
    simp only [List.isEmpty_iff] at h
    simp [List.dropWhile_cons, hc, h]
  · rw [if_neg h]
    simp

theorem pyStrip_cons_nonspace (c : Char) (t : Chars) (hc : isPySpace c = false) :
    pyStrip (c :: t) = c :: pyStripEnd t := by
  unfold pyStrip
  rw [List.dropWhile_cons, hc]
  simp only [Bool.false_eq_true, if_false]
  exact pyStripEnd_cons_nonspace c t hc

theorem pyStripEnd_head? (m : Chars) (h : ∀ c t, m = c :: t → isPySpace c = false) :
    (pyStripEnd m).head? = m.head? := by
  cases m with
  | nil => rfl
  | cons c t => rw [pyStripEnd_cons_nonspace c t (h c t rfl)]; rfl

theorem dropWhile_head_false (p : Char → Bool) (l : Chars) (c : Char) (t : Chars)
    (h : l.dropWhile p = c :: t) : p c = false := by
  induction l with
  | nil => simp at h
  | cons x l ih =>
    rw [List.dropWhile_cons] at h
    by_cases hx : p x = true
    · rw [if_pos hx] at h; exact ih h
    · rw [if_neg hx] at h
      cases h
      simpa using hx

theorem pyStrip_head? (l : Chars) :
    (pyStrip l).head? = (l.dropWhile isPySpace).head? := by
  unfold pyStrip
  apply pyStripEnd_head?
  intro c t hct
  exact dropWhile_head_false isPySpace l c t hct

/-! ## C9: absent personal-info keys silently default -/

/-- C9: when any of height, weight, age, is_pregnant is absent from the
personal-info mapping, `build_drug_info_prompt` substitutes the defaults
170 cm / 70 kg / 30 years / not pregnant — the prompt is exactly the one
built from explicitly supplied defaults — and the request is not rejected
(the all-absent mapping still yields a prompt, with BMI computed from the
defaults). -/
theorem c9_defaults_substituted (med : Chars) (h w a : Option ℚ) (p : Option Bool) :
    build_drug_info_prompt med ⟨none, w, a, p⟩ = build_drug_info_prompt med ⟨some 170, w, a, p⟩
  ∧ build_drug_info_prompt med ⟨h, none, a, p⟩ = build_drug_info_prompt med ⟨h, some 70, a, p⟩
  ∧ build_drug_info_prompt med ⟨h, w, none, p⟩ = build_drug_info_prompt med ⟨h, w, some 30, p⟩
  ∧ build_drug_info_prompt med ⟨h, w, a, none⟩ = build_drug_info_prompt med ⟨h, w, a, some false⟩
  ∧ (build_drug_info_prompt med ⟨none, none, none, none⟩).isOk = true := by
  refine ⟨rfl, rfl, rfl, rfl, ?_⟩
  have hz : ¬ (((170 : ℚ) / 100) ^ 2 = 0) := by norm_num
  simp only [build_drug_info_prompt, Option.getD_none, if_neg hz]
  rfl

/-! ## C3: the claimed InvalidMeasurement rejection does not exist -/

/-- C3 counterexample: a negative height (−170 cm) together with a negative
weight is accepted without any error — `build_drug_info_prompt` returns a
prompt, refuting the claim that heightCm ≤ 0 (or non-positive weight) fails
with `InvalidMeasurement` before prompt construction. -/
theorem c3_no_invalid_measurement_error :
    (build_drug_info_prompt "aspirin".data
      ⟨some (-170), some (-70), some 30, some false⟩).isOk = true := by
  have hz : ¬ ((((-170) : ℚ) / 100) ^ 2 = 0) := by norm_num
  simp only [build_drug_info_prompt, Option.getD_some, if_neg hz]
  rfl

/-- C3 amended: the code performs no measurement validation at all.  The
prompt is constructed for every height except exactly 0 (negative heights
and non-positive weights included), and a zero height raises Python's
`ZeroDivisionError` at the BMI division — there is no `InvalidMeasurement`
error. -/
theorem c3_amended_zero_division_only (med : Chars) (info : PersonalInfo) :
    ((build_drug_info_prompt med info).isOk = true ↔ info.height.getD 170 ≠ 0)
  ∧ (info.height.getD 170 = 0 →
      build_drug_info_prompt med info =
        Except.error "ZeroDivisionError: float division by zero".data) := by
  have hiff : ((info.height.getD 170 / 100) ^ 2 = 0) ↔ info.height.getD 170 = 0 := by
    rw [pow_eq_zero_iff (two_ne_zero), div_eq_zero_iff]
    norm_num
  constructor
  · by_cases hz : info.height.getD 170 = 0
    · simp only [build_drug_info_prompt, if_pos (hiff.mpr hz)]
      simp [Except.isOk, Except.toBool, hz]
    · simp only [build_drug_info_prompt, if_neg (fun hc => hz (hiff.mp hc))]
      simp [Except.isOk, Except.toBool, hz]
  · intro hz
    simp only [build_drug_info_prompt, if_pos (hiff.mpr hz)]

/-- Witness for the amended C3 at a concrete input: a zero height raises the
division error. -/
theorem c3_amended_zero_division_only_witness :
    build_drug_info_prompt "a".data ⟨some 0, some 70, some 30, some false⟩ =
      Except.error "ZeroDivisionError: float division by zero".data :=
  (c3_amended_zero_division_only "a".data ⟨some 0, some 70, some 30, some false⟩).2 rfl

/-! ## C2: the claimed EmptyInputError rejection does not exist -/

/-- C2 counterexample: with an empty medication list (interaction flow) and a
blank medication string (drug-info flow), both endpoints still consult the
generator and return its outcome — no `EmptyInputError` is raised before the
call (the generator's success and failure both surface unchanged, so the
call was made). -/
theorem c2_no_empty_input_error :
    interactions_endpoint (fun _ => Except.ok "response text".data) [] =
      Except.ok "response text".data
  ∧ interactions_endpoint (fun _ => Except.error "boom".data) [] =
      Except.error "boom".data
  ∧ drug_info_endpoint (fun _ => Except.ok "response text".data) [] ⟨none, none, none, none⟩ =
      Except.ok "response text".data
  ∧ drug_info_endpoint (fun _ => Except.error "boom".data) [] ⟨none, none, none, none⟩ =
      Except.error "boom".data := by
  have hz : ¬ (((170 : ℚ) / 100) ^ 2 = 0) := by norm_num
  refine ⟨rfl, rfl, ?_, ?_⟩ <;>
    · simp only [drug_info_endpoint, build_drug_info_prompt, Option.getD_none, if_neg hz]
      try rfl

/-- C2 amended: the backend performs no emptiness validation.  For every
medication list (the empty list and blank entries included) and every
medication string (blank included), the endpoint outcome is exactly the
generator's outcome — an error propagates and a success is post-processed —
so the generator is always called and no `EmptyInputError` exists. -/
theorem c2_amended_no_validation (meds : List Chars) (med : Chars)
    (info : PersonalInfo) (e r : Chars) :
    interactions_endpoint (fun _ => Except.error e) meds = Except.error e
  ∧ interactions_endpoint (fun _ => Except.ok r) meds =
      Except.ok (normalize_answer (pyStrip r))
  ∧ (info.height.getD 170 ≠ 0 →
      drug_info_endpoint (fun _ => Except.error e) med info = Except.error e
      ∧ drug_info_endpoint (fun _ => Except.ok r) med info =
          Except.ok (clean_drug_info_response (pyStrip r))) := by
  refine ⟨rfl, rfl, fun hz => ?_⟩
  have hiff : ((info.height.getD 170 / 100) ^ 2 = 0) ↔ info.height.getD 170 = 0 := by
    rw [pow_eq_zero_iff (two_ne_zero), div_eq_zero_iff]
    norm_num
  constructor <;>
    simp only [drug_info_endpoint, build_drug_info_prompt, if_neg (fun hc => hz (hiff.mp hc))]

/-- Witness for the amended C2 at concrete inputs (empty list, blank
medication, absent personal info). -/
theorem c2_amended_no_validation_witness :
    interactions_endpoint (fun _ => Except.error "e".data) [[]] = Except.error "e".data
  ∧ drug_info_endpoint (fun _ => Except.error "e".data) [] ⟨none, none, none, none⟩ =
      Except.error "e".data := by
  refine ⟨(c2_amended_no_validation [[]] [] ⟨none, none, none, none⟩ "e".data []).1, ?_⟩
  exact ((c2_amended_no_validation [[]] [] ⟨none, none, none, none⟩ "e".data []).2.2
    (by norm_num)).1

/-! ## C7: the leading-quote fallback branch -/

theorem singleton_isPrefixOf_iff (c : Char) (l : Chars) :
    [c].isPrefixOf l = true ↔ l.head? = some c := by
  cases l with
  | nil => simp [List.isPrefixOf]
  | cons x t =>
    simp only [List.isPrefixOf, List.head?_cons, Option.some.injEq]
    constructor
    · intro h
      have hx : (c == x) = true := by
        cases hcx : (c == x) with
        | true => rfl
        | false => rw [hcx] at h; simp at h
      exact (beq_iff_eq.mp hx).symm
    · intro h
      simp [h.symm, List.isPrefixOf]

theorem unescape_cons (c : Char) (l : Chars)
    (h : ∀ t, c = '\\' → l = '*' :: '\\' :: '*' :: t → False) :
    unescape (c :: l) = c :: unescape l := by
  rw [unescape.eq_def]
  split
  · rename_i rest heq
    injection heq with h1 h2
    exact (h rest h1 h2).elim
  · rename_i c' rest heq
    injection heq with h1 h2
    rw [← h1, ← h2]
  · rename_i heq
    exact absurd heq (by simp)

theorem unescape_cons_ne (c : Char) (l : Chars) (h : c ≠ '\\') :
    unescape (c :: l) = c :: unescape l :=
  unescape_cons c l fun _ hc _ => h hc

theorem unescape_gt (s : Chars) (h : (s.dropWhile isPySpace).head? = some '>') :
    ((unescape s).dropWhile isPySpace).head? = some '>' := by
  induction s using unescape.induct with
  | case1 rest ih =>
    have hb : isPySpace '\\' = false := by decide
    rw [List.dropWhile_cons, hb] at h
    simp at h
  | case2 c rest hne ih =>
    rw [unescape_cons c rest hne]
    rw [List.dropWhile_cons] at h ⊢
    by_cases hc : isPySpace c = true
    · rw [if_pos hc] at h ⊢
      exact ih h
    · rw [if_neg hc] at h ⊢
      exact h
  | case3 => simp at h

/-- C7: when the trimmed input begins with `>`, `parse_interactions` returns
exactly one no-interaction record — severity `"info"`, all five interaction
fields empty, message carrying the (unescaped, trimmed) text — and no
interaction records: block segmentation is never attempted. -/
theorem c7_leading_quote_sentinel (s : Chars)
    (h : ">".data.isPrefixOf (pyStrip s) = true) :
    parse_interactions s =
      [{ interaction := [], severity := "info".data, what := [], risks := [],
         advice := [], message := pyStrip (unescape s) }] := by
  have h1 : (pyStrip s).head? = some '>' := (singleton_isPrefixOf_iff '>' (pyStrip s)).mp h
  rw [pyStrip_head?] at h1
  have h2 : (pyStrip (unescape s)).head? = some '>' := by
    rw [pyStrip_head?]
    exact unescape_gt s h1
  have h3 : ">".data.isPrefixOf (pyStrip (unescape s)) = true :=
    (singleton_isPrefixOf_iff '>' (pyStrip (unescape s))).mpr h2
  simp only [parse_interactions, h3, if_true]

/-- Witness for C7 at a concrete leading-quote input. -/
theorem c7_leading_quote_sentinel_witness :
    parse_interactions "  >No known interactions were found. ".data =
      [{ interaction := [], severity := "info".data, what := [], risks := [],
         advice := [],
         message := ">No known interactions were found.".data }] := by
  have := c7_leading_quote_sentinel "  >No known interactions were found. ".data (by decide)
  rw [this]
  decide

/-! ## C4: normalizer behavior on header-free text -/

theorem usevGo_no_match (fuel : Nat) (l : Chars) (h : hasSevMatchB l = false) :
    usevGo fuel l = l := by
  induction fuel generalizing l with
  | zero => rfl
  | succ f ih =>
    cases l with
    | nil => rfl
    | cons c rest =>
      rw [hasSevMatchB] at h
      rw [Bool.or_eq_false_iff] at h
      obtain ⟨h1, h2⟩ := h
      cases hm : matchSev (c :: rest) with
      | some v => rw [hm] at h1; simp at h1
      | none => rw [usevGo, hm]; rw [ih rest h2]

theorem capGo_no_match (fuel : Nat) (l : Chars) (h : hasInterLineMatchB l = false) :
    capGo fuel l = l := by
  induction fuel generalizing l with
  | zero => rfl
  | succ f ih =>
    cases l with
    | nil => rfl
    | cons c rest =>
      rw [hasInterLineMatchB] at h
      rw [Bool.or_eq_false_iff] at h
      obtain ⟨h1, h2⟩ := h
      cases hm : matchInterLine (c :: rest) with
      | some v => rw [hm] at h1; simp at h1
      | none => rw [capGo, hm]; rw [ih rest h2]

/-- C4 counterexample: `"a  b"` contains no recognizable section header
(neither the severity pattern nor the interaction-line pattern matches
anywhere), yet the Response Normalizer does not return it unchanged — it
collapses the double space. -/
theorem c4_no_verbatim_passthrough :
    hasSevMatchB "a  b".data = false
  ∧ hasInterLineMatchB "a  b".data = false
  ∧ normalize_answer "a  b".data = "a b".data
  ∧ "a  b".data ≠ "a b".data := by
  refine ⟨by decide, by decide, by decide, by decide⟩

/-- C4 amended: on text in which no severity pattern and no interaction-line
pattern is recognizable (after the whitespace passes), the Response
Normalizer performs exactly its two whitespace collapses and nothing else —
no header or body text is discarded and no casing changes, but runs of
spaces and of three-or-more newlines are still collapsed, so the input is
generally not returned verbatim. -/
theorem c4_amended_whitespace_only (s : Chars)
    (h1 : hasSevMatchB (collapse_spaces (collapse_newlines s)) = false)
    (h2 : hasInterLineMatchB (collapse_spaces (collapse_newlines s)) = false) :
    normalize_answer s = collapse_spaces (collapse_newlines s) := by
  unfold normalize_answer uppercase_severity capitalize_medications
  rw [usevGo_no_match _ _ h1]
  rw [capGo_no_match _ _ h2]

/-- Witness for the amended C4 at a concrete header-free input. -/
theorem c4_amended_whitespace_only_witness :
    normalize_answer "plain  text\n\n\n\nno headers".data =
      collapse_spaces (collapse_newlines "plain  text\n\n\n\nno headers".data) :=
  c4_amended_whitespace_only "plain  text\n\n\n\nno headers".data (by decide) (by decide)

/-! ## Substring infrastructure (used by C1) -/

theorem containsSeqB_of_suffix (pat t l : Chars) (ht : t <:+ l) (hp : pat <+: t) :
    containsSeqB pat l = true := by
  induction l with
  | nil =>
    have : t = [] := List.eq_nil_of_suffix_nil ht
    rw [containsSeqB, List.isPrefixOf_iff_prefix]
    exact this ▸ hp
  | cons c rest ih =>
    rw [containsSeqB, Bool.or_eq_true]
    rcases List.suffix_cons_iff.mp ht with h1 | h2
    · exact Or.inl (List.isPrefixOf_iff_prefix.mpr (h1 ▸ hp))
    · exact Or.inr (ih h2)

theorem containsSeqB_of_inf (pat m l : Chars) (h1 : pat <+: m) (h2 : m <:+: l) :
    containsSeqB pat l = true := by
  obtain ⟨u, v, huv⟩ := h2
  have hsuf : m ++ v <:+ l := ⟨u, by rw [← huv]; simp⟩
  exact containsSeqB_of_suffix pat (m ++ v) l hsuf (h1.trans (List.prefix_append m v))

theorem splitNl_cons_ne (c : Char) (l : Chars) (h : c ≠ '\n') :
    splitNl (c :: l) = consHead c (splitNl l) := by
  rw [splitNl.eq_def]
  split
  · rename_i rest heq
    injection heq with h1 h2
    exact absurd h1 h
  · rename_i c' rest heq
    injection heq with h1 h2
    rw [← h1, ← h2]
  · rename_i heq
    exact absurd heq (by simp)

theorem splitInterGo_pat (fuel : Nat) (rest : Chars)
    (h : "**Interaction".data.isPrefixOf rest = true) :
    splitInterGo (fuel + 1) ('\n' :: rest) = [] :: splitInterGo fuel (rest.drop 13) := by
  rw [splitInterGo, h]
  rfl

theorem splitInterGo_cons_ne (fuel : Nat) (c : Char) (rest : Chars)
    (h : c ≠ '\n' ∨ "**Interaction".data.isPrefixOf rest = false) :
    splitInterGo (fuel + 1) (c :: rest) = consHead c (splitInterGo fuel rest) := by
  rw [splitInterGo]
  rcases h with h | h
  · rw [if_neg]
    intro hc
    rw [Bool.and_eq_true] at hc
    exact h (by simpa using hc.1)
  · rw [h, if_neg (by simp)]

theorem splitInterGo_fuel : ∀ (f f' : Nat) (l : Chars), l.length ≤ f → l.length ≤ f' →
    splitInterGo f l = splitInterGo f' l := by
  intro f
  induction f with
  | zero =>
    intro f' l hf hf'
    cases l with
    | nil => cases f' <;> rfl
    | cons c rest => simp at hf
  | succ f ih =>
    intro f' l hf hf'
    cases l with
    | nil => cases f' <;> rfl
    | cons c rest =>
      cases f' with
      | zero => simp at hf'
      | succ f' =>
        rw [splitInterGo, splitInterGo]
        simp only [List.length_cons] at hf hf'
        by_cases hc : (c == '\n' && "**Interaction".data.isPrefixOf rest) = true
        · rw [if_pos hc, if_pos hc]
          have : (rest.drop 13).length ≤ rest.length := by
            rw [List.length_drop]
            omega
          rw [ih f' (rest.drop 13) (by omega) (by omega)]
        · rw [if_neg hc, if_neg hc]
          rw [ih f' rest (by omega) (by omega)]

theorem splitInter_cons_ne (c : Char) (l : Chars)
    (h : c ≠ '\n' ∨ "**Interaction".data.isPrefixOf l = false) :
    splitInter (c :: l) = consHead c (splitInter l) := by
  unfold splitInter
  rw [List.length_cons, splitInterGo_cons_ne _ c l h]

theorem splitInter_pat (rest : Chars)
    (h : "**Interaction".data.isPrefixOf rest = true) :
    splitInter ('\n' :: rest) = [] :: splitInter (rest.drop 13) := by
  unfold splitInter
  rw [List.length_cons, splitInterGo_pat _ _ h]
  have h13 : 13 ≤ rest.length := by
    have := (List.isPrefixOf_iff_prefix.mp h).length_le
    simpa using this
  rw [splitInterGo_fuel rest.length (rest.drop 13).length (rest.drop 13)
    (by rw [List.length_drop]; omega) le_rfl]

theorem splitInter_pieces_aux : ∀ (n : Nat) (l : Chars), l.length ≤ n →
    ∃ h t, splitInter l = h :: t ∧ h <+: l ∧ ∀ p ∈ t, p <:+: l := by
  intro n
  induction n with
  | zero =>
    intro l hl
    cases l with
    | nil => exact ⟨[], [], rfl, List.nil_prefix, by simp⟩
    | cons c rest => simp at hl
  | succ n ih =>
    intro l hl
    cases l with
    | nil => exact ⟨[], [], rfl, List.nil_prefix, by simp⟩
    | cons c rest =>
      by_cases hpat : c = '\n' ∧ "**Interaction".data.isPrefixOf rest = true
      · obtain ⟨hc, hpre13⟩ := hpat
        subst hc
        have h13 : 13 ≤ rest.length := by
          have := (List.isPrefixOf_iff_prefix.mp hpre13).length_le
          simpa using this
        have hr'len : (rest.drop 13).length ≤ n := by
          rw [List.length_drop]
          simp at hl
          omega
        refine ⟨[], splitInter (rest.drop 13), splitInter_pat rest hpre13,
          List.nil_prefix, ?_⟩
        intro p hp
        have hrsuf : rest.drop 13 <:+ ('\n' :: rest) :=
          (List.drop_suffix 13 rest).trans (List.suffix_cons '\n' rest)
        obtain ⟨h, t, heq, hpre, hinf⟩ := ih (rest.drop 13) hr'len
        rw [heq] at hp
        rcases List.mem_cons.mp hp with h1 | h2
        · exact (h1 ▸ hpre.isInfix).trans hrsuf.isInfix
        · exact (hinf p h2).trans hrsuf.isInfix
      · have hne : c ≠ '\n' ∨ "**Interaction".data.isPrefixOf rest = false := by
          by_cases hc : c = '\n'
          · right
            cases hb : "**Interaction".data.isPrefixOf rest with
            | true => exact absurd ⟨hc, hb⟩ hpat
            | false => rfl
          · exact Or.inl hc
        have hrlen : rest.length ≤ n := by simp at hl; omega
        obtain ⟨h, t, heq, hpre, hinf⟩ := ih rest hrlen
        rw [splitInter_cons_ne c rest hne, heq]
        refine ⟨c :: h, t, rfl, List.cons_prefix_cons.mpr ⟨rfl, hpre⟩, ?_⟩
        intro p hp
        exact (hinf p hp).trans ((List.suffix_cons c rest).isInfix)

theorem splitInter_pieces (l : Chars) :
    ∃ h t, splitInter l = h :: t ∧ h <+: l ∧ ∀ p ∈ t, p <:+: l :=
  splitInter_pieces_aux l.length l le_rfl

theorem splitInter_mem_inf (l : Chars) (p : Chars) (hp : p ∈ splitInter l) :
    p <:+: l := by
  obtain ⟨h, t, heq, hpre, hinf⟩ := splitInter_pieces l
  rw [heq] at hp
  rcases List.mem_cons.mp hp with h1 | h2
  · exact h1 ▸ hpre.isInfix
  · exact hinf p h2

theorem splitNl_pieces (l : Chars) :
    ∃ h t, splitNl l = h :: t ∧ h <+: l ∧ ∀ p ∈ t, p <:+: l := by
  induction l with
  | nil => exact ⟨[], [], rfl, List.nil_prefix, by simp⟩
  | cons c rest ih =>
    obtain ⟨h, t, heq, hpre, hinf⟩ := ih
    by_cases hc : c = '\n'
    · subst hc
      refine ⟨[], splitNl rest, by rw [splitNl], List.nil_prefix, ?_⟩
      intro p hp
      have hrest : rest <:+: ('\n' :: rest) := (List.suffix_cons '\n' rest).isInfix
      rw [heq] at hp
      rcases List.mem_cons.mp hp with h1 | h2
      · exact (h1 ▸ hpre.isInfix).trans hrest
      · exact (hinf p h2).trans hrest
    · rw [splitNl_cons_ne c rest hc, heq]
      refine ⟨c :: h, t, rfl, List.cons_prefix_cons.mpr ⟨rfl, hpre⟩, ?_⟩
      intro p hp
      exact (hinf p hp).trans ((List.suffix_cons c rest).isInfix)

theorem splitNl_mem_inf (l : Chars) (p : Chars) (hp : p ∈ splitNl l) :
    p <:+: l := by
  obtain ⟨h, t, heq, hpre, hinf⟩ := splitNl_pieces l
  rw [heq] at hp
  rcases List.mem_cons.mp hp with h1 | h2
  · exact h1 ▸ hpre.isInfix
  · exact hinf p h2

theorem pyStripEnd_pre (m : Chars) : pyStripEnd m <+: m := by
  unfold pyStripEnd
  have h1 : m.reverse.dropWhile isPySpace <:+ m.reverse := List.dropWhile_suffix _
  have h2 : (m.reverse.dropWhile isPySpace).reverse <+: m.reverse.reverse :=
    List.reverse_prefix.mpr (by simpa using h1)
  simpa using h2

theorem pyStrip_inf (l : Chars) : pyStrip l <:+: l := by
  unfold pyStrip
  exact ((pyStripEnd_pre _).isInfix).trans (List.dropWhile_suffix isPySpace).isInfix

theorem splitNl_append_nlfree (a l : Chars) (ha : ∀ c ∈ a, c ≠ '\n') :
    ∃ h0 t0, splitNl l = h0 :: t0 ∧ splitNl (a ++ l) = (a ++ h0) :: t0 := by
  induction a with
  | nil =>
    obtain ⟨h0, t0, heq, _, _⟩ := splitNl_pieces l
    exact ⟨h0, t0, heq, by simpa using heq⟩
  | cons c a ih =>
    obtain ⟨h0, t0, heq, heq2⟩ := ih fun x hx => ha x (by simp [hx])
    refine ⟨h0, t0, heq, ?_⟩
    rw [List.cons_append, splitNl_cons_ne c _ (ha c (by simp)), heq2]
    rfl

theorem splitDrugGo_no_match (fuel : Nat) (l : Chars) (h : hasDrugHdrB l = false) :
    splitDrugGo fuel l = [l] := by
  induction fuel generalizing l with
  | zero => rfl
  | succ f ih =>
    cases l with
    | nil => rfl
    | cons c rest =>
      rw [hasDrugHdrB, Bool.or_eq_false_iff] at h
      obtain ⟨h1, h2⟩ := h
      cases hm : matchDrugHdr (c :: rest) with
      | some v => rw [hm] at h1; simp at h1
      | none => rw [splitDrugGo, hm, ih rest h2]; rfl

/-! ## C1: totality and the shape of output on unrecognizable input -/

theorem pyStripEnd_concat_append (pre0 : Chars) (d : Char) (x : Chars)
    (hd : isPySpace d = false) :
    pyStripEnd ((pre0 ++ [d]) ++ x) = (pre0 ++ [d]) ++ pyStripEnd x := by
  unfold pyStripEnd
  rw [List.reverse_append, List.reverse_append, List.dropWhile_append]
  by_cases he : (x.reverse.dropWhile isPySpace).isEmpty
  · rw [if_pos he]
    have hx0 : x.reverse.dropWhile isPySpace = [] := List.isEmpty_iff.mp he
    rw [hx0]
    simp [List.dropWhile_cons, hd]
  · rw [if_neg he]
    simp

theorem pyStrip_interTag_append (x : Chars) :
    pyStrip ("**Interaction".data ++ x) = "**Interaction".data ++ pyStripEnd x := by
  unfold pyStrip
  have h1 : ("**Interaction".data ++ x).dropWhile isPySpace = "**Interaction".data ++ x := by
    show List.dropWhile isPySpace ('*' :: ("*Interaction".data ++ x)) = _
    rw [List.dropWhile_cons]
    have hs : isPySpace '*' = false := by decide
    rw [hs]
    simp
  rw [h1]
  have hsplit : "**Interaction".data = "**Interactio".data ++ ['n'] := by decide
  rw [hsplit]
  exact pyStripEnd_concat_append "**Interactio".data 'n' x (by decide)

theorem not_isPrefixOf_of_clash (p q l : Chars) (hp : p <+: l)
    (hclash : (p.isPrefixOf q || q.isPrefixOf p) = false) :
    q.isPrefixOf l = false := by
  cases hq : q.isPrefixOf l with
  | false => rfl
  | true =>
    exfalso
    rcases List.prefix_or_prefix_of_prefix hp (List.isPrefixOf_iff_prefix.mp hq) with h | h
    · rw [Bool.or_eq_false_iff] at hclash
      rw [List.isPrefixOf_iff_prefix.mpr h] at hclash
      simp at hclash
    · rw [Bool.or_eq_false_iff] at hclash
      rw [List.isPrefixOf_iff_prefix.mpr h] at hclash
      simp at hclash

theorem header_not_pre_of_inf (hdr sec u : Chars) (hinf : sec <:+: u)
    (hcs : containsSeqB hdr u = false) :
    hdr.isPrefixOf (pyStrip sec) = false := by
  cases hq : hdr.isPrefixOf (pyStrip sec) with
  | false => rfl
  | true =>
    exfalso
    have := containsSeqB_of_inf hdr (pyStrip sec) u
      (List.isPrefixOf_iff_prefix.mp hq) ((pyStrip_inf sec).trans hinf)
    rw [this] at hcs
    simp at hcs

theorem parseSection_preserves (r : InterRec) (sec0 : Chars)
    (hP : onlyInteractionField r)
    (h2 : "**Severity**:".data.isPrefixOf (pyStrip sec0) = false)
    (h3 : "**What happens**:".data.isPrefixOf (pyStrip sec0) = false)
    (h4 : "**Risks or symptoms**:".data.isPrefixOf (pyStrip sec0) = false)
    (h5 : "**Advice**:".data.isPrefixOf (pyStrip sec0) = false) :
    onlyInteractionField (parseSection r sec0) := by
  unfold parseSection
  by_cases h0 : pyStrip sec0 = []
  · simp only [h0, if_true, if_pos]
    exact hP
  · rw [if_neg h0]
    by_cases h1 : "**Interaction".data.isPrefixOf (pyStrip sec0) = true
    · rw [if_pos h1]
      exact hP
    · simp only [Bool.not_eq_true] at h1
      simp only [h1, h2, h3, h4, h5, Bool.false_eq_true, if_false]
      exact hP

theorem foldl_parseSection_preserves (secs : List Chars) (r : InterRec)
    (hP : onlyInteractionField r)
    (hsecs : ∀ sec ∈ secs,
      "**Severity**:".data.isPrefixOf (pyStrip sec) = false
      ∧ "**What happens**:".data.isPrefixOf (pyStrip sec) = false
      ∧ "**Risks or symptoms**:".data.isPrefixOf (pyStrip sec) = false
      ∧ "**Advice**:".data.isPrefixOf (pyStrip sec) = false) :
    onlyInteractionField (secs.foldl parseSection r) := by
  induction secs generalizing r with
  | nil => exact hP
  | cons sec secs ih =>
    rw [List.foldl_cons]
    obtain ⟨hh2, hh3, hh4, hh5⟩ := hsecs sec (by simp)
    exact ih (parseSection r sec) (parseSection_preserves r sec hP hh2 hh3 hh4 hh5)
      fun t ht => hsecs t (List.mem_cons_of_mem sec ht)

theorem parseBlocks_mem (bs : List Chars) (r : InterRec) (hr : r ∈ parseBlocks bs) :
    ∃ b ∈ bs, pyStrip b ≠ [] ∧ r = parseBlock (pyStrip b) := by
  induction bs with
  | nil => simp [parseBlocks] at hr
  | cons b bs ih =>
    rw [parseBlocks] at hr
    by_cases hb : pyStrip b = []
    · rw [if_pos hb] at hr
      obtain ⟨b', hb', hne, heq⟩ := ih hr
      exact ⟨b', by simp [hb'], hne, heq⟩
    · rw [if_neg hb] at hr
      rcases List.mem_cons.mp hr with h1 | h2
      · exact ⟨b, by simp, hb, h1⟩
      · obtain ⟨b', hb', hne, heq⟩ := ih h2
        exact ⟨b', by simp [hb'], hne, heq⟩

theorem noInterHdrsB_spec (u : Chars) (h : noInterHdrsB u = true) :
    containsSeqB "**Interaction".data u = false
  ∧ containsSeqB "**Severity**:".data u = false
  ∧ containsSeqB "**What happens**:".data u = false
  ∧ containsSeqB "**Risks or symptoms**:".data u = false
  ∧ containsSeqB "**Advice**:".data u = false := by
  simp only [noInterHdrsB, interHdrs, List.all_cons, List.all_nil, Bool.and_eq_true,
    Bool.not_eq_true'] at h
  exact ⟨h.1, h.2.1, h.2.2.1, h.2.2.2.1, h.2.2.2.2.1⟩

theorem parse_drug_info_no_headers (s : Chars) (hd : hasDrugHdrB (unescape s) = false) :
    parse_drug_info s = emptyDrugInfoRec := by
  simp only [parse_drug_info, splitDrug]
  rw [splitDrugGo_no_match _ _ hd]
  rfl

/-- C1 counterexample: `"hello"` contains none of the recognized headers,
yet `parse_interactions` returns neither the empty record set nor a default
record — it produces one record whose interaction field holds the junk text
`"**Interactionhello"` (the re-attached split token plus the fragment).
(`parse_drug_info` does return the all-default record here.) -/
theorem c1_unrecognizable_not_default :
    noInterHdrsB (unescape "hello".data) = true
  ∧ hasDrugHdrB (unescape "hello".data) = false
  ∧ parse_interactions "hello".data = [⟨"**Interactionhello".data, [], [], [], [], []⟩]
  ∧ parse_interactions "hello".data ≠ []
  ∧ ∀ r ∈ parse_interactions "hello".data, r ≠ emptyInterRec := by
  refine ⟨by decide, by decide, by decide, by decide, by decide⟩

/-- C1 amended: both parsers are total by construction (every input yields a
value; no exception paths exist in the embedding).  On input with no
recognized headers, `parse_drug_info` returns the all-default record, and
`parse_interactions` — rather than returning an empty/default record set —
returns one record per non-blank fragment in which only the interaction
field may be non-empty (it carries the unparsed fragment text). -/
theorem c1_amended_default_shape (s : Chars) :
    (hasDrugHdrB (unescape s) = false → parse_drug_info s = emptyDrugInfoRec)
  ∧ (noInterHdrsB (unescape s) = true →
      ">".data.isPrefixOf (pyStrip (unescape s)) = false →
      ∀ r ∈ parse_interactions s, onlyInteractionField r) := by
  refine ⟨parse_drug_info_no_headers s, ?_⟩
  intro hno hgt r hr
  obtain ⟨hcI, hcS, hcW, hcR, hcA⟩ := noInterHdrsB_spec (unescape s) hno
  rw [parse_interactions] at hr
  simp only [hgt, Bool.false_eq_true, if_false] at hr
  obtain ⟨b, hb, hbne, heq⟩ := parseBlocks_mem _ r hr
  have hbinf : b <:+: unescape s := splitInter_mem_inf _ b hb
  have hb'inf : pyStrip b <:+: unescape s := (pyStrip_inf b).trans hbinf
  have hpre : "**Interaction".data.isPrefixOf (pyStrip b) = false := by
    cases hq : "**Interaction".data.isPrefixOf (pyStrip b) with
    | false => rfl
    | true =>
      exfalso
      have := containsSeqB_of_inf "**Interaction".data (pyStrip b) (unescape s)
        (List.isPrefixOf_iff_prefix.mp hq) hb'inf
      rw [this] at hcI
      simp at hcI
  rw [heq]
  unfold parseBlock
  simp only [hpre, Bool.false_eq_true, if_false]
  obtain ⟨h0, t0, hsplit0, hsplitapp⟩ :=
    splitNl_append_nlfree "**Interaction".data (pyStrip b) (by decide)
  rw [hsplitapp]
  apply foldl_parseSection_preserves
  · exact ⟨rfl, rfl, rfl, rfl, rfl⟩
  · intro sec hsec
    rcases List.mem_cons.mp hsec with h1 | h2
    · subst h1
      have hp : "**Interaction".data <+: pyStrip ("**Interaction".data ++ h0) := by
        rw [pyStrip_interTag_append]
        exact List.prefix_append _ _
      exact ⟨not_isPrefixOf_of_clash _ _ _ hp (by decide),
        not_isPrefixOf_of_clash _ _ _ hp (by decide),
        not_isPrefixOf_of_clash _ _ _ hp (by decide),
        not_isPrefixOf_of_clash _ _ _ hp (by decide)⟩
    · have hsinf : sec <:+: unescape s := by
        have hmem : sec ∈ splitNl (pyStrip b) := by
          rw [hsplit0]
          exact List.mem_cons_of_mem h0 h2
        exact (splitNl_mem_inf _ sec hmem).trans hb'inf
      exact ⟨header_not_pre_of_inf _ sec _ hsinf hcS,
        header_not_pre_of_inf _ sec _ hsinf hcW,
        header_not_pre_of_inf _ sec _ hsinf hcR,
        header_not_pre_of_inf _ sec _ hsinf hcA⟩

/-- Witness for the amended C1 at the concrete header-free input
`"hello"`. -/
theorem c1_amended_default_shape_witness :
    parse_drug_info "hello".data = emptyDrugInfoRec
  ∧ ∀ r ∈ parse_interactions "hello".data, onlyInteractionField r :=
  ⟨(c1_amended_default_shape "hello".data).1 (by decide),
   (c1_amended_default_shape "hello".data).2 (by decide) (by decide)⟩

/-! ## C8: fragments without recognized headers are not dropped -/

/-- C8 counterexample: the fragment `"noise"` produced by the split contains
none of the five recognized header prefixes, yet it is not dropped — it
contributes a record (with the re-attached `**Interaction` token and the
fragment text in the interaction field), in front of the real block's
record. -/
theorem c8_noise_fragment_not_dropped :
    parse_interactions "noise\n**Interaction 1**: A + B\n**Severity**: mild".data =
      [⟨"**Interactionnoise".data, [], [], [], [], []⟩,
       ⟨"A + B".data, "mild".data, [], [], [], []⟩] := by
  decide

theorem parseBlocks_length (bs : List Chars) :
    (parseBlocks bs).length = bs.countP fun b => !(pyStrip b).isEmpty := by
  induction bs with
  | nil => rfl
  | cons b bs ih =>
    rw [parseBlocks, List.countP_cons]
    by_cases hb : pyStrip b = []
    · rw [if_pos hb]
      simp [hb, ih]
    · rw [if_neg hb]
      have : (!(pyStrip b).isEmpty) = true := by
        simpa [List.isEmpty_iff] using hb
      simp [this, ih]
      try omega

/-- C8 amended: only fragments that are blank after stripping are dropped.
Every fragment that is non-blank after stripping contributes exactly one
record to the output, whether or not it contains any recognized header
prefix: the record count equals the count of non-blank fragments. -/
theorem c8_amended_only_blank_dropped (s : Chars)
    (h : ">".data.isPrefixOf (pyStrip (unescape s)) = false) :
    (parse_interactions s).length =
      (splitInter (unescape s)).countP (fun b => !(pyStrip b).isEmpty) := by
  simp only [parse_interactions, h, Bool.false_eq_true, if_false]
  exact parseBlocks_length _

/-- Witness for the amended C8: a stream with a blank fragment, a headerless
non-blank fragment, and a real block yields one record per non-blank
fragment. -/
theorem c8_amended_only_blank_dropped_witness :
    (parse_interactions "junk\n**Interaction 1**: A + B\n**Severity**: mild\n\n**Interaction".data).length =
      (splitInter (unescape "junk\n**Interaction 1**: A + B\n**Severity**: mild\n\n**Interaction".data)).countP
        (fun b => !(pyStrip b).isEmpty) :=
  c8_amended_only_blank_dropped _ (by decide)

/-! ## C5: well-formed block streams — the ordinal is not carried -/

/-- C5 counterexample: two well-formed blocks that differ only in their
header ordinals (`1` and `2`) parse to two *identical* records — the
ordinal is stripped by the header substitution and `parse_interactions`
records carry no ordinal at all, so the records cannot carry the
generator's strictly increasing numbering. -/
theorem c5_ordinal_not_carried :
    parse_interactions ("**Interaction 1**: A + B\n**Severity**: mild\n**What happens**: w\n**Risks or symptoms**: r\n**Advice**: a\n\n**Interaction 2**: A + B\n**Severity**: mild\n**What happens**: w\n**Risks or symptoms**: r\n**Advice**: a").data =
      [⟨"A + B".data, "mild".data, "w".data, "r".data, "a".data, []⟩,
       ⟨"A + B".data, "mild".data, "w".data, "r".data, "a".data, []⟩] := by
  decide

theorem dropOptSpace_space (t : Chars) : dropOptSpace (' ' :: t) = t := rfl

theorem dropOptSpace_cons_ne (c : Char) (t : Chars) (h : c ≠ ' ') :
    dropOptSpace (c :: t) = c :: t := by
  rw [dropOptSpace.eq_def]
  split
  · rename_i t' heq
    injection heq with e1 e2
    exact absurd e1 h
  · rfl

theorem prependHead_cons (a : Chars) (p : Chars) (ps : List Chars) :
    prependHead a (p :: ps) = (a ++ p) :: ps := rfl

theorem consHead_eq_prependHead (c : Char) (ll : List Chars) :
    consHead c ll = prependHead [c] ll := by
  cases ll <;> rfl

theorem prependHead_prependHead (a b : Chars) (ll : List Chars) :
    prependHead a (prependHead b ll) = prependHead (a ++ b) ll := by
  cases ll <;> simp [prependHead]

theorem splitInter_append_nlfree (a : Chars) (ha : ∀ c ∈ a, c ≠ '\n') (l : Chars) :
    splitInter (a ++ l) = prependHead a (splitInter l) := by
  induction a with
  | nil =>
    obtain ⟨h, t, heq, _, _⟩ := splitInter_pieces l
    rw [List.nil_append, heq]
    rfl
  | cons c a ih =>
    rw [List.cons_append,
      splitInter_cons_ne c (a ++ l) (Or.inl (ha c (by simp))),
      ih fun x hx => ha x (by simp [hx]),
      consHead_eq_prependHead, prependHead_prependHead]
    rfl

theorem unescape_no_backslash (s : Chars) (h : '\\' ∉ s) : unescape s = s := by
  induction s using unescape.induct with
  | case1 rest ih => simp at h
  | case2 c rest hne ih =>
    rw [unescape_cons c rest hne]
    rw [ih fun hm => h (List.mem_cons_of_mem c hm)]
  | case3 => rfl

theorem escapeStars_cons (c : Char) (l : Chars)
    (h : ∀ t, c = '*' → l = '*' :: t → False) :
    escapeStars (c :: l) = c :: escapeStars l := by
  rw [escapeStars.eq_def]
  split
  · rename_i rest heq
    injection heq with h1 h2
    exact (h rest h1 h2).elim
  · rename_i c' rest heq
    injection heq with h1 h2
    rw [← h1, ← h2]
  · rename_i heq
    exact absurd heq (by simp)

theorem unescape_escapeStars (s : Chars) (h : '\\' ∉ s) :
    unescape (escapeStars s) = s := by
  induction s using escapeStars.induct with
  | case1 rest ih =>
    show unescape ('\\' :: '*' :: '\\' :: '*' :: escapeStars rest) = _
    show '*' :: '*' :: unescape (escapeStars rest) = _
    rw [ih fun hm => h (by simp [hm])]
  | case2 c rest hne ih =>
    rw [escapeStars_cons c rest hne]
    have hc : c ≠ '\\' := fun hcc => h (hcc ▸ List.mem_cons_self c rest)
    rw [unescape_cons_ne c _ hc]
    rw [ih fun hm => h (List.mem_cons_of_mem c hm)]
  | case3 => rfl

theorem pyStrip_cons_space (c : Char) (t : Chars) (hc : isPySpace c = true) :
    pyStrip (c :: t) = pyStrip t := by
  unfold pyStrip
  rw [List.dropWhile_cons, if_pos hc]

theorem goodText_head (f : Chars) (hg : goodText f) :
    ∃ c t, f = c :: t ∧ isPySpace c = false := by
  obtain ⟨hne, hstrip, _, _⟩ := hg
  cases f with
  | nil => exact absurd rfl hne
  | cons c t =>
    cases hc : isPySpace c with
    | false => exact ⟨c, t, rfl, hc⟩
    | true =>
      exfalso
      rw [pyStrip_cons_space c t hc] at hstrip
      have hlen := congrArg List.length hstrip
      have hle : (pyStrip t).length ≤ t.length := (pyStrip_inf t).length_le
      simp at hlen
      omega

theorem goodText_concat (f : Chars) (hg : goodText f) :
    ∃ p d, f = p ++ [d] ∧ isPySpace d = false := by
  obtain ⟨c, t, hct, hc⟩ := goodText_head f hg
  obtain ⟨_, hstrip, _, _⟩ := hg
  have hE : pyStripEnd f = f := by
    have h1 : f.dropWhile isPySpace = f := by
      rw [hct, List.dropWhile_cons, hc]
      simp
    rw [pyStrip, h1] at hstrip
    exact hstrip
  cases hr : f.reverse with
  | nil =>
    exfalso
    have : f = [] := by simpa using congrArg List.reverse hr
    rw [hct] at this
    simp at this
  | cons d r =>
    have hf : f = r.reverse ++ [d] := by
      have := congrArg List.reverse hr
      simpa using this
    refine ⟨r.reverse, d, hf, ?_⟩
    cases hd : isPySpace d with
    | false => rfl
    | true =>
      exfalso
      have hcomp : pyStripEnd f = (r.dropWhile isPySpace).reverse := by
        unfold pyStripEnd
        rw [hr, List.dropWhile_cons, if_pos hd]
      rw [hE] at hcomp
      have hlen := congrArg List.length hcomp
      have hsuf : r.dropWhile isPySpace <:+ r := List.dropWhile_suffix isPySpace
      have hle : (r.dropWhile isPySpace).length ≤ r.length := hsuf.length_le
      have hfl : f.length = r.length + 1 := by
        have := congrArg List.length hf
        simpa using this
      simp at hlen
      omega

theorem pyStripEnd_append_right (y x : Chars)
    (hy : ∃ p d, y = p ++ [d] ∧ isPySpace d = false) :
    pyStripEnd (y ++ x) = y ++ pyStripEnd x := by
  obtain ⟨p, d, rfl, hd⟩ := hy
  exact pyStripEnd_concat_append p d x hd

theorem pyStripEnd_self (y : Chars)
    (hy : ∃ p d, y = p ++ [d] ∧ isPySpace d = false) : pyStripEnd y = y := by
  have := pyStripEnd_append_right y [] hy
  simpa [pyStripEnd] using this

theorem pyStrip_eq_self_of (l : Chars)
    (hhead : ∃ c t, l = c :: t ∧ isPySpace c = false)
    (hlast : ∃ p d, l = p ++ [d] ∧ isPySpace d = false) : pyStrip l = l := by
  obtain ⟨c, t, rfl, hc⟩ := hhead
  unfold pyStrip
  rw [List.dropWhile_cons, hc]
  simp only [Bool.false_eq_true, if_false]
  exact pyStripEnd_self _ hlast

theorem pyStrip_append_pad (y pad : Chars)
    (hhead : ∃ c t, y = c :: t ∧ isPySpace c = false)
    (hlast : ∃ p d, y = p ++ [d] ∧ isPySpace d = false)
    (hpad : pyStripEnd pad = []) : pyStrip (y ++ pad) = y := by
  obtain ⟨c, t, hct, hc⟩ := hhead
  unfold pyStrip
  have hcons : y ++ pad = c :: (t ++ pad) := by rw [hct]; rfl
  rw [hcons, List.dropWhile_cons, hc]
  simp only [Bool.false_eq_true, if_false]
  rw [← hcons, pyStripEnd_append_right y pad hlast, hpad, List.append_nil]

theorem not_mem_append (c : Char) (a b : Chars) (ha : c ∉ a) (hb : c ∉ b) :
    c ∉ a ++ b := by
  simp only [List.mem_append]
  tauto

theorem nlfree_of_not_mem (a : Chars) (h : '\n' ∉ a) : ∀ c ∈ a, c ≠ '\n' :=
  fun _ hc hcn => h (hcn ▸ hc)

theorem nlfree_of_digits (a : Chars) (h : ∀ c ∈ a, c.isDigit = true) :
    ∀ c ∈ a, c ≠ '\n' := by
  intro c hc hcn
  have hd := h c hc
  rw [hcn] at hd
  simp [Char.isDigit] at hd

theorem digit_head_facts (c : Char) (h : c.isDigit = true) :
    isPySpace c = false ∧ c ≠ ' ' ∧ c ≠ '*' := by
  refine ⟨?_, ?_, ?_⟩
  · cases hc : isPySpace c with
    | false => rfl
    | true =>
      exfalso
      simp only [isPySpace, Bool.or_eq_true, beq_iff_eq] at hc
      have hc6 : c = ' ' ∨ c = '\t' ∨ c = '\n' ∨ c = '\r' ∨ c = '\x0b' ∨ c = '\x0c' := by
        tauto
      rcases hc6 with h' | h' | h' | h' | h' | h' <;>
        · subst h'
          exact absurd h (by decide)
  · intro hcc
    subst hcc
    exact absurd h (by decide)
  · intro hcc
    subst hcc
    exact absurd h (by decide)

theorem isPrefixOf_self_append (p r : Chars) : p.isPrefixOf (p ++ r) = true :=
  List.isPrefixOf_iff_prefix.mpr (List.prefix_append p r)

theorem isPrefixOf_cons_head_ne (p c : Char) (ps cs : Chars) (h : p ≠ c) :
    (p :: ps).isPrefixOf (c :: cs) = false := by
  simp [List.isPrefixOf, h]

theorem splitNl_nlfree (a : Chars) (ha : ∀ c ∈ a, c ≠ '\n') : splitNl a = [a] := by
  obtain ⟨h0, t0, heq, heq2⟩ := splitNl_append_nlfree a [] ha
  have h00 : (h0 : Chars) = [] ∧ t0 = [] := by
    have hinj : ([[]] : List Chars) = h0 :: t0 := heq
    injection hinj with e1 e2
    exact ⟨e1.symm, e2.symm⟩
  obtain ⟨rfl, rfl⟩ := h00
  simpa using heq2

theorem splitNl_nlfree_cons (a r : Chars) (ha : ∀ c ∈ a, c ≠ '\n') :
    splitNl (a ++ '\n' :: r) = a :: splitNl r := by
  obtain ⟨h0, t0, heq, heq2⟩ := splitNl_append_nlfree a ('\n' :: r) ha
  have hsplit : splitNl ('\n' :: r) = [] :: splitNl r := by rw [splitNl]
  rw [hsplit] at heq
  injection heq with e1 e2
  rw [heq2, ← e1, ← e2]
  simp

theorem nlfree_append (a b : Chars) (ha : ∀ c ∈ a, c ≠ '\n') (hb : ∀ c ∈ b, c ≠ '\n') :
    ∀ c ∈ a ++ b, c ≠ '\n' := by
  intro c hc
  rcases List.mem_append.mp hc with h | h
  · exact ha c h
  · exact hb c h

theorem goodText_nlfree (f : Chars) (hf : goodText f) : ∀ c ∈ f, c ≠ '\n' :=
  nlfree_of_not_mem f hf.2.2.1

theorem pyStrip_lit_goodText (lit f : Chars) (c0 : Char) (t0 : Chars)
    (hlit : lit = c0 :: t0) (hc0 : isPySpace c0 = false) (hf : goodText f) :
    pyStrip (lit ++ f) = lit ++ f := by
  obtain ⟨p, d, hfd, hd⟩ := goodText_concat f hf
  apply pyStrip_eq_self_of
  · exact ⟨c0, t0 ++ f, by rw [hlit]; rfl, hc0⟩
  · refine ⟨lit ++ p, d, ?_, hd⟩
    rw [hfd, ← List.append_assoc]

theorem pyStrip_sevLine (b : GenBlock) (hb : goodBlock b) :
    pyStrip (sevLine b) = sevLine b :=
  pyStrip_lit_goodText "**Severity**: ".data b.sev '*' "*Severity**: ".data rfl
    (by decide) hb.2.2.2.1

theorem pyStrip_whatLine (b : GenBlock) (hb : goodBlock b) :
    pyStrip (whatLine b) = whatLine b :=
  pyStrip_lit_goodText "**What happens**: ".data b.what '*' "*What happens**: ".data rfl
    (by decide) hb.2.2.2.2.1

theorem pyStrip_risksLine (b : GenBlock) (hb : goodBlock b) :
    pyStrip (risksLine b) = risksLine b :=
  pyStrip_lit_goodText "**Risks or symptoms**: ".data b.risks '*'
    "*Risks or symptoms**: ".data rfl (by decide) hb.2.2.2.2.2.1

theorem pyStrip_advLine (b : GenBlock) (hb : goodBlock b) :
    pyStrip (advLine b) = advLine b :=
  pyStrip_lit_goodText "**Advice**: ".data b.advice '*' "*Advice**: ".data rfl
    (by decide) hb.2.2.2.2.2.2

theorem interLine_shape (b : GenBlock) :
    interLine b = '*' :: ("*Interaction ".data ++ (b.ordinal ++ ("**: ".data ++ b.pair))) := by
  simp only [interLine, List.append_assoc]
  rfl

theorem pyStrip_interLine (b : GenBlock) (hb : goodBlock b) :
    pyStrip (interLine b) = interLine b := by
  obtain ⟨p, d, hfd, hd⟩ := goodText_concat b.pair hb.2.2.1
  apply pyStrip_eq_self_of
  · exact ⟨'*', "*Interaction ".data ++ (b.ordinal ++ ("**: ".data ++ b.pair)),
      interLine_shape b, by decide⟩
  · refine ⟨"**Interaction ".data ++ b.ordinal ++ "**: ".data ++ p, d, ?_, hd⟩
    rw [interLine, hfd]
    simp [List.append_assoc]

theorem pyStrip_interLineNoSp (b : GenBlock) (hb : goodBlock b) :
    pyStrip (interLineNoSp b) = interLineNoSp b := by
  obtain ⟨p, d, hfd, hd⟩ := goodText_concat b.pair hb.2.2.1
  apply pyStrip_eq_self_of
  · exact ⟨'*', "*Interaction".data ++ (b.ordinal ++ ("**: ".data ++ b.pair)), rfl,
      by decide⟩
  · refine ⟨"**Interaction".data ++ b.ordinal ++ "**: ".data ++ p, d, ?_, hd⟩
    rw [interLineNoSp, hfd]
    simp [List.append_assoc]

theorem stripHdr_sevLine (b : GenBlock) :
    stripHdr "**Severity**:".data (sevLine b) = b.sev := by
  unfold stripHdr
  have h : takeAfter "**Severity**:".data (sevLine b) = some (' ' :: b.sev) := by
    have e : sevLine b = "**Severity**:".data ++ (' ' :: b.sev) := rfl
    rw [e, takeAfter_self_append]
  rw [h]
  rfl

theorem stripHdr_whatLine (b : GenBlock) :
    stripHdr "**What happens**:".data (whatLine b) = b.what := by
  unfold stripHdr
  have h : takeAfter "**What happens**:".data (whatLine b) = some (' ' :: b.what) := by
    have e : whatLine b = "**What happens**:".data ++ (' ' :: b.what) := rfl
    rw [e, takeAfter_self_append]
  rw [h]
  rfl

theorem stripHdr_risksLine (b : GenBlock) :
    stripHdr "**Risks or symptoms**:".data (risksLine b) = b.risks := by
  unfold stripHdr
  have h : takeAfter "**Risks or symptoms**:".data (risksLine b) =
      some (' ' :: b.risks) := by
    have e : risksLine b = "**Risks or symptoms**:".data ++ (' ' :: b.risks) := rfl
    rw [e, takeAfter_self_append]
  rw [h]
  rfl

theorem stripHdr_advLine (b : GenBlock) :
    stripHdr "**Advice**:".data (advLine b) = b.advice := by
  unfold stripHdr
  have h : takeAfter "**Advice**:".data (advLine b) = some (' ' :: b.advice) := by
    have e : advLine b = "**Advice**:".data ++ (' ' :: b.advice) := rfl
    rw [e, takeAfter_self_append]
  rw [h]
  rfl

theorem stripInterHdr_interLine (b : GenBlock) (hb : goodBlock b) :
    stripInterHdr (interLine b) = b.pair := by
  have h1 : takeAfter "**Interaction".data (interLine b) =
      some (' ' :: (b.ordinal ++ ('*' :: ("*: ".data ++ b.pair)))) := by
    have e : interLine b =
        "**Interaction".data ++ (' ' :: (b.ordinal ++ ('*' :: ("*: ".data ++ b.pair)))) := by
      simp only [interLine, List.append_assoc]
      rfl
    rw [e, takeAfter_self_append]
  simp only [stripInterHdr, h1, dropOptSpace_space]
  obtain ⟨hord, hdig, _⟩ := hb
  have htw : (b.ordinal ++ ('*' :: ("*: ".data ++ b.pair))).takeWhile Char.isDigit =
      b.ordinal :=
    takeWhile_sat_append Char.isDigit b.ordinal '*' _ hdig (by decide)
  have hdw : (b.ordinal ++ ('*' :: ("*: ".data ++ b.pair))).dropWhile Char.isDigit =
      '*' :: ("*: ".data ++ b.pair) := by
    rw [dropWhile_sat_append Char.isDigit b.ordinal _ hdig, List.dropWhile_cons]
    have h8 : ('*'.isDigit) = false := by decide
    rw [h8]
    simp
  rw [htw, if_neg hord, hdw]
  have e2 : ('*' :: ("*: ".data ++ b.pair) : Chars) = "**:".data ++ (' ' :: b.pair) := rfl
  rw [e2, takeAfter_self_append]
  rfl

theorem stripInterHdr_interLineNoSp (b : GenBlock) (hb : goodBlock b) :
    stripInterHdr (interLineNoSp b) = b.pair := by
  have h1 : takeAfter "**Interaction".data (interLineNoSp b) =
      some (b.ordinal ++ ('*' :: ("*: ".data ++ b.pair))) := by
    have e : interLineNoSp b =
        "**Interaction".data ++ (b.ordinal ++ ('*' :: ("*: ".data ++ b.pair))) := rfl
    rw [e, takeAfter_self_append]
  simp only [stripInterHdr, h1]
  obtain ⟨hord, hdig, _⟩ := hb
  obtain ⟨d, ord', hdo⟩ : ∃ d ord', b.ordinal = d :: ord' := by
    cases hoc : b.ordinal with
    | nil => exact absurd hoc hord
    | cons d t => exact ⟨d, t, rfl⟩
  have hdsp : d ≠ ' ' := (digit_head_facts d (hdig d (by rw [hdo]; simp))).2.1
  have hopt : dropOptSpace (b.ordinal ++ ('*' :: ("*: ".data ++ b.pair))) =
      b.ordinal ++ ('*' :: ("*: ".data ++ b.pair)) := by
    rw [hdo]
    exact dropOptSpace_cons_ne d _ hdsp
  rw [hopt]
  have htw : (b.ordinal ++ ('*' :: ("*: ".data ++ b.pair))).takeWhile Char.isDigit =
      b.ordinal :=
    takeWhile_sat_append Char.isDigit b.ordinal '*' _ hdig (by decide)
  have hdw : (b.ordinal ++ ('*' :: ("*: ".data ++ b.pair))).dropWhile Char.isDigit =
      '*' :: ("*: ".data ++ b.pair) := by
    rw [dropWhile_sat_append Char.isDigit b.ordinal _ hdig, List.dropWhile_cons]
    have h8 : ('*'.isDigit) = false := by decide
    rw [h8]
    simp
  rw [htw, if_neg hord, hdw]
  have e2 : ('*' :: ("*: ".data ++ b.pair) : Chars) = "**:".data ++ (' ' :: b.pair) := rfl
  rw [e2, takeAfter_self_append]
  rfl

theorem interLine_nlfree (b : GenBlock) (hb : goodBlock b) :
    ∀ c ∈ interLine b, c ≠ '\n' := by
  unfold interLine
  exact nlfree_append _ _
    (nlfree_append _ _
      (nlfree_append _ _ (by decide) (nlfree_of_digits _ hb.2.1)) (by decide))
    (goodText_nlfree _ hb.2.2.1)

theorem sevLine_nlfree (b : GenBlock) (hb : goodBlock b) :
    ∀ c ∈ sevLine b, c ≠ '\n' :=
  nlfree_append _ _ (by decide) (goodText_nlfree _ hb.2.2.2.1)

theorem whatLine_nlfree (b : GenBlock) (hb : goodBlock b) :
    ∀ c ∈ whatLine b, c ≠ '\n' :=
  nlfree_append _ _ (by decide) (goodText_nlfree _ hb.2.2.2.2.1)

theorem risksLine_nlfree (b : GenBlock) (hb : goodBlock b) :
    ∀ c ∈ risksLine b, c ≠ '\n' :=
  nlfree_append _ _ (by decide) (goodText_nlfree _ hb.2.2.2.2.2.1)

theorem advLine_nlfree (b : GenBlock) (hb : goodBlock b) :
    ∀ c ∈ advLine b, c ≠ '\n' :=
  nlfree_append _ _ (by decide) (goodText_nlfree _ hb.2.2.2.2.2.2)

theorem parseSection_inter_sp (b : GenBlock) (hb : goodBlock b) :
    ∀ r, parseSection r (interLine b) = { r with interaction := b.pair } := by
  intro r
  have hstrip := pyStrip_interLine b hb
  have hne : interLine b ≠ [] := by
    rw [interLine_shape b]
    simp
  have h1 : "**Interaction".data.isPrefixOf (interLine b) = true := rfl
  have h3 := stripInterHdr_interLine b hb
  have h4 : pyStrip b.pair = b.pair := hb.2.2.1.2.1
  simp [parseSection, hstrip, hne, h1, h3, h4]

theorem parseSection_inter_nosp (b : GenBlock) (hb : goodBlock b) :
    ∀ r, parseSection r (interLineNoSp b) = { r with interaction := b.pair } := by
  intro r
  have hstrip := pyStrip_interLineNoSp b hb
  have hne : interLineNoSp b ≠ [] := by
    rw [show interLineNoSp b =
      '*' :: ("*Interaction".data ++ (b.ordinal ++ ("**: ".data ++ b.pair))) from rfl]
    simp
  have h1 : "**Interaction".data.isPrefixOf (interLineNoSp b) = true := by
    rw [interLineNoSp]
    exact isPrefixOf_self_append _ _
  have h3 := stripInterHdr_interLineNoSp b hb
  have h4 : pyStrip b.pair = b.pair := hb.2.2.1.2.1
  simp [parseSection, hstrip, hne, h1, h3, h4]

theorem parseSection_sev (b : GenBlock) (hb : goodBlock b) :
    ∀ r, parseSection r (sevLine b) = { r with severity := b.sev } := by
  intro r
  have hstrip := pyStrip_sevLine b hb
  have hne : sevLine b ≠ [] := by
    rw [show sevLine b = '*' :: ("*Severity**: ".data ++ b.sev) from rfl]
    simp
  have h1 : "**Interaction".data.isPrefixOf (sevLine b) = false := rfl
  have h2 : "**Severity**:".data.isPrefixOf (sevLine b) = true := rfl
  have h3 := stripHdr_sevLine b
  have h4 : pyStrip b.sev = b.sev := hb.2.2.2.1.2.1
  simp [parseSection, hstrip, hne, h1, h2, h3, h4]

theorem parseSection_what (b : GenBlock) (hb : goodBlock b) :
    ∀ r, parseSection r (whatLine b) = { r with what := b.what } := by
  intro r
  have hstrip := pyStrip_whatLine b hb
  have hne : whatLine b ≠ [] := by
    rw [show whatLine b = '*' :: ("*What happens**: ".data ++ b.what) from rfl]
    simp
  have h1 : "**Interaction".data.isPrefixOf (whatLine b) = false := rfl
  have h2 : "**Severity**:".data.isPrefixOf (whatLine b) = false := rfl
  have h3 : "**What happens**:".data.isPrefixOf (whatLine b) = true := rfl
  have h4 := stripHdr_whatLine b
  have h5 : pyStrip b.what = b.what := hb.2.2.2.2.1.2.1
  simp [parseSection, hstrip, hne, h1, h2, h3, h4, h5]

theorem parseSection_risks (b : GenBlock) (hb : goodBlock b) :
    ∀ r, parseSection r (risksLine b) = { r with risks := b.risks } := by
  intro r
  have hstrip := pyStrip_risksLine b hb
  have hne : risksLine b ≠ [] := by
    rw [show risksLine b = '*' :: ("*Risks or symptoms**: ".data ++ b.risks) from rfl]
    simp
  have h1 : "**Interaction".data.isPrefixOf (risksLine b) = false := rfl
  have h2 : "**Severity**:".data.isPrefixOf (risksLine b) = false := rfl
  have h3 : "**What happens**:".data.isPrefixOf (risksLine b) = false := rfl
  have h4 : "**Risks or symptoms**:".data.isPrefixOf (risksLine b) = true := rfl
  have h5 := stripHdr_risksLine b
  have h6 : pyStrip b.risks = b.risks := hb.2.2.2.2.2.1.2.1
  simp [parseSection, hstrip, hne, h1, h2, h3, h4, h5, h6]

theorem parseSection_adv (b : GenBlock) (hb : goodBlock b) :
    ∀ r, parseSection r (advLine b) = { r with advice := b.advice } := by
  intro r
  have hstrip := pyStrip_advLine b hb
  have hne : advLine b ≠ [] := by
    rw [show advLine b = '*' :: ("*Advice**: ".data ++ b.advice) from rfl]
    simp
  have h1 : "**Interaction".data.isPrefixOf (advLine b) = false := rfl
  have h2 : "**Severity**:".data.isPrefixOf (advLine b) = false := rfl
  have h3 : "**What happens**:".data.isPrefixOf (advLine b) = false := rfl
  have h4 : "**Risks or symptoms**:".data.isPrefixOf (advLine b) = false := rfl
  have h5 : "**Advice**:".data.isPrefixOf (advLine b) = true := rfl
  have h6 := stripHdr_advLine b
  have h7 : pyStrip b.advice = b.advice := hb.2.2.2.2.2.2.2.1
  simp [parseSection, hstrip, hne, h1, h2, h3, h4, h5, h6, h7]

theorem splitNl_renderBlock (b : GenBlock) (hb : goodBlock b) :
    splitNl (renderBlock b) =
      [interLine b, sevLine b, whatLine b, risksLine b, advLine b] := by
  have e : renderBlock b = interLine b ++ '\n' ::
      (sevLine b ++ '\n' :: (whatLine b ++ '\n' :: (risksLine b ++ '\n' :: advLine b))) := rfl
  rw [e, splitNl_nlfree_cons _ _ (interLine_nlfree b hb),
      splitNl_nlfree_cons _ _ (sevLine_nlfree b hb),
      splitNl_nlfree_cons _ _ (whatLine_nlfree b hb),
      splitNl_nlfree_cons _ _ (risksLine_nlfree b hb),
      splitNl_nlfree (advLine b) (advLine_nlfree b hb)]

theorem parseBlock_renderBlock (b : GenBlock) (hb : goodBlock b) :
    parseBlock (renderBlock b) = recOfBlock b := by
  have hpre : "**Interaction".data.isPrefixOf (renderBlock b) = true := rfl
  unfold parseBlock
  rw [if_pos hpre]
  show List.foldl parseSection emptyInterRec (splitNl (renderBlock b)) = recOfBlock b
  rw [splitNl_renderBlock b hb]
  simp only [List.foldl_cons, List.foldl_nil, parseSection_inter_sp b hb,
    parseSection_sev b hb, parseSection_what b hb, parseSection_risks b hb,
    parseSection_adv b hb]
  rfl

theorem parseBlock_strippedTail (b : GenBlock) (hb : goodBlock b) :
    parseBlock (strippedTail b) = recOfBlock b := by
  obtain ⟨d, ord', hdo⟩ : ∃ d ord', b.ordinal = d :: ord' := by
    cases hoc : b.ordinal with
    | nil => exact absurd hoc hb.1
    | cons d t => exact ⟨d, t, rfl⟩
  have hd : d.isDigit = true := hb.2.1 d (by rw [hdo]; simp)
  have hshape : strippedTail b =
      d :: ((ord' ++ "**: ".data ++ b.pair) ++ blockBody b) := by
    rw [strippedTail, hdo]
    rfl
  have hpre : "**Interaction".data.isPrefixOf (strippedTail b) = false := by
    rw [hshape]
    exact isPrefixOf_cons_head_ne '*' d _ _ (fun he => (digit_head_facts d hd).2.2 he.symm)
  unfold parseBlock
  rw [if_neg ?hcond]
  case hcond =>
    rw [hpre]
    simp
  have hsplit : splitNl ("**Interaction".data ++ strippedTail b) =
      [interLineNoSp b, sevLine b, whatLine b, risksLine b, advLine b] := by
    have e : "**Interaction".data ++ strippedTail b = interLineNoSp b ++ '\n' ::
        (sevLine b ++ '\n' :: (whatLine b ++ '\n' :: (risksLine b ++ '\n' :: advLine b))) := by
      simp only [strippedTail, interLineNoSp, blockBody, List.append_assoc]
    have hnlf : ∀ c ∈ interLineNoSp b, c ≠ '\n' := by
      unfold interLineNoSp
      exact nlfree_append _ _ (by decide)
        (nlfree_append _ _ (nlfree_of_digits _ hb.2.1)
          (nlfree_append _ _ (by decide) (goodText_nlfree _ hb.2.2.1)))
    rw [e, splitNl_nlfree_cons _ _ hnlf,
        splitNl_nlfree_cons _ _ (sevLine_nlfree b hb),
        splitNl_nlfree_cons _ _ (whatLine_nlfree b hb),
        splitNl_nlfree_cons _ _ (risksLine_nlfree b hb),
        splitNl_nlfree (advLine b) (advLine_nlfree b hb)]
  show List.foldl parseSection emptyInterRec
    (splitNl ("**Interaction".data ++ strippedTail b)) = recOfBlock b
  rw [hsplit]
  simp only [List.foldl_cons, List.foldl_nil, parseSection_inter_nosp b hb,
    parseSection_sev b hb, parseSection_what b hb, parseSection_risks b hb,
    parseSection_adv b hb]
  rfl

theorem interTag_np_sev (b : GenBlock) (x : Chars) :
    "**Interaction".data.isPrefixOf (sevLine b ++ x) = false := rfl

theorem interTag_np_what (b : GenBlock) (x : Chars) :
    "**Interaction".data.isPrefixOf (whatLine b ++ x) = false := rfl

theorem interTag_np_risks (b : GenBlock) (x : Chars) :
    "**Interaction".data.isPrefixOf (risksLine b ++ x) = false := rfl

theorem interTag_np_adv (b : GenBlock) (x : Chars) :
    "**Interaction".data.isPrefixOf (advLine b ++ x) = false := rfl

theorem splitInter_body_chunk (x : Chars) (hx : ∀ c ∈ x, c ≠ '\n') (b : GenBlock)
    (hb : goodBlock b) (t : Chars) :
    splitInter ((x ++ blockBody b) ++ t) = prependHead (x ++ blockBody b) (splitInter t) := by
  have e1 : (x ++ blockBody b) ++ t = x ++ ('\n' ::
      (sevLine b ++ ('\n' :: (whatLine b ++ ('\n' ::
        (risksLine b ++ ('\n' :: (advLine b ++ t)))))))) := by
    simp only [blockBody, List.append_assoc, List.cons_append]
  rw [e1, splitInter_append_nlfree x hx _]
  rw [splitInter_cons_ne '\n' _ (Or.inr (interTag_np_sev b _))]
  rw [splitInter_append_nlfree (sevLine b) (sevLine_nlfree b hb) _]
  rw [splitInter_cons_ne '\n' _ (Or.inr (interTag_np_what b _))]
  rw [splitInter_append_nlfree (whatLine b) (whatLine_nlfree b hb) _]
  rw [splitInter_cons_ne '\n' _ (Or.inr (interTag_np_risks b _))]
  rw [splitInter_append_nlfree (risksLine b) (risksLine_nlfree b hb) _]
  rw [splitInter_cons_ne '\n' _ (Or.inr (interTag_np_adv b _))]
  rw [splitInter_append_nlfree (advLine b) (advLine_nlfree b hb) t]
  simp only [consHead_eq_prependHead, prependHead_prependHead]
  congr 1

theorem drop_interTag (w : Chars) : ("**Interaction".data ++ w).drop 13 = w := by
  have h : ("**Interaction".data).length = 13 := rfl
  rw [← h, List.drop_left]

theorem renderStream_decomp (b : GenBlock) (rest : List GenBlock) :
    renderStream (b :: rest) = "**Interaction".data ++ tailStream (b :: rest) := by
  cases rest with
  | nil =>
    show renderBlock b = "**Interaction".data ++ blockTail b
    simp only [renderBlock, blockTail, interLine, List.append_assoc, List.cons_append]
    rfl
  | cons b2 rest2 =>
    show renderBlock b ++ '\n' :: '\n' :: renderStream (b2 :: rest2) =
      "**Interaction".data ++ (blockTail b ++ '\n' :: '\n' :: renderStream (b2 :: rest2))
    simp only [renderBlock, blockTail, interLine, List.append_assoc, List.cons_append]
    rfl

theorem splitInter_sep_stream (b2 : GenBlock) (rest2 : List GenBlock) :
    splitInter ('\n' :: ('\n' :: renderStream (b2 :: rest2))) =
      ['\n'] :: splitInter (tailStream (b2 :: rest2)) := by
  have h1 : "**Interaction".data.isPrefixOf ('\n' :: renderStream (b2 :: rest2)) = false :=
    isPrefixOf_cons_head_ne '*' '\n' "*Interaction".data _ (by decide)
  rw [splitInter_cons_ne '\n' _ (Or.inr h1)]
  rw [renderStream_decomp b2 rest2]
  rw [splitInter_pat _ (isPrefixOf_self_append _ _)]
  rw [drop_interTag]
  rfl

theorem blockTail_eq_cons (b : GenBlock) : blockTail b = ' ' :: strippedTail b := rfl

theorem splitInter_tailStream : ∀ (bs : List GenBlock), bs ≠ [] →
    (∀ b ∈ bs, goodBlock b) → splitInter (tailStream bs) = tailPieces bs := by
  intro bs
  induction bs with
  | nil => intro h; exact absurd rfl h
  | cons b rest ih =>
    intro _ hg
    have hgb : goodBlock b := hg b (by simp)
    have hx : ∀ c ∈ (' ' :: (b.ordinal ++ "**: ".data ++ b.pair)), c ≠ '\n' := by
      intro c hc
      rcases List.mem_cons.mp hc with h | h
      · subst h; decide
      · exact nlfree_append _ _
          (nlfree_append _ _ (nlfree_of_digits _ hgb.2.1) (by decide))
          (goodText_nlfree _ hgb.2.2.1) c h
    cases rest with
    | nil =>
      show splitInter (blockTail b) = [blockTail b]
      have e : blockTail b =
          ((' ' :: (b.ordinal ++ "**: ".data ++ b.pair)) ++ blockBody b) ++ [] := by
        simp [blockTail]
      rw [e, splitInter_body_chunk _ hx b hgb []]
      show prependHead _ [[]] = _
      simp [prependHead, blockTail]
    | cons b2 rest2 =>
      show splitInter (blockTail b ++ '\n' :: '\n' :: renderStream (b2 :: rest2)) =
        (blockTail b ++ ['\n']) :: tailPieces (b2 :: rest2)
      rw [show blockTail b ++ '\n' :: '\n' :: renderStream (b2 :: rest2) =
        ((' ' :: (b.ordinal ++ "**: ".data ++ b.pair)) ++ blockBody b) ++
          ('\n' :: '\n' :: renderStream (b2 :: rest2)) from rfl]
      rw [splitInter_body_chunk _ hx b hgb _]
      rw [splitInter_sep_stream b2 rest2]
      rw [prependHead_cons]
      rw [ih (by simp) fun x hx2 => hg x (by simp [hx2])]
      rfl

theorem splitInter_renderStream_single (b : GenBlock) (hb : goodBlock b) :
    splitInter (renderStream [b]) = [renderBlock b] := by
  show splitInter (renderBlock b) = [renderBlock b]
  have e : renderBlock b = (interLine b ++ blockBody b) ++ [] := by simp [renderBlock]
  rw [e, splitInter_body_chunk _ (interLine_nlfree b hb) b hb []]
  show prependHead _ [[]] = _
  simp [prependHead, renderBlock]

theorem splitInter_renderStream_cons (b b2 : GenBlock) (rest2 : List GenBlock)
    (hg : ∀ x ∈ b :: b2 :: rest2, goodBlock x) :
    splitInter (renderStream (b :: b2 :: rest2)) =
      (renderBlock b ++ ['\n']) :: tailPieces (b2 :: rest2) := by
  show splitInter (renderBlock b ++ '\n' :: '\n' :: renderStream (b2 :: rest2)) = _
  rw [show renderBlock b ++ '\n' :: '\n' :: renderStream (b2 :: rest2) =
    (interLine b ++ blockBody b) ++ ('\n' :: '\n' :: renderStream (b2 :: rest2)) from rfl]
  rw [splitInter_body_chunk _ (interLine_nlfree b (hg b (by simp))) b (hg b (by simp)) _]
  rw [splitInter_sep_stream b2 rest2]
  rw [prependHead_cons]
  rw [splitInter_tailStream (b2 :: rest2) (by simp) fun x hx2 => hg x (by simp [hx2])]
  rfl

theorem renderBlock_head (b : GenBlock) :
    ∃ c t, renderBlock b = c :: t ∧ isPySpace c = false :=
  ⟨'*', ("*Interaction ".data ++ (b.ordinal ++ ("**: ".data ++ b.pair))) ++ blockBody b,
    by simp only [renderBlock, interLine_shape]; rfl, by decide⟩

theorem renderBlock_last (b : GenBlock) (hb : goodBlock b) :
    ∃ p d, renderBlock b = p ++ [d] ∧ isPySpace d = false := by
  obtain ⟨p5, d, hfd, hd⟩ := goodText_concat b.advice hb.2.2.2.2.2.2
  refine ⟨interLine b ++ ('\n' :: (sevLine b ++ '\n' :: (whatLine b ++ '\n' ::
    (risksLine b ++ '\n' :: ("**Advice**: ".data ++ p5))))), d, ?_, hd⟩
  simp [renderBlock, blockBody, advLine, hfd, List.append_assoc]

theorem renderBlock_ne (b : GenBlock) : renderBlock b ≠ [] := by
  obtain ⟨c, t, he, _⟩ := renderBlock_head b
  rw [he]
  simp

theorem pyStrip_renderBlock (b : GenBlock) (hb : goodBlock b) :
    pyStrip (renderBlock b) = renderBlock b :=
  pyStrip_eq_self_of _ (renderBlock_head b) (renderBlock_last b hb)

theorem pyStrip_renderBlock_nl (b : GenBlock) (hb : goodBlock b) :
    pyStrip (renderBlock b ++ ['\n']) = renderBlock b :=
  pyStrip_append_pad _ _ (renderBlock_head b) (renderBlock_last b hb) (by decide)

theorem strippedTail_head (b : GenBlock) (hb : goodBlock b) :
    ∃ c t, strippedTail b = c :: t ∧ isPySpace c = false := by
  obtain ⟨d, ord', hdo⟩ : ∃ d ord', b.ordinal = d :: ord' := by
    cases hoc : b.ordinal with
    | nil => exact absurd hoc hb.1
    | cons d t => exact ⟨d, t, rfl⟩
  have hd : d.isDigit = true := hb.2.1 d (by rw [hdo]; simp)
  exact ⟨d, ((ord' ++ "**: ".data) ++ b.pair) ++ blockBody b,
    by simp only [strippedTail, hdo]; rfl, (digit_head_facts d hd).1⟩

theorem strippedTail_last (b : GenBlock) (hb : goodBlock b) :
    ∃ p d, strippedTail b = p ++ [d] ∧ isPySpace d = false := by
  obtain ⟨p5, d, hfd, hd⟩ := goodText_concat b.advice hb.2.2.2.2.2.2
  refine ⟨(b.ordinal ++ "**: ".data ++ b.pair) ++ ('\n' :: (sevLine b ++ '\n' ::
    (whatLine b ++ '\n' :: (risksLine b ++ '\n' :: ("**Advice**: ".data ++ p5))))),
    d, ?_, hd⟩
  simp [strippedTail, blockBody, advLine, hfd, List.append_assoc]

theorem strippedTail_ne (b : GenBlock) (hb : goodBlock b) : strippedTail b ≠ [] := by
  obtain ⟨c, t, he, _⟩ := strippedTail_head b hb
  rw [he]
  simp

theorem pyStrip_blockTail (b : GenBlock) (hb : goodBlock b) :
    pyStrip (blockTail b) = strippedTail b := by
  rw [blockTail_eq_cons, pyStrip_cons_space ' ' _ (by decide)]
  exact pyStrip_eq_self_of _ (strippedTail_head b hb) (strippedTail_last b hb)

theorem pyStrip_blockTail_nl (b : GenBlock) (hb : goodBlock b) :
    pyStrip (blockTail b ++ ['\n']) = strippedTail b := by
  rw [blockTail_eq_cons]
  rw [show (' ' :: strippedTail b) ++ ['\n'] = ' ' :: (strippedTail b ++ ['\n']) from rfl]
  rw [pyStrip_cons_space ' ' _ (by decide)]
  exact pyStrip_append_pad _ _ (strippedTail_head b hb) (strippedTail_last b hb) (by decide)

theorem parseBlocks_tailPieces : ∀ (bs : List GenBlock), (∀ b ∈ bs, goodBlock b) →
    parseBlocks (tailPieces bs) = bs.map recOfBlock := by
  intro bs
  induction bs with
  | nil => intro _; rfl
  | cons b rest ih =>
    intro hg
    have hgb : goodBlock b := hg b (by simp)
    cases rest with
    | nil =>
      show parseBlocks [blockTail b] = [recOfBlock b]
      rw [show parseBlocks [blockTail b] =
        (if pyStrip (blockTail b) = [] then parseBlocks []
         else parseBlock (pyStrip (blockTail b)) :: parseBlocks []) from rfl]
      rw [pyStrip_blockTail b hgb, if_neg (strippedTail_ne b hgb),
        parseBlock_strippedTail b hgb]
      rfl
    | cons b2 rest2 =>
      show parseBlocks ((blockTail b ++ ['\n']) :: tailPieces (b2 :: rest2)) =
        recOfBlock b :: (b2 :: rest2).map recOfBlock
      rw [show parseBlocks ((blockTail b ++ ['\n']) :: tailPieces (b2 :: rest2)) =
        (if pyStrip (blockTail b ++ ['\n']) = [] then parseBlocks (tailPieces (b2 :: rest2))
         else parseBlock (pyStrip (blockTail b ++ ['\n'])) ::
           parseBlocks (tailPieces (b2 :: rest2))) from rfl]
      rw [pyStrip_blockTail_nl b hgb, if_neg (strippedTail_ne b hgb),
        parseBlock_strippedTail b hgb,
        ih fun x hx2 => hg x (by simp [hx2])]

theorem not_mem_cons (c d : Char) (l : Chars) (h1 : c ≠ d) (h2 : c ∉ l) :
    c ∉ d :: l := by
  simp [List.mem_cons, h1, h2]

theorem not_mem_of_digits (a : Chars) (h : ∀ c ∈ a, c.isDigit = true) : '\\' ∉ a := by
  intro hm
  exact absurd (h '\\' hm) (by decide)

theorem renderBlock_no_backslash (b : GenBlock) (hb : goodBlock b) :
    '\\' ∉ renderBlock b := by
  have h1 : '\\' ∉ "**Interaction ".data := by decide
  have h2 : '\\' ∉ b.ordinal := not_mem_of_digits _ hb.2.1
  have h3 : '\\' ∉ "**: ".data := by decide
  have h4 : '\\' ∉ b.pair := hb.2.2.1.2.2.2
  have h5 : '\\' ∉ sevLine b :=
    not_mem_append _ _ _ (by decide) hb.2.2.2.1.2.2.2
  have h6 : '\\' ∉ whatLine b :=
    not_mem_append _ _ _ (by decide) hb.2.2.2.2.1.2.2.2
  have h7 : '\\' ∉ risksLine b :=
    not_mem_append _ _ _ (by decide) hb.2.2.2.2.2.1.2.2.2
  have h8 : '\\' ∉ advLine b :=
    not_mem_append _ _ _ (by decide) hb.2.2.2.2.2.2.2.2.2
  have h9 : ('\\' : Char) ≠ '\n' := by decide
  intro hm
  simp only [renderBlock, interLine, blockBody, List.mem_append, List.mem_cons] at hm
  tauto

theorem renderStream_no_backslash : ∀ (bs : List GenBlock),
    (∀ b ∈ bs, goodBlock b) → '\\' ∉ renderStream bs := by
  intro bs
  induction bs with
  | nil => intro _ hm; simp [renderStream] at hm
  | cons b rest ih =>
    intro hg
    cases rest with
    | nil =>
      show '\\' ∉ renderBlock b
      exact renderBlock_no_backslash b (hg b (by simp))
    | cons b2 rest2 =>
      show '\\' ∉ renderBlock b ++ '\n' :: '\n' :: renderStream (b2 :: rest2)
      apply not_mem_append _ _ _ (renderBlock_no_backslash b (hg b (by simp)))
      apply not_mem_cons _ _ _ (by decide)
      apply not_mem_cons _ _ _ (by decide)
      exact ih fun x hx2 => hg x (by simp [hx2])

theorem renderStream_head_star (b : GenBlock) (rest : List GenBlock) :
    ∃ t, renderStream (b :: rest) = '*' :: t := by
  cases rest with
  | nil => exact ⟨_, by simp only [renderStream, renderBlock, interLine_shape]; rfl⟩
  | cons b2 rest2 =>
    exact ⟨_, by simp only [renderStream, renderBlock, interLine_shape]; rfl⟩

theorem gt_np_renderStream (b : GenBlock) (rest : List GenBlock) :
    ">".data.isPrefixOf (pyStrip (renderStream (b :: rest))) = false := by
  obtain ⟨t, ht⟩ := renderStream_head_star b rest
  cases hq : ">".data.isPrefixOf (pyStrip (renderStream (b :: rest))) with
  | false => rfl
  | true =>
    exfalso
    have hh := (singleton_isPrefixOf_iff '>' _).mp hq
    rw [pyStrip_head?, ht, List.dropWhile_cons] at hh
    have h8 : isPySpace '*' = false := by decide
    rw [h8] at hh
    simp at hh

/-- C5 (amended): on a well-formed generator response of N blocks in the §6
output grammar, `parse_interactions` returns exactly N records, the k-th
carrying the k-th block's five field texts (interaction pair, severity, what,
risks, advice) — all non-empty — while the header's ordinal is consumed by
the splitter/stripper and carried in no field, and `message` stays empty. -/
theorem c5_amended_fields_no_ordinal (bs : List GenBlock) (hne : bs ≠ [])
    (hg : ∀ b ∈ bs, goodBlock b) :
    parse_interactions (renderStream bs) = bs.map recOfBlock ∧
    ∀ r ∈ parse_interactions (renderStream bs),
      r.interaction ≠ [] ∧ r.severity ≠ [] ∧ r.what ≠ [] ∧ r.risks ≠ [] ∧
      r.advice ≠ [] ∧ r.message = [] := by
  have hmain : parse_interactions (renderStream bs) = bs.map recOfBlock := by
    cases bs with
    | nil => exact absurd rfl hne
    | cons b rest =>
      have hnb : '\\' ∉ renderStream (b :: rest) := renderStream_no_backslash _ hg
      have hgt := gt_np_renderStream b rest
      simp only [parse_interactions]
      rw [unescape_no_backslash _ hnb, hgt]
      simp only [Bool.false_eq_true, if_false]
      have hgb : goodBlock b := hg b (by simp)
      cases rest with
      | nil =>
        rw [splitInter_renderStream_single b hgb]
        rw [show parseBlocks [renderBlock b] =
          (if pyStrip (renderBlock b) = [] then parseBlocks []
           else parseBlock (pyStrip (renderBlock b)) :: parseBlocks []) from rfl]
        rw [pyStrip_renderBlock b hgb, if_neg (renderBlock_ne b),
          parseBlock_renderBlock b hgb]
        rfl
      | cons b2 rest2 =>
        rw [splitInter_renderStream_cons b b2 rest2 hg]
        rw [show parseBlocks ((renderBlock b ++ ['\n']) :: tailPieces (b2 :: rest2)) =
          (if pyStrip (renderBlock b ++ ['\n']) = [] then
             parseBlocks (tailPieces (b2 :: rest2))
           else parseBlock (pyStrip (renderBlock b ++ ['\n'])) ::
             parseBlocks (tailPieces (b2 :: rest2))) from rfl]
        rw [pyStrip_renderBlock_nl b hgb, if_neg (renderBlock_ne b),
          parseBlock_renderBlock b hgb,
          parseBlocks_tailPieces (b2 :: rest2) fun x hx2 => hg x (by simp [hx2])]
        rfl
  refine ⟨hmain, ?_⟩
  intro r hr
  rw [hmain] at hr
  obtain ⟨b', hb', hrb⟩ := List.mem_map.mp hr
  have hgb' := hg b' hb'
  rw [← hrb]
  exact ⟨hgb'.2.2.1.1, hgb'.2.2.2.1.1, hgb'.2.2.2.2.1.1, hgb'.2.2.2.2.2.1.1,
    hgb'.2.2.2.2.2.2.1, rfl⟩

theorem c5_amended_fields_no_ordinal_witness :
    parse_interactions (renderStream
      [⟨"1".data, "Aspirin + Warfarin".data, "severe".data, "bleeding".data,
        "bruising".data, "ask a doctor".data⟩,
       ⟨"2".data, "A + B".data, "mild".data, "w".data, "r".data, "a".data⟩]) =
      [⟨"1".data, "Aspirin + Warfarin".data, "severe".data, "bleeding".data,
        "bruising".data, "ask a doctor".data⟩,
       ⟨"2".data, "A + B".data, "mild".data, "w".data, "r".data, "a".data⟩].map recOfBlock :=
  (c5_amended_fields_no_ordinal
    [⟨"1".data, "Aspirin + Warfarin".data, "severe".data, "bleeding".data,
      "bruising".data, "ask a doctor".data⟩,
     ⟨"2".data, "A + B".data, "mild".data, "w".data, "r".data, "a".data⟩]
    (by decide) (by decide)).1

/-- C10: both parsers first rewrite every literal `\*\*` to `**`, so a
response whose `**` markup arrives backslash-escaped parses exactly like the
unescaped response (for any backslash-free text). -/
theorem c10_escaped_parses_identically (s : Chars) (h : '\\' ∉ s) :
    parse_interactions (escapeStars s) = parse_interactions s
  ∧ parse_drug_info (escapeStars s) = parse_drug_info s := by
  have h1 : unescape s = s := unescape_no_backslash s h
  have h2 : unescape (escapeStars s) = s := unescape_escapeStars s h
  constructor
  · unfold parse_interactions
    rw [h1, h2]
  · unfold parse_drug_info
    rw [h1, h2]

/-- Witness for C10: a concrete escaped interaction block and escaped
drug-info section parse exactly like their unescaped forms. -/
theorem c10_escaped_parses_identically_witness :
    parse_interactions (escapeStars "**Interaction 1**: a + b\n**Severity**: mild".data) =
      parse_interactions "**Interaction 1**: a + b\n**Severity**: mild".data
  ∧ parse_drug_info (escapeStars "**Uses**: pain relief".data) =
      parse_drug_info "**Uses**: pain relief".data :=
  ⟨(c10_escaped_parses_identically "**Interaction 1**: a + b\n**Severity**: mild".data
      (by decide)).1,
   (c10_escaped_parses_identically "**Uses**: pain relief".data (by decide)).2⟩

/-! ## C6: idempotence of the Response Normalizer.
First layer: arithmetic of `Char.toLower` / `Char.toUpper` (ASCII case
folding, which is what Python's `re.IGNORECASE`, `.upper()`, `.lower()` and
`.capitalize()` do on the ASCII fragment the normalizer handles). -/

theorem char_toNat_inj (c d : Char) (h : c.toNat = d.toNat) : c = d :=
  Char.eq_of_val_eq (UInt32.toNat.inj h)

theorem toNat_toLower (c : Char) : c.toLower.toNat =
    if 65 ≤ c.toNat ∧ c.toNat ≤ 90 then c.toNat + 32 else c.toNat := by
  unfold Char.toLower
  split
  · rename_i h
    rw [if_pos ⟨h.1, h.2⟩]
    show (Char.ofNat (c.toNat + 32)).toNat = c.toNat + 32
    unfold Char.ofNat
    rw [dif_pos (Or.inl (by omega))]
    rfl
  · rename_i h
    rw [if_neg h]

theorem toNat_toUpper (c : Char) : c.toUpper.toNat =
    if 97 ≤ c.toNat ∧ c.toNat ≤ 122 then c.toNat - 32 else c.toNat := by
  unfold Char.toUpper
  split
  · rename_i h
    rw [if_pos ⟨h.1, h.2⟩]
    show (Char.ofNat (c.toNat - 32)).toNat = c.toNat - 32
    unfold Char.ofNat
    rw [dif_pos (Or.inl (by omega))]
    rfl
  · rename_i h
    rw [if_neg h]

theorem toLower_toLower (c : Char) : c.toLower.toLower = c.toLower := by
  apply char_toNat_inj
  rw [toNat_toLower, toNat_toLower]
  split_ifs <;> omega

theorem toUpper_toUpper (c : Char) : c.toUpper.toUpper = c.toUpper := by
  apply char_toNat_inj
  rw [toNat_toUpper, toNat_toUpper]
  split_ifs <;> omega

theorem toLower_toUpper (c : Char) : c.toUpper.toLower = c.toLower := by
  apply char_toNat_inj
  rw [toNat_toLower, toNat_toUpper, toNat_toLower]
  split_ifs <;> omega

theorem toUpper_toLower (c : Char) : c.toLower.toUpper = c.toUpper := by
  apply char_toNat_inj
  rw [toNat_toUpper, toNat_toLower, toNat_toUpper]
  split_ifs <;> omega

theorem toUpper_congr (c d : Char) (h : c.toLower = d.toLower) : c.toUpper = d.toUpper := by
  have hn : c.toLower.toNat = d.toLower.toNat := by rw [h]
  rw [toNat_toLower, toNat_toLower] at hn
  apply char_toNat_inj
  rw [toNat_toUpper, toNat_toUpper]
  split_ifs at hn ⊢ <;> omega

theorem toLower_fix_nonletter (K : Char) (hK : nonLetter K) : K.toLower = K := by
  apply char_toNat_inj
  rw [toNat_toLower]
  rcases hK with h | h | h <;> rw [if_neg (by omega)]

theorem toLower_eq_nonletter (c K : Char) (hK : nonLetter K) (h : c.toLower = K) : c = K := by
  have hn : c.toLower.toNat = K.toNat := by rw [h]
  rw [toNat_toLower] at hn
  apply char_toNat_inj
  rcases hK with h' | h' | h' <;> (split_ifs at hn <;> omega)

theorem ci_eq_nonletter (c d : Char) (h : c.toLower = d.toLower) (K : Char)
    (hK : nonLetter K) : c = K ↔ d = K := by
  constructor
  · intro hc
    apply toLower_eq_nonletter d K hK
    rw [← h, hc, toLower_fix_nonletter K hK]
  · intro hd
    apply toLower_eq_nonletter c K hK
    rw [h, hd, toLower_fix_nonletter K hK]

theorem beq_congr_ci (c d : Char) (h : c.toLower = d.toLower) (K : Char)
    (hK : nonLetter K) : (c == K) = (d == K) := by
  rw [Bool.eq_iff_iff]
  simp only [beq_iff_eq]
  exact ci_eq_nonletter c d h K hK

theorem isDigit_toNat (c : Char) (h : c.isDigit = true) :
    48 ≤ c.toNat ∧ c.toNat ≤ 57 := by
  simp only [Char.isDigit, Bool.and_eq_true, decide_eq_true_eq, ge_iff_le] at h
  exact ⟨h.1, h.2⟩

theorem toLower_fix_digit (c : Char) (h : c.isDigit = true) : c.toLower = c := by
  obtain ⟨h1, h2⟩ := isDigit_toNat c h
  exact toLower_fix_nonletter c (by omega)

theorem toLower_digit_ne_star (c : Char) (h : c.isDigit = true) : c.toLower ≠ '*' := by
  rw [toLower_fix_digit c h]
  intro he
  obtain ⟨h1, h2⟩ := isDigit_toNat c h
  rw [he] at h1
  exact absurd h1 (by decide)

theorem isPySpace_ci (c d : Char) (h : c.toLower = d.toLower) :
    isPySpace c = isPySpace d := by
  simp only [isPySpace]
  rw [beq_congr_ci c d h ' ' (by decide), beq_congr_ci c d h '\t' (by decide),
    beq_congr_ci c d h '\n' (by decide), beq_congr_ci c d h '\r' (by decide),
    beq_congr_ci c d h '\x0b' (by decide), beq_congr_ci c d h '\x0c' (by decide)]

theorem isPySpace_toUpper (c : Char) : isPySpace c.toUpper = isPySpace c :=
  isPySpace_ci c.toUpper c (toLower_toUpper c)

theorem isPySpace_toLower (c : Char) : isPySpace c.toLower = isPySpace c :=
  isPySpace_ci c.toLower c (toLower_toLower c)

/-! ### lowStr and pattern-matcher characterizations -/

theorem lowStr_append (a b : Chars) : lowStr (a ++ b) = lowStr a ++ lowStr b :=
  List.map_append _ a b

theorem lowStr_length (a : Chars) : (lowStr a).length = a.length :=
  List.length_map a _

theorem lowStr_take (a : Chars) (n : Nat) : lowStr (a.take n) = (lowStr a).take n :=
  List.map_take _ a n

theorem lowStr_drop (a : Chars) (n : Nat) : lowStr (a.drop n) = (lowStr a).drop n :=
  List.map_drop _ a n

theorem lowStr_lowStr (l : Chars) : lowStr (lowStr l) = lowStr l := by
  simp only [lowStr, List.map_map]
  exact List.map_congr_left fun c _ => toLower_toLower c

theorem takeAfter_some_iff (p l r : Chars) : takeAfter p l = some r ↔ l = p ++ r := by
  induction p generalizing l with
  | nil =>
    rw [List.nil_append]
    show some l = some r ↔ l = r
    exact ⟨fun h => Option.some.inj h, fun h => congrArg some h⟩
  | cons p ps ih =>
    cases l with
    | nil =>
      show (none : Option Chars) = some r ↔ ([] : Chars) = p :: (ps ++ r)
      exact ⟨fun h => Option.noConfusion h, fun h => List.noConfusion h⟩
    | cons c cs =>
      show (if c = p then takeAfter ps cs else none) = some r ↔ _
      by_cases hc : c = p
      · rw [if_pos hc, ih cs]
        subst hc
        simp only [List.cons_append, List.cons.injEq, true_and]
      · rw [if_neg hc]
        simp only [List.cons_append, List.cons.injEq]
        constructor
        · intro h; exact Option.noConfusion h
        · intro h; exact absurd h.1 hc

theorem takeAfter_append_split (p x z : Chars) (h : p.length ≤ x.length) :
    takeAfter p (x ++ z) = (takeAfter p x).map (· ++ z) := by
  cases hx : takeAfter p x with
  | some r =>
    have hxe := (takeAfter_some_iff p x r).mp hx
    subst hxe
    show takeAfter p ((p ++ r) ++ z) = some (r ++ z)
    exact (takeAfter_some_iff _ _ _).mpr (by rw [List.append_assoc])
  | none =>
    show takeAfter p (x ++ z) = none
    cases hxz : takeAfter p (x ++ z) with
    | none => rfl
    | some r =>
      exfalso
      have heq := (takeAfter_some_iff _ _ _).mp hxz
      have htake : x.take p.length = p := by
        have h1 : (x ++ z).take p.length = x.take p.length :=
          List.take_append_of_le_length h
        have h2 : (p ++ r).take p.length = p := List.take_left p r
        rw [← h1, heq, h2]
      have hx2 : takeAfter p x = some (x.drop p.length) :=
        (takeAfter_some_iff _ _ _).mpr
          (by conv_lhs => rw [← List.take_append_drop p.length x, htake])
      rw [hx2] at hx
      exact Option.noConfusion hx

theorem takeAfterCi_some_iff (p l r : Chars) : takeAfterCi p l = some r ↔
    p.length ≤ l.length ∧ lowStr (l.take p.length) = lowStr p ∧ r = l.drop p.length := by
  induction p generalizing l with
  | nil =>
    show some l = some r ↔ _
    simp only [List.length_nil, Nat.zero_le, true_and, List.take_zero, List.drop_zero]
    exact ⟨fun h => (Option.some.inj h).symm, fun h => congrArg some h.symm⟩
  | cons p ps ih =>
    cases l with
    | nil =>
      show (none : Option Chars) = some r ↔ _
      constructor
      · intro h; exact Option.noConfusion h
      · rintro ⟨h1, _, _⟩
        rw [List.length_cons, List.length_nil] at h1
        omega
    | cons c cs =>
      show (if c.toLower = p.toLower then takeAfterCi ps cs else none) = some r ↔ _
      have hlen : (p :: ps).length = ps.length + 1 := rfl
      have htk : (c :: cs).take (ps.length + 1) = c :: cs.take ps.length :=
        List.take_succ_cons ..
      have hdp : (c :: cs).drop (ps.length + 1) = cs.drop ps.length := rfl
      have hlow : lowStr (c :: cs.take ps.length) = c.toLower :: lowStr (cs.take ps.length) := rfl
      have hlow2 : lowStr (p :: ps) = p.toLower :: lowStr ps := rfl
      rw [hlen, htk, hdp, hlow, hlow2]
      by_cases hc : c.toLower = p.toLower
      · rw [if_pos hc, ih cs]
        constructor
        · rintro ⟨h1, h2, h3⟩
          refine ⟨by rw [List.length_cons]; omega, ?_, h3⟩
          rw [hc, h2]
        · rintro ⟨h1, h2, h3⟩
          have h2t := (List.cons.injEq .. ▸ h2).2
          refine ⟨by rw [List.length_cons] at h1; omega, h2t, h3⟩
      · rw [if_neg hc]
        constructor
        · intro h; exact Option.noConfusion h
        · rintro ⟨_, h2, _⟩
          exact absurd (List.cons.injEq .. ▸ h2).1 hc

theorem sevWords_low : ∀ w ∈ sevWords, lowStr w = w := by decide

theorem takeAfterCi_none_of_low (p r : Chars)
    (h : lowStr (r.take p.length) ≠ lowStr p) : takeAfterCi p r = none := by
  cases hr : takeAfterCi p r with
  | none => rfl
  | some rest => exact absurd ((takeAfterCi_some_iff _ _ _).mp hr).2.1 h

theorem take_full_of_lowStr (r w : Chars) (h : lowStr (r.take w.length) = w) :
    w.length ≤ r.length := by
  have h1 : (lowStr (r.take w.length)).length = w.length := by rw [h]
  rw [lowStr_length, List.length_take] at h1
  omega

theorem sevPairsTake : ∀ w ∈ sevWords, ∀ w' ∈ sevWords,
    (w.take w'.length = w' ∨ w'.take w.length = w) → w = w' := by decide

theorem sevWord_take_ne (w w' : Chars) (hww : w ∈ sevWords) (hw'w : w' ∈ sevWords)
    (hne : w ≠ w') (r : Chars) (hWord : lowStr (r.take w.length) = w) :
    lowStr (r.take w'.length) ≠ lowStr w' := by
  intro he
  rw [sevWords_low w' hw'w] at he
  rcases Nat.le_total w'.length w.length with hle | hle
  · have h1 : r.take w'.length = (r.take w.length).take w'.length := by
      rw [List.take_take, Nat.min_eq_left hle]
    rw [h1, lowStr_take, hWord] at he
    exact hne (sevPairsTake w hww w' hw'w (Or.inl he))
  · have h1 : r.take w.length = (r.take w'.length).take w.length := by
      rw [List.take_take, Nat.min_eq_left hle]
    rw [h1, lowStr_take, he] at hWord
    exact hne (sevPairsTake w hww w' hw'w (Or.inr hWord))

theorem exists_of_findSome {α β : Type} (f : α → Option β) (as : List α) (b : β)
    (h : as.findSome? f = some b) : ∃ a ∈ as, f a = some b := by
  induction as with
  | nil =>
    rw [List.findSome?_nil] at h
    exact Option.noConfusion h
  | cons a as ih =>
    rw [List.findSome?_cons] at h
    cases hfa : f a with
    | some b2 =>
      rw [hfa] at h
      have h2 : some b2 = some b := h
      exact ⟨a, by simp, by rw [hfa, h2]⟩
    | none =>
      rw [hfa] at h
      have h2 : List.findSome? f as = some b := h
      obtain ⟨x, hx, hfx⟩ := ih h2
      exact ⟨x, by simp [hx], hfx⟩

theorem findSome?_cons_none {α β : Type} (f : α → Option β) (a : α) (as : List α)
    (h : f a = none) : (a :: as).findSome? f = as.findSome? f := by
  simp [List.findSome?, h]

theorem findSome?_cons_some {α β : Type} (f : α → Option β) (a : α) (as : List α)
    (b : β) (h : f a = some b) : (a :: as).findSome? f = some b := by
  simp [List.findSome?, h]

theorem findSome4 {β : Type} (f : Chars → Option β) (b : β) (w : Chars) (hw : w ∈ sevWords)
    (hsucc : f w = some b) (hfail : ∀ w2 ∈ sevWords, w2 ≠ w → f w2 = none) :
    sevWords.findSome? f = some b := by
  have he : sevWords = ["mild".data, "moderate".data, "severe".data, "unknown".data] := rfl
  fin_cases hw
  · rw [he, findSome?_cons_some f _ _ _ hsucc]
  · rw [he, findSome?_cons_none f _ _ (hfail _ (by decide) (by decide)),
      findSome?_cons_some f _ _ _ hsucc]
  · rw [he, findSome?_cons_none f _ _ (hfail _ (by decide) (by decide)),
      findSome?_cons_none f _ _ (hfail _ (by decide) (by decide)),
      findSome?_cons_some f _ _ _ hsucc]
  · rw [he, findSome?_cons_none f _ _ (hfail _ (by decide) (by decide)),
      findSome?_cons_none f _ _ (hfail _ (by decide) (by decide)),
      findSome?_cons_none f _ _ (hfail _ (by decide) (by decide)),
      findSome?_cons_some f _ _ _ hsucc]

theorem matchSev_some_iff (l ρ A : Chars) : matchSev l = some (ρ, A) ↔
    ∃ w ∈ sevWords, 14 + w.length ≤ l.length ∧
      lowStr (l.take 14) = lowStr "**Severity**: ".data ∧
      lowStr ((l.drop 14).take w.length) = w ∧
      ρ = "**Severity**: ".data ++ ((l.drop 14).take w.length).map Char.toUpper ∧
      A = l.drop (14 + w.length) := by
  have hH : ("**Severity**: ".data).length = 14 := rfl
  constructor
  · intro h
    unfold matchSev at h
    cases htA : takeAfterCi "**Severity**: ".data l with
    | none => rw [htA] at h; exact Option.noConfusion h
    | some r =>
      rw [htA] at h
      have h' : (sevWords.findSome? fun w => (takeAfterCi w r).map fun rest =>
          ("**Severity**: ".data ++ (r.take w.length).map Char.toUpper, rest)) =
          some (ρ, A) := h
      obtain ⟨w, hw, hfw⟩ := exists_of_findSome _ _ _ h'
      cases htw : takeAfterCi w r with
      | none => rw [htw] at hfw; exact Option.noConfusion hfw
      | some rest =>
        rw [htw] at hfw
        have hpair := Option.some.inj hfw
        have hρ := congrArg Prod.fst hpair
        have hA := congrArg Prod.snd hpair
        simp only at hρ hA
        obtain ⟨hl1, hl2, hl3⟩ := (takeAfterCi_some_iff _ _ _).mp htA
        obtain ⟨hw1, hw2, hw3⟩ := (takeAfterCi_some_iff _ _ _).mp htw
        rw [hH] at hl1 hl2 hl3
        have hr : r = l.drop 14 := hl3
        have hrl : r.length = l.length - 14 := by rw [hr, List.length_drop]
        refine ⟨w, hw, by omega, hl2, ?_, ?_, ?_⟩
        · rw [← hr, hw2, sevWords_low w hw]
        · rw [← hρ, hr]
        · rw [← hA, hw3, hr, List.drop_drop]
  · rintro ⟨w, hw, hlen, hLow, hWord, hρ, hA⟩
    have htA : takeAfterCi "**Severity**: ".data l = some (l.drop 14) := by
      rw [takeAfterCi_some_iff, hH]
      exact ⟨by omega, hLow, rfl⟩
    unfold matchSev
    rw [htA]
    show (sevWords.findSome? fun w => (takeAfterCi w (l.drop 14)).map fun rest =>
        ("**Severity**: ".data ++ ((l.drop 14).take w.length).map Char.toUpper, rest)) =
      some (ρ, A)
    have hsucc : takeAfterCi w (l.drop 14) = some ((l.drop 14).drop w.length) := by
      rw [takeAfterCi_some_iff]
      refine ⟨take_full_of_lowStr _ _ hWord, ?_, rfl⟩
      rw [hWord, sevWords_low w hw]
    have hgoal : ((takeAfterCi w (l.drop 14)).map fun rest =>
        ("**Severity**: ".data ++ ((l.drop 14).take w.length).map Char.toUpper, rest)) =
        some (ρ, A) := by
      rw [hsucc]
      show some _ = some (ρ, A)
      rw [hρ, hA, List.drop_drop]
    have hfail : ∀ w' ∈ sevWords, w' ≠ w →
        ((takeAfterCi w' (l.drop 14)).map fun rest =>
          ("**Severity**: ".data ++ ((l.drop 14).take w'.length).map Char.toUpper, rest)) =
        none := by
      intro w' hw' hne
      rw [takeAfterCi_none_of_low _ _
        (sevWord_take_ne w w' hw hw' (fun he => hne he.symm) _ hWord)]
      rfl
    exact findSome4 _ _ w hw hgoal hfail

theorem low_map_toUpper (m w : Chars) (h : lowStr m = w) :
    m.map Char.toUpper = w.map Char.toUpper := by
  rw [← h]
  simp only [lowStr, List.map_map]
  exact List.map_congr_left fun c _ => (toUpper_toLower c).symm

theorem take_eq_of_take_eq (x y : Chars) (k j : Nat) (h : x.take k = y.take k)
    (hj : j ≤ k) : x.take j = y.take j := by
  rw [show x.take j = (x.take k).take j by rw [List.take_take, Nat.min_eq_left hj],
    show y.take j = (y.take k).take j by rw [List.take_take, Nat.min_eq_left hj], h]

theorem matchSev_shape (l ρ A : Chars) (h : matchSev l = some (ρ, A)) :
    ∃ w ∈ sevWords,
      ρ = "**Severity**: ".data ++ w.map Char.toUpper ∧
      ρ.length = 14 + w.length ∧
      14 + w.length ≤ l.length ∧
      lowStr (l.take (14 + w.length)) = lowStr "**Severity**: ".data ++ w ∧
      A = l.drop (14 + w.length) := by
  obtain ⟨w, hw, hlen, hH, hW, hρ, hA⟩ := (matchSev_some_iff l ρ A).mp h
  have hm2 : ((l.drop 14).take w.length).length = w.length := by
    rw [List.length_take, List.length_drop]
    omega
  refine ⟨w, hw, ?_, ?_, hlen, ?_, hA⟩
  · rw [hρ]
    congr 1
    exact low_map_toUpper _ _ hW
  · rw [hρ, List.length_append, List.length_map, hm2]
    rfl
  · rw [List.take_add, lowStr_append, hH, hW]

theorem lowStr_map_toUpper_of_mem (w : Chars) (hw : w ∈ sevWords) :
    lowStr (w.map Char.toUpper) = w := by
  simp only [lowStr, List.map_map]
  have hcomp : List.map (Char.toLower ∘ Char.toUpper) w = List.map Char.toLower w :=
    List.map_congr_left fun c _ => toLower_toUpper c
  rw [hcomp]
  exact sevWords_low w hw

theorem matchSev_consume (l ρ A : Chars) (h : matchSev l = some (ρ, A)) :
    14 ≤ ρ.length ∧ ρ.length ≤ l.length ∧ A = l.drop ρ.length ∧
      lowStr (l.take ρ.length) = lowStr ρ := by
  obtain ⟨w, hw, hρ, hρl, hlen, hLow, hA⟩ := matchSev_shape l ρ A h
  refine ⟨by omega, by omega, by rw [hρl]; exact hA, ?_⟩
  rw [hρl, hLow, hρ, lowStr_append, lowStr_map_toUpper_of_mem w hw]

theorem matchSev_self (w : Chars) (hw : w ∈ sevWords) (X : Chars) :
    matchSev (("**Severity**: ".data ++ w.map Char.toUpper) ++ X) =
      some ("**Severity**: ".data ++ w.map Char.toUpper, X) := by
  fin_cases hw <;> rfl

theorem matchSev_none_ci (l m : Chars) (hl : lowStr l = lowStr m)
    (h : matchSev l = none) : matchSev m = none := by
  cases hm : matchSev m with
  | none => rfl
  | some p =>
    exfalso
    obtain ⟨ρ, A⟩ := p
    obtain ⟨w, hw, hlen, hH, hW, _, _⟩ := (matchSev_some_iff m ρ A).mp hm
    have hll : l.length = m.length := by
      have h2 := congrArg List.length hl
      rwa [lowStr_length, lowStr_length] at h2
    have h2 := (matchSev_some_iff l ("**Severity**: ".data ++
        ((l.drop 14).take w.length).map Char.toUpper) (l.drop (14 + w.length))).mpr
      ⟨w, hw, by omega, by rw [lowStr_take, hl, ← lowStr_take]; exact hH,
        by rw [lowStr_take, lowStr_drop, hl, ← lowStr_drop, ← lowStr_take]; exact hW,
        rfl, rfl⟩
    rw [h] at h2
    exact Option.noConfusion h2

theorem matchSev_take_congr (l₁ l₂ : Chars) (k : Nat) (ρ A₁ : Chars)
    (htk : l₁.take k = l₂.take k) (hk2 : k ≤ l₂.length)
    (h : matchSev l₁ = some (ρ, A₁)) (hρk : ρ.length ≤ k) :
    matchSev l₂ = some (ρ, l₂.drop ρ.length) := by
  obtain ⟨w, hw, hlen, hH, hW, hρ, hA⟩ := (matchSev_some_iff l₁ ρ A₁).mp h
  have hHl : ("**Severity**: ".data).length = 14 := rfl
  have hρl : ρ.length = 14 + w.length := by
    rw [hρ, List.length_append, List.length_map, List.length_take, List.length_drop, hHl]
    omega
  have htkc : l₁.take (14 + w.length) = l₂.take (14 + w.length) :=
    take_eq_of_take_eq _ _ k _ htk (by omega)
  have h14 : l₁.take 14 = l₂.take 14 :=
    take_eq_of_take_eq _ _ k _ htk (by omega)
  have hdt : (l₂.drop 14).take w.length = (l₁.drop 14).take w.length := by
    rw [List.take_drop, List.take_drop, htkc]
  apply (matchSev_some_iff l₂ ρ (l₂.drop ρ.length)).mpr
  exact ⟨w, hw, by omega, by rw [← h14]; exact hH, by rw [hdt]; exact hW,
    by rw [hdt]; exact hρ, by rw [hρl]⟩

theorem sevWords_len : ∀ w ∈ sevWords, w.length ≤ 8 := by decide

theorem sevPat_no_star3 : ∀ w ∈ sevWords, ∀ o < 20,
    ¬((lowStr "**Severity**: ".data ++ w)[o]? = some '*' ∧
      (lowStr "**Severity**: ".data ++ w)[o+1]? = some '*' ∧
      (lowStr "**Severity**: ".data ++ w)[o+2]? = some 'i') := by decide

theorem sevPat_last : ∀ w ∈ sevWords,
    ¬(lowStr "**Severity**: ".data ++ w)[14 + w.length - 1]? = some '*' ∧
    ¬(lowStr "**Severity**: ".data ++ w)[14 + w.length - 2]? = some '*' := by decide

theorem matchSev_contained (v X ρ A : Chars)
    (h : matchSev (v ++ '*' :: '*' :: 'I' :: X) = some (ρ, A)) : ρ.length ≤ v.length := by
  obtain ⟨w, hw, hρf, hρl, hlen, hLow, hA⟩ := matchSev_shape _ ρ A h
  by_contra hgt
  push_neg at hgt
  rw [hρl] at hgt
  have hpoint : ∀ idx, idx < 14 + w.length →
      (lowStr (v ++ '*' :: '*' :: 'I' :: X))[idx]? =
        (lowStr "**Severity**: ".data ++ w)[idx]? := by
    intro idx hidx
    have h1 : (lowStr ((v ++ '*' :: '*' :: 'I' :: X).take (14 + w.length)))[idx]? =
        (lowStr "**Severity**: ".data ++ w)[idx]? := by rw [hLow]
    rw [lowStr_take, List.getElem?_take, if_pos hidx] at h1
    exact h1
  have hctxIdx : ∀ j : Nat, (lowStr (v ++ '*' :: '*' :: 'I' :: X))[v.length + j]? =
      (lowStr ('*' :: '*' :: 'I' :: X))[j]? := by
    intro j
    rw [lowStr_append, List.getElem?_append, if_neg (by rw [lowStr_length]; omega)]
    congr 1
    rw [lowStr_length]
    omega
  have hlow3 : lowStr ('*' :: '*' :: 'I' :: X) = '*' :: '*' :: 'i' :: lowStr X := by
    simp only [lowStr, List.map_cons]
    rw [show ('*' : Char).toLower = '*' from by decide,
      show ('I' : Char).toLower = 'i' from by decide]
  have hv0 : (lowStr (v ++ '*' :: '*' :: 'I' :: X))[v.length]? = some '*' := by
    have h2 := hctxIdx 0
    rw [Nat.add_zero] at h2
    rw [h2, hlow3]
    simp
  have hv1 : (lowStr (v ++ '*' :: '*' :: 'I' :: X))[v.length + 1]? = some '*' := by
    rw [hctxIdx 1, hlow3]
    simp
  have hv2 : (lowStr (v ++ '*' :: '*' :: 'I' :: X))[v.length + 2]? = some 'i' := by
    rw [hctxIdx 2, hlow3]
    simp
  have hwlen : w.length ≤ 8 := sevWords_len w hw
  rcases Nat.lt_or_ge v.length (14 + w.length - 2) with hcase | hcase
  · -- at least 3 context chars inside the match
    have ho : v.length < 20 := by omega
    apply sevPat_no_star3 w hw v.length ho
    refine ⟨?_, ?_, ?_⟩
    · rw [← hpoint v.length (by omega)]; exact hv0
    · rw [← hpoint (v.length + 1) (by omega)]; exact hv1
    · rw [← hpoint (v.length + 2) (by omega)]; exact hv2
  · rcases Nat.lt_or_ge v.length (14 + w.length - 1) with hcase2 | hcase2
    · -- v.length = 14 + w.length - 2
      apply (sevPat_last w hw).2
      have he : 14 + w.length - 2 = v.length := by omega
      rw [he, ← hpoint v.length (by omega)]
      exact hv0
    · -- v.length = 14 + w.length - 1
      apply (sevPat_last w hw).1
      have he : 14 + w.length - 1 = v.length := by omega
      rw [he, ← hpoint v.length (by omega)]
      exact hv0

theorem matchSev_no_nl (l ρ A : Chars) (h : matchSev l = some (ρ, A)) :
    '\n' ∉ l.take ρ.length := by
  obtain ⟨w, hw, hρf, hρl, hlen, hLow, _⟩ := matchSev_shape l ρ A h
  intro hmem
  rw [hρl] at hmem
  have h2 : ('\n' : Char).toLower ∈ lowStr (l.take (14 + w.length)) :=
    List.mem_map_of_mem _ hmem
  rw [hLow, show ('\n' : Char).toLower = '\n' from rfl] at h2
  rcases List.mem_append.mp h2 with hc | hc
  · exact absurd hc (by decide)
  · have hnot : ∀ w2 ∈ sevWords, '\n' ∉ w2 := by decide
    exact hnot w hw hc

theorem matchSev_none_head (c : Char) (t : Chars) (hc : c.toLower ≠ '*') :
    matchSev (c :: t) = none := by
  cases h : matchSev (c :: t) with
  | none => rfl
  | some p =>
    exfalso
    obtain ⟨ρ, A⟩ := p
    obtain ⟨w, hw, hlen, hH, _, _, _⟩ := (matchSev_some_iff _ ρ A).mp h
    have h0 : (lowStr ((c :: t).take 14))[0]? = some c.toLower := by
      rw [show (c :: t).take 14 = c :: t.take 13 from rfl]
      simp only [lowStr, List.map_cons]
      simp
    rw [hH, show (lowStr ("**Severity**: ".data))[0]? = some '*' from by decide] at h0
    exact hc (Option.some.inj h0).symm

theorem matchSev_nil : matchSev [] = none := rfl

theorem usevGo_nil (f : Nat) : usevGo f [] = [] := by cases f <;> rfl

theorem usevGo_cons_none (fuel : Nat) (c : Char) (rest : Chars)
    (h : matchSev (c :: rest) = none) :
    usevGo (fuel + 1) (c :: rest) = c :: usevGo fuel rest := by
  show (match matchSev (c :: rest) with
    | some (repl, after) => repl ++ usevGo fuel after
    | none => c :: usevGo fuel rest) = _
  rw [h]

theorem usevGo_cons_some (fuel : Nat) (c : Char) (rest ρ A : Chars)
    (h : matchSev (c :: rest) = some (ρ, A)) :
    usevGo (fuel + 1) (c :: rest) = ρ ++ usevGo fuel A := by
  show (match matchSev (c :: rest) with
    | some (repl, after) => repl ++ usevGo fuel after
    | none => c :: usevGo fuel rest) = _
  rw [h]

theorem drop_append_right2 (x y : Chars) (j : Nat) :
    (x ++ y).drop (x.length + j) = y.drop j := by
  rw [← List.drop_drop, List.drop_left]

theorem drop_append_ge (x y : Chars) (i : Nat) (h : x.length ≤ i) :
    (x ++ y).drop i = y.drop (i - x.length) := by
  calc (x ++ y).drop i = (x ++ y).drop (x.length + (i - x.length)) := by
        rw [show x.length + (i - x.length) = i from by omega]
    _ = y.drop (i - x.length) := drop_append_right2 ..

theorem usevGo_length : ∀ (fuel : Nat) (l : Chars), (usevGo fuel l).length = l.length := by
  intro fuel
  induction fuel with
  | zero => intro l; rfl
  | succ f ih =>
    intro l
    cases l with
    | nil => rfl
    | cons c rest =>
      cases h : matchSev (c :: rest) with
      | none =>
        rw [usevGo_cons_none f c rest h, List.length_cons, List.length_cons, ih rest]
      | some p =>
        obtain ⟨ρ, A⟩ := p
        rw [usevGo_cons_some f c rest ρ A h]
        obtain ⟨h14, hle, hA, _⟩ := matchSev_consume _ ρ A h
        rw [List.length_append, ih A, hA, List.length_drop]
        rw [List.length_cons] at hle ⊢
        omega

theorem usevGo_lowStr : ∀ (fuel : Nat) (l : Chars), lowStr (usevGo fuel l) = lowStr l := by
  intro fuel
  induction fuel with
  | zero => intro l; rfl
  | succ f ih =>
    intro l
    cases l with
    | nil => rfl
    | cons c rest =>
      cases h : matchSev (c :: rest) with
      | none =>
        rw [usevGo_cons_none f c rest h]
        show Char.toLower c :: lowStr (usevGo f rest) = Char.toLower c :: lowStr rest
        rw [ih rest]
      | some p =>
        obtain ⟨ρ, A⟩ := p
        rw [usevGo_cons_some f c rest ρ A h]
        obtain ⟨_, _, hA, hlow⟩ := matchSev_consume _ ρ A h
        calc lowStr (ρ ++ usevGo f A) = lowStr ρ ++ lowStr A := by
              rw [lowStr_append, ih A]
          _ = lowStr ((c :: rest).take ρ.length) ++ lowStr ((c :: rest).drop ρ.length) := by
              rw [hlow, ← hA]
          _ = lowStr (c :: rest) := by rw [← lowStr_append, List.take_append_drop]

theorem usevGo_fuel2 : ∀ (f1 : Nat) (f2 : Nat) (l : Chars), l.length ≤ f1 → l.length ≤ f2 →
    usevGo f1 l = usevGo f2 l := by
  intro f1
  induction f1 with
  | zero =>
    intro f2 l h1 _
    have hl : l = [] := List.eq_nil_of_length_eq_zero (by omega)
    rw [hl, usevGo_nil, usevGo_nil]
  | succ f ih =>
    intro f2 l h1 h2
    cases l with
    | nil => rw [usevGo_nil, usevGo_nil]
    | cons c rest =>
      cases f2 with
      | zero => rw [List.length_cons] at h2; omega
      | succ f2' =>
        cases h : matchSev (c :: rest) with
        | none =>
          rw [usevGo_cons_none f c rest h, usevGo_cons_none f2' c rest h]
          rw [List.length_cons] at h1 h2
          rw [ih f2' rest (by omega) (by omega)]
        | some p =>
          obtain ⟨ρ, A⟩ := p
          rw [usevGo_cons_some f c rest ρ A h, usevGo_cons_some f2' c rest ρ A h]
          obtain ⟨h14, hle, hA, _⟩ := matchSev_consume _ ρ A h
          have hAl : A.length ≤ (c :: rest).length - 14 := by
            rw [hA, List.length_drop]
            omega
          rw [List.length_cons] at h1 h2 hAl
          rw [ih f2' A (by omega) (by omega)]

theorem usevGo_decomp : ∀ (fuel : Nat) (a r : Chars),
    a.length + r.length ≤ fuel →
    (∀ i, i < a.length →
      matchSev (a.drop i ++ r) = none ∨
      ∃ ρ A, matchSev (a.drop i ++ r) = some (ρ, A ++ r) ∧ a.drop i = ρ ++ A) →
    usevGo fuel (a ++ r) = a ++ usevGo r.length r := by
  intro fuel
  induction fuel with
  | zero =>
    intro a r hle _
    have ha : a = [] := List.eq_nil_of_length_eq_zero (by omega)
    have hr : r = [] := List.eq_nil_of_length_eq_zero (by omega)
    subst ha; subst hr
    rfl
  | succ f ih =>
    intro a r hle H
    cases a with
    | nil =>
      rw [List.nil_append, List.nil_append]
      exact usevGo_fuel2 (f + 1) r.length r (by simpa using hle) le_rfl
    | cons c a2 =>
      have H0 := H 0 (by simp)
      rw [List.drop_zero] at H0
      rcases H0 with hnone | ⟨ρ, A, hsome, hsplit⟩
      · have hnone2 : matchSev (c :: (a2 ++ r)) = none := hnone
        rw [show (c :: a2) ++ r = c :: (a2 ++ r) from rfl,
          usevGo_cons_none f _ _ hnone2,
          ih a2 r (by rw [List.length_cons] at hle; omega)
            (fun i hi => H (i + 1) (by rw [List.length_cons]; omega))]
        rfl
      · obtain ⟨h14, hρle, _, _⟩ := matchSev_consume _ ρ (A ++ r) hsome
        obtain ⟨r0, rT, hρc⟩ : ∃ r0 rT, ρ = r0 :: rT := by
          cases hc2 : ρ with
          | nil => rw [hc2] at h14; exact absurd h14 (by simp)
          | cons x xs => exact ⟨x, xs, rfl⟩
        have hlenA : ρ.length + A.length = (c :: a2).length := by
          rw [hsplit, List.length_append]
        have hForm : (c :: a2) ++ r = r0 :: (rT ++ (A ++ r)) := by
          rw [hsplit, hρc]
          simp [List.append_assoc]
        have hsome2 : matchSev (r0 :: (rT ++ (A ++ r))) = some (ρ, A ++ r) := by
          rw [← hForm]
          exact hsome
        rw [hForm, usevGo_cons_some f _ _ ρ (A ++ r) hsome2]
        have ihA := ih A r
          (by omega)
          (fun j hj => by
            have hdj : A.drop j = (c :: a2).drop (ρ.length + j) := by
              rw [hsplit, drop_append_right2]
            have h2 := H (ρ.length + j) (by omega)
            rw [← hdj] at h2
            exact h2)
        rw [ihA, ← List.append_assoc, ← hsplit]

theorem usevGo_fix_of_sevOK : ∀ (fuel : Nat) (l : Chars), l.length ≤ fuel → sevOK l →
    usevGo fuel l = l := by
  intro fuel
  induction fuel with
  | zero =>
    intro l hle _
    have hl : l = [] := List.eq_nil_of_length_eq_zero (by omega)
    rw [hl, usevGo_nil]
  | succ f ih =>
    intro l hle hOK
    cases l with
    | nil => rw [usevGo_nil]
    | cons c rest =>
      have h0 := hOK 0
      rw [List.drop_zero] at h0
      rcases h0 with hnone | ⟨ρ, A, hsome, hsplit⟩
      · rw [usevGo_cons_none f c rest hnone]
        rw [ih rest (by rw [List.length_cons] at hle; omega)
          (fun i => by have := hOK (i + 1); rwa [List.drop_succ_cons] at this)]
      · rw [usevGo_cons_some f c rest ρ A hsome]
        obtain ⟨h14, hρle, hA, _⟩ := matchSev_consume _ ρ A hsome
        have ihA := ih A
          (by rw [hA, List.length_drop]; rw [List.length_cons] at hle ⊢; omega)
          (fun j => by
            have hdj : A.drop j = (c :: rest).drop (ρ.length + j) := by
              rw [hsplit, drop_append_right2]
            rw [hdj]
            exact hOK (ρ.length + j))
        rw [ihA, ← hsplit]

theorem sevRepl_interior : ∀ w ∈ sevWords, ∀ j, 1 ≤ j → j < 14 + w.length → ∀ Y : Chars,
    matchSev ((("**Severity**: ".data ++ w.map Char.toUpper).drop j) ++ Y) = none := by
  intro w hw
  fin_cases hw
  · intro j hj1 hj2 Y
    have hj2' : j < 18 := by simpa using hj2
    interval_cases j <;> rfl
  · intro j hj1 hj2 Y
    have hj2' : j < 22 := by simpa using hj2
    interval_cases j <;> rfl
  · intro j hj1 hj2 Y
    have hj2' : j < 20 := by simpa using hj2
    interval_cases j <;> rfl
  · intro j hj1 hj2 Y
    have hj2' : j < 21 := by simpa using hj2
    interval_cases j <;> rfl

theorem sevOK_usevGo : ∀ (fuel : Nat) (l : Chars), l.length ≤ fuel →
    sevOK (usevGo fuel l) := by
  intro fuel
  induction fuel with
  | zero =>
    intro l hle
    have hl : l = [] := List.eq_nil_of_length_eq_zero (by omega)
    subst hl
    intro i
    left
    rw [usevGo_nil, List.drop_nil]
    exact matchSev_nil
  | succ f ih =>
    intro l hle
    cases l with
    | nil =>
      intro i
      left
      rw [usevGo_nil, List.drop_nil]
      exact matchSev_nil
    | cons c rest =>
      have hrl : rest.length ≤ f := by rw [List.length_cons] at hle; omega
      cases h : matchSev (c :: rest) with
      | none =>
        rw [usevGo_cons_none f c rest h]
        intro i
        cases i with
        | zero =>
          rw [List.drop_zero]
          left
          apply matchSev_none_ci (c :: rest) _ _ h
          show Char.toLower c :: lowStr rest = Char.toLower c :: lowStr (usevGo f rest)
          rw [usevGo_lowStr]
        | succ i =>
          rw [List.drop_succ_cons]
          exact ih rest hrl i
      | some p =>
        obtain ⟨ρ, A⟩ := p
        rw [usevGo_cons_some f c rest ρ A h]
        obtain ⟨w, hw, hρf, hρl, hlen, hLow, hA⟩ := matchSev_shape _ ρ A h
        have hAf : A.length ≤ f := by
          rw [hA, List.length_drop, List.length_cons]
          omega
        intro i
        rcases Nat.lt_or_ge i ρ.length with hi | hi
        · have hdi : (ρ ++ usevGo f A).drop i = ρ.drop i ++ usevGo f A :=
            List.drop_append_of_le_length (by omega)
          rw [hdi]
          cases i with
          | zero =>
            right
            rw [List.drop_zero]
            refine ⟨ρ, usevGo f A, ?_, rfl⟩
            rw [hρf]
            exact matchSev_self w hw _
          | succ i2 =>
            left
            rw [hρf]
            refine sevRepl_interior w hw (i2 + 1) (by omega) ?_ _
            have hρl2 : ("**Severity**: ".data ++ List.map Char.toUpper w).length =
                14 + w.length := by
              rw [List.length_append, List.length_map]
              rfl
            omega
        · rw [drop_append_ge _ _ i hi]
          exact ih A hAf (i - ρ.length)

theorem sevOK_usev (l : Chars) : sevOK (uppercase_severity l) :=
  sevOK_usevGo l.length l le_rfl

theorem usev_idem (l : Chars) :
    uppercase_severity (uppercase_severity l) = uppercase_severity l :=
  usevGo_fix_of_sevOK _ _ le_rfl (sevOK_usev l)

theorem usev_length (l : Chars) : (uppercase_severity l).length = l.length :=
  usevGo_length l.length l

theorem usev_lowStr (l : Chars) : lowStr (uppercase_severity l) = lowStr l :=
  usevGo_lowStr l.length l

theorem sev_inert_transport (a Y X : Chars) (hOK : sevOK (a ++ '*' :: '*' :: 'I' :: Y))
    (i : Nat) (hi : i < a.length) :
    matchSev (a.drop i ++ '*' :: '*' :: 'I' :: X) = none ∨
    ∃ ρ A, matchSev (a.drop i ++ '*' :: '*' :: 'I' :: X) =
        some (ρ, A ++ '*' :: '*' :: 'I' :: X) ∧ a.drop i = ρ ++ A := by
  have hdl : (a.drop i).length = a.length - i := List.length_drop ..
  have hdi : (a ++ '*' :: '*' :: 'I' :: Y).drop i = a.drop i ++ '*' :: '*' :: 'I' :: Y :=
    List.drop_append_of_le_length (by omega)
  have h0 := hOK i
  rw [hdi] at h0
  have htk : (a.drop i ++ '*' :: '*' :: 'I' :: Y).take (a.length - i) =
      (a.drop i ++ '*' :: '*' :: 'I' :: X).take (a.length - i) := by
    rw [List.take_append_of_le_length (by omega), List.take_append_of_le_length (by omega)]
  have hXlen : a.length - i ≤ (a.drop i ++ '*' :: '*' :: 'I' :: X).length := by
    rw [List.length_append]
    omega
  have hYlen : a.length - i ≤ (a.drop i ++ '*' :: '*' :: 'I' :: Y).length := by
    rw [List.length_append]
    omega
  rcases h0 with hnone | ⟨ρ, A, hsome, hsplit⟩
  · left
    cases hnew : matchSev (a.drop i ++ '*' :: '*' :: 'I' :: X) with
    | none => rfl
    | some p =>
      exfalso
      obtain ⟨ρ, B⟩ := p
      have hcont := matchSev_contained _ _ _ _ hnew
      have hback := matchSev_take_congr _ _ (a.length - i) ρ B htk.symm hYlen hnew
        (by omega)
      rw [hnone] at hback
      exact Option.noConfusion hback
  · right
    have hcont := matchSev_contained _ _ _ _ hsome
    have htkρ : (a.drop i).take ρ.length = ρ := by
      have h1 := congrArg (List.take ρ.length) hsplit
      rw [List.take_append_of_le_length hcont, List.take_left] at h1
      exact h1
    refine ⟨ρ, (a.drop i).drop ρ.length, ?_, ?_⟩
    · have hfwd := matchSev_take_congr _ _ (a.length - i) ρ A htk hXlen hsome (by omega)
      rw [List.drop_append_of_le_length hcont] at hfwd
      exact hfwd
    · conv_lhs => rw [← List.take_append_drop ρ.length (a.drop i), htkρ]

theorem usev_hdr_scan (DS T : Chars) (hDS : ∀ d ∈ DS, d.isDigit = true) (fuel : Nat)
    (hfuel : ("**Interaction ".data ++ (DS ++ ("**: ".data ++ T))).length ≤ fuel) :
    usevGo fuel ("**Interaction ".data ++ (DS ++ ("**: ".data ++ T))) =
      "**Interaction ".data ++ (DS ++ ("**: ".data ++ usevGo T.length T)) := by
  simp only [List.length_append] at hfuel
  have h1 := usevGo_decomp fuel "**Interaction ".data (DS ++ ("**: ".data ++ T))
    (by simp only [List.length_append]; omega)
    (fun i hi => by
      left
      have hi14 : i < 14 := hi
      interval_cases i <;> rfl)
  have h2 := usevGo_decomp (DS ++ ("**: ".data ++ T)).length DS ("**: ".data ++ T)
    (by simp only [List.length_append]; omega)
    (fun i hi => by
      left
      cases hD : DS.drop i with
      | nil =>
        exfalso
        have h5 := congrArg List.length hD
        rw [List.length_drop] at h5
        simp at h5
        omega
      | cons d t =>
        have hd : d ∈ DS := by
          have hd2 : d ∈ DS.drop i := by rw [hD]; simp
          exact (List.drop_suffix i DS).subset hd2
        exact matchSev_none_head d _ (toLower_digit_ne_star d (hDS d hd)))
  have h3 := usevGo_decomp ("**: ".data ++ T).length "**: ".data T
    (by simp only [List.length_append]; omega)
    (fun i hi => by
      left
      have hi4 : i < 4 := hi
      interval_cases i <;> rfl)
  rw [h1]
  rw [h2]
  rw [h3]

theorem usevGo_join : ∀ (fuel : Nat) (s q : Chars), (∀ c ∈ s, c ≠ '\n') →
    s.length + (1 + q.length) ≤ fuel →
    usevGo fuel (s ++ '\n' :: q) = usevGo s.length s ++ '\n' :: usevGo q.length q := by
  intro fuel
  induction fuel with
  | zero => intro s q _ hle; omega
  | succ f ih =>
    intro s q hs hle
    cases s with
    | nil =>
      rw [List.nil_append]
      have hnl : matchSev ('\n' :: q) = none :=
        matchSev_none_head '\n' q (by decide)
      rw [usevGo_cons_none f '\n' q hnl]
      show _ = [] ++ '\n' :: usevGo q.length q
      rw [List.nil_append]
      congr 1
      exact usevGo_fuel2 f q.length q (by simp at hle; omega) le_rfl
    | cons c s2 =>
      have hs2 : ∀ x ∈ s2, x ≠ '\n' := fun x hx => hs x (List.mem_cons_of_mem c hx)
      have hlen2 : s2.length + (1 + q.length) ≤ f := by
        rw [List.length_cons] at hle
        omega
      cases hm : matchSev ((c :: s2) ++ '\n' :: q) with
      | some p =>
        obtain ⟨ρ, A⟩ := p
        obtain ⟨h14, hρle, hAd, _⟩ := matchSev_consume _ ρ A hm
        have hnl := matchSev_no_nl _ ρ A hm
        have hcont : ρ.length ≤ (c :: s2).length := by
          by_contra hgt
          push_neg at hgt
          apply hnl
          rw [List.take_append_eq_append_take]
          apply List.mem_append_right
          have h1 : 1 ≤ ρ.length - (c :: s2).length := by omega
          cases he : ρ.length - (c :: s2).length with
          | zero => omega
          | succ n =>
            rw [List.take_succ_cons]
            simp
        have htkeq : ((c :: s2) ++ '\n' :: q).take (c :: s2).length = (c :: s2).take (c :: s2).length := List.take_append_of_le_length le_rfl
        have hiso : matchSev (c :: s2) = some (ρ, (c :: s2).drop ρ.length) :=
          matchSev_take_congr _ _ (c :: s2).length ρ A htkeq le_rfl hm hcont
        have hA2 : A = (c :: s2).drop ρ.length ++ '\n' :: q := by
          rw [hAd, List.drop_append_of_le_length hcont]
        have hcons : (c :: s2) ++ '\n' :: q = c :: (s2 ++ '\n' :: q) := rfl
        have hm2 : matchSev (c :: (s2 ++ '\n' :: q)) = some (ρ, A) := by rw [← hcons]; exact hm
        rw [hcons, usevGo_cons_some f _ _ ρ A hm2]
        set A0 := (c :: s2).drop ρ.length with hA0
        have hA0nl : ∀ x ∈ A0, x ≠ '\n' := fun x hx =>
          hs x ((List.drop_suffix ρ.length (c :: s2)).subset hx)
        have hA0len : A0.length ≤ s2.length := by
          rw [hA0, List.length_drop, List.length_cons]
          omega
        have ihA := ih A0 q hA0nl (by omega)
        rw [hA2, ihA]
        -- RHS
        rw [show (c :: s2).length = s2.length + 1 from rfl,
          usevGo_cons_some s2.length c s2 ρ A0 (by rw [hA0]; exact hiso)]
        rw [usevGo_fuel2 s2.length A0.length A0 hA0len le_rfl]
        rw [List.append_assoc]
      | none =>
        have hiso : matchSev (c :: s2) = none := by
          cases hiso2 : matchSev (c :: s2) with
          | none => rfl
          | some p =>
            exfalso
            obtain ⟨ρ, A⟩ := p
            obtain ⟨_, hρle, _, _⟩ := matchSev_consume _ ρ A hiso2
            have h2 := matchSev_take_congr (c :: s2) ((c :: s2) ++ '\n' :: q)
              (c :: s2).length ρ A
              (List.take_append_of_le_length le_rfl).symm
              (by rw [List.length_append]; omega)
              hiso2 hρle
            rw [hm] at h2
            exact Option.noConfusion h2
        have hcons : (c :: s2) ++ '\n' :: q = c :: (s2 ++ '\n' :: q) := rfl
        have hm2 : matchSev (c :: (s2 ++ '\n' :: q)) = none := by rw [← hcons]; exact hm
        rw [hcons, usevGo_cons_none f _ _ hm2, ih s2 q hs2 hlen2]
        rw [show (c :: s2).length = s2.length + 1 from rfl,
          usevGo_cons_none s2.length c s2 hiso]
        rfl

theorem usev_join (s q : Chars) (hs : ∀ c ∈ s, c ≠ '\n') :
    uppercase_severity (s ++ '\n' :: q) =
      uppercase_severity s ++ '\n' :: uppercase_severity q := by
  unfold uppercase_severity
  rw [usevGo_join (s ++ '\n' :: q).length s q hs
    (by rw [List.length_append, List.length_cons]; omega)]

/-! ### collapse_spaces -/

theorem csp_cons2 (c1 c2 : Char) (rest : Chars) :
    collapse_spaces (c1 :: c2 :: rest) =
      if c1 = ' ' ∧ c2 = ' ' then collapse_spaces (c2 :: rest)
      else c1 :: collapse_spaces (c2 :: rest) := rfl

theorem sp2OK_cons2 (c d : Char) (t : Chars) :
    sp2OK (c :: d :: t) = (!(c == ' ' && d == ' ') && sp2OK (d :: t)) := rfl

theorem csp_head? : ∀ l : Chars, (collapse_spaces l).head? = l.head? := by
  intro l
  induction l with
  | nil => rfl
  | cons c t ih =>
    cases t with
    | nil => rfl
    | cons c2 r =>
      rw [csp_cons2]
      by_cases h : c = ' ' ∧ c2 = ' '
      · rw [if_pos h, ih]
        simp [h.1, h.2]
      · rw [if_neg h]
        rfl

theorem sp2OK_csp : ∀ l : Chars, sp2OK (collapse_spaces l) = true := by
  intro l
  induction l with
  | nil => rfl
  | cons c t ih =>
    cases t with
    | nil => rfl
    | cons c2 r =>
      rw [csp_cons2]
      by_cases h : c = ' ' ∧ c2 = ' '
      · rw [if_pos h]
        exact ih
      · rw [if_neg h]
        cases hsp : collapse_spaces (c2 :: r) with
        | nil => rfl
        | cons d u =>
          rw [sp2OK_cons2]
          have hd : d = c2 := by
            have h1 := csp_head? (c2 :: r)
            rw [hsp] at h1
            exact Option.some.inj h1
          rw [hsp] at ih
          rw [ih, Bool.and_true]
          subst hd
          by_cases hc : c = ' '
          · by_cases hc2 : d = ' '
            · exact absurd ⟨hc, hc2⟩ h
            · simp [hc, hc2]
          · simp [hc]

theorem csp_fix : ∀ l : Chars, sp2OK l = true → collapse_spaces l = l := by
  intro l
  induction l with
  | nil => intro _; rfl
  | cons c t ih =>
    intro hOK
    cases t with
    | nil => rfl
    | cons c2 r =>
      rw [sp2OK_cons2, Bool.and_eq_true] at hOK
      rw [csp_cons2, if_neg (by
        rintro ⟨h1, h2⟩
        rw [h1, h2] at hOK
        simp at hOK)]
      rw [ih hOK.2]

theorem sp2OK_cons_elim (c : Char) (l : Chars) (h : sp2OK (c :: l) = true) :
    sp2OK l = true := by
  cases l with
  | nil => rfl
  | cons d t =>
    rw [sp2OK_cons2, Bool.and_eq_true] at h
    exact h.2

theorem sp2OK_append_right (x y : Chars) (h : sp2OK (x ++ y) = true) : sp2OK y = true := by
  induction x with
  | nil => exact h
  | cons c t ih => exact ih (sp2OK_cons_elim c (t ++ y) h)

theorem sp2OK_append_left : ∀ (x y : Chars), sp2OK (x ++ y) = true → sp2OK x = true := by
  intro x
  induction x with
  | nil => intro y _; rfl
  | cons c t ih =>
    intro y h
    cases t with
    | nil => rfl
    | cons c2 r =>
      rw [show ((c :: c2 :: r) ++ y) = c :: c2 :: (r ++ y) from rfl, sp2OK_cons2,
        Bool.and_eq_true] at h
      rw [sp2OK_cons2, Bool.and_eq_true]
      exact ⟨h.1, ih y h.2⟩

theorem sp2OK_two (y : Chars) : sp2OK (' ' :: ' ' :: y) = false := rfl

theorem sp2OK_ci : ∀ (a b : Chars), lowStr a = lowStr b → sp2OK a = sp2OK b := by
  intro a
  induction a with
  | nil =>
    intro b hb
    have : b = [] := by
      have h1 := congrArg List.length hb
      rw [lowStr_length, lowStr_length] at h1
      exact List.eq_nil_of_length_eq_zero h1.symm
    rw [this]
  | cons c t ih =>
    intro b hb
    cases b with
    | nil =>
      exfalso
      have h1 := congrArg List.length hb
      rw [lowStr_length, lowStr_length] at h1
      simp at h1
    | cons d u =>
      have hcd : c.toLower = d.toLower := by
        have : lowStr (c :: t) = c.toLower :: lowStr t := rfl
        rw [this, show lowStr (d :: u) = d.toLower :: lowStr u from rfl] at hb
        exact (List.cons.injEq .. ▸ hb).1
      have htu : lowStr t = lowStr u := by
        rw [show lowStr (c :: t) = c.toLower :: lowStr t from rfl,
          show lowStr (d :: u) = d.toLower :: lowStr u from rfl] at hb
        exact (List.cons.injEq .. ▸ hb).2
      cases t with
      | nil =>
        have : u = [] := by
          have h1 := congrArg List.length htu
          rw [lowStr_length, lowStr_length] at h1
          exact List.eq_nil_of_length_eq_zero h1.symm
        rw [this]
        rfl
      | cons c2 t2 =>
        cases u with
        | nil =>
          exfalso
          have h1 := congrArg List.length htu
          rw [lowStr_length, lowStr_length] at h1
          simp at h1
        | cons d2 u2 =>
          have hcd2 : c2.toLower = d2.toLower := by
            rw [show lowStr (c2 :: t2) = c2.toLower :: lowStr t2 from rfl,
              show lowStr (d2 :: u2) = d2.toLower :: lowStr u2 from rfl] at htu
            exact (List.cons.injEq .. ▸ htu).1
          rw [sp2OK_cons2, sp2OK_cons2, ih (d2 :: u2) htu,
            beq_congr_ci c d hcd ' ' (by decide),
            beq_congr_ci c2 d2 hcd2 ' ' (by decide)]

theorem csp_nonspace_split (K : Char) (hK : K ≠ ' ') : ∀ (s q : Chars),
    collapse_spaces (s ++ K :: q) = collapse_spaces s ++ K :: collapse_spaces q := by
  have hbase : ∀ q : Chars, collapse_spaces (K :: q) = K :: collapse_spaces q := by
    intro q
    cases q with
    | nil => rfl
    | cons x xs =>
      rw [csp_cons2, if_neg (by rintro ⟨h1, _⟩; exact hK h1)]
  intro s
  induction s with
  | nil =>
    intro q
    rw [List.nil_append]
    exact hbase q
  | cons c s2 ih =>
    intro q
    cases s2 with
    | nil =>
      rw [show ([c] ++ K :: q) = c :: K :: q from rfl, csp_cons2,
        if_neg (by rintro ⟨_, h2⟩; exact hK h2), hbase q]
      rfl
    | cons c2 s3 =>
      rw [show ((c :: c2 :: s3) ++ K :: q) = c :: c2 :: (s3 ++ K :: q) from rfl,
        csp_cons2, csp_cons2]
      by_cases h : c = ' ' ∧ c2 = ' '
      · rw [if_pos h, if_pos h]
        exact ih q
      · rw [if_neg h, if_neg h]
        have ih2 := ih q
        rw [show ((c2 :: s3) ++ K :: q) = c2 :: (s3 ++ K :: q) from rfl] at ih2
        rw [ih2]
        rfl

theorem csp_space_cons : ∀ t : Chars,
    collapse_spaces (' ' :: t) = ' ' :: collapse_spaces (t.dropWhile (· == ' ')) := by
  intro t
  induction t with
  | nil => rfl
  | cons x xs ih =>
    by_cases hx : x = ' '
    · subst hx
      rw [csp_cons2, if_pos ⟨rfl, rfl⟩, ih]
      rw [List.dropWhile_cons]
      simp
    · rw [csp_cons2, if_neg (by rintro ⟨_, h2⟩; exact hx h2)]
      rw [List.dropWhile_cons, if_neg (by simp [hx])]

theorem csp_subset : ∀ (l : Chars) (c : Char), c ∈ collapse_spaces l → c ∈ l := by
  intro l
  induction l with
  | nil => intro c hc; exact hc
  | cons a t ih =>
    intro c hc
    cases t with
    | nil => exact hc
    | cons a2 r =>
      rw [csp_cons2] at hc
      by_cases h : a = ' ' ∧ a2 = ' '
      · rw [if_pos h] at hc
        exact List.mem_cons_of_mem a (ih c hc)
      · rw [if_neg h] at hc
        rcases List.mem_cons.mp hc with h1 | h1
        · exact h1 ▸ List.mem_cons_self a _
        · exact List.mem_cons_of_mem a (ih c h1)

theorem csp_append_gen : ∀ (P X : Chars), sp2OK P = true →
    (∀ e, P.getLast? = some e → e = ' ' → X.head? ≠ some ' ') →
    collapse_spaces (P ++ X) = P ++ collapse_spaces X := by
  intro P
  induction P with
  | nil => intro X _ _; rfl
  | cons c P2 ih =>
    intro X hOK hlast
    cases P2 with
    | nil =>
      cases X with
      | nil => rfl
      | cons x xs =>
        rw [show ([c] ++ x :: xs) = c :: x :: xs from rfl, csp_cons2,
          if_neg (by
            rintro ⟨h1, h2⟩
            exact hlast c rfl h1 (by rw [h2]; rfl))]
        rfl
    | cons c2 P3 =>
      rw [show ((c :: c2 :: P3) ++ X) = c :: c2 :: (P3 ++ X) from rfl, csp_cons2,
        if_neg (by
          rintro ⟨h1, h2⟩
          rw [sp2OK_cons2, h1, h2] at hOK
          simp at hOK)]
      rw [show (c2 :: (P3 ++ X)) = (c2 :: P3) ++ X from rfl]
      rw [ih X (sp2OK_cons_elim c (c2 :: P3) hOK)
        (fun e he hsp => hlast e (by rw [List.getLast?_cons_cons]; exact he) hsp)]
      rfl

/-! ### collapse_newlines -/

theorem cnl_cons3 (c1 c2 c3 : Char) (rest : Chars) :
    collapse_newlines (c1 :: c2 :: c3 :: rest) =
      if c1 = '\n' ∧ c2 = '\n' ∧ c3 = '\n' then collapse_newlines (c2 :: c3 :: rest)
      else c1 :: collapse_newlines (c2 :: c3 :: rest) := rfl

theorem nlOK3_cons3 (c1 c2 c3 : Char) (t : Chars) :
    nlOK3 (c1 :: c2 :: c3 :: t) =
      (!(c1 == '\n' && c2 == '\n' && c3 == '\n') && nlOK3 (c2 :: c3 :: t)) := rfl

theorem cnl_head? : ∀ l : Chars, (collapse_newlines l).head? = l.head? := by
  intro l
  induction l with
  | nil => rfl
  | cons c t ih =>
    cases t with
    | nil => rfl
    | cons c2 r =>
      cases r with
      | nil => rfl
      | cons c3 r2 =>
        rw [cnl_cons3]
        by_cases h : c = '\n' ∧ c2 = '\n' ∧ c3 = '\n'
        · rw [if_pos h, ih]
          simp [h.1, h.2.1]
        · rw [if_neg h]
          rfl

theorem cnl_second : ∀ l : Chars, (collapse_newlines l).tail.head? = l.tail.head? := by
  intro l
  induction l with
  | nil => rfl
  | cons c t ih =>
    cases t with
    | nil => rfl
    | cons c2 r =>
      cases r with
      | nil => rfl
      | cons c3 r2 =>
        rw [cnl_cons3]
        by_cases h : c = '\n' ∧ c2 = '\n' ∧ c3 = '\n'
        · rw [if_pos h, ih]
          simp [h.2.1, h.2.2]
        · rw [if_neg h]
          show (collapse_newlines (c2 :: c3 :: r2)).head? = _
          rw [cnl_head?]
          rfl

theorem nlOK3_cnl : ∀ l : Chars, nlOK3 (collapse_newlines l) = true := by
  intro l
  induction l with
  | nil => rfl
  | cons c t ih =>
    cases t with
    | nil => rfl
    | cons c2 r =>
      cases r with
      | nil => rfl
      | cons c3 r2 =>
        rw [cnl_cons3]
        by_cases h : c = '\n' ∧ c2 = '\n' ∧ c3 = '\n'
        · rw [if_pos h]
          exact ih
        · rw [if_neg h]
          cases hT : collapse_newlines (c2 :: c3 :: r2) with
          | nil => rfl
          | cons d1 u =>
            cases u with
            | nil => rfl
            | cons d2 u2 =>
              rw [nlOK3_cons3]
              rw [hT] at ih
              rw [ih, Bool.and_true]
              have hd1 : d1 = c2 := by
                have h1 := cnl_head? (c2 :: c3 :: r2)
                rw [hT] at h1
                exact Option.some.inj h1
              have hd2 : d2 = c3 := by
                have h1 := cnl_second (c2 :: c3 :: r2)
                rw [hT] at h1
                exact Option.some.inj h1
              subst hd1
              subst hd2
              by_cases h1 : c = '\n'
              · by_cases h2 : d1 = '\n'
                · by_cases h3 : d2 = '\n'
                  · exact absurd ⟨h1, h2, h3⟩ h
                  · simp [h1, h2, h3]
                · simp [h1, h2]
              · simp [h1]

theorem cnl_fix : ∀ l : Chars, nlOK3 l = true → collapse_newlines l = l := by
  intro l
  induction l with
  | nil => intro _; rfl
  | cons c t ih =>
    intro hOK
    cases t with
    | nil => rfl
    | cons c2 r =>
      cases r with
      | nil => rfl
      | cons c3 r2 =>
        rw [nlOK3_cons3, Bool.and_eq_true] at hOK
        rw [cnl_cons3, if_neg (by
          rintro ⟨h1, h2, h3⟩
          rw [h1, h2, h3] at hOK
          simp at hOK)]
        rw [ih hOK.2]

theorem nlOK3_cons_elim (c : Char) (l : Chars) (h : nlOK3 (c :: l) = true) :
    nlOK3 l = true := by
  cases l with
  | nil => rfl
  | cons d t =>
    cases t with
    | nil => rfl
    | cons e u =>
      rw [nlOK3_cons3, Bool.and_eq_true] at h
      exact h.2

theorem nlOK3_append_nlfree : ∀ (s X : Chars), (∀ c ∈ s, c ≠ '\n') →
    nlOK3 (s ++ X) = nlOK3 X := by
  intro s
  induction s with
  | nil => intro X _; rfl
  | cons c s2 ih =>
    intro X hs
    have hc : c ≠ '\n' := hs c (by simp)
    have hs2 : ∀ x ∈ s2, x ≠ '\n' := fun x hx => hs x (List.mem_cons_of_mem c hx)
    rw [show ((c :: s2) ++ X) = c :: (s2 ++ X) from rfl]
    cases hsx : s2 ++ X with
    | nil =>
      have hX : X = [] := (List.append_eq_nil.mp hsx).2
      rw [hX]
      rfl
    | cons d u =>
      cases u with
      | nil =>
        have hXs : X = [] ∨ X = [d] := by
          cases hX : X with
          | nil => exact Or.inl rfl
          | cons x xs =>
            right
            have h2 := congrArg List.length hsx
            rw [List.length_append, hX] at h2
            simp at h2
            have hs2n : s2 = [] := List.eq_nil_of_length_eq_zero (by omega)
            rw [hs2n, hX] at hsx
            simpa using hsx
        rcases hXs with hX | hX <;> rw [hX] <;> rfl
      | cons e u2 =>
        rw [nlOK3_cons3]
        have hcb : (c == '\n') = false := by
          cases hcc : c == '\n' with
          | false => rfl
          | true => exact absurd (beq_iff_eq.mp hcc) hc
        rw [hcb]
        rw [← hsx, ih X hs2]
        rfl

theorem nlOK3_nlfree (s : Chars) (hs : ∀ c ∈ s, c ≠ '\n') : nlOK3 s = true := by
  have h := nlOK3_append_nlfree s [] hs
  rw [List.append_nil] at h
  rw [h]
  rfl

/-! ### The line-join layer: splitNl and joinNl are mutually inverse on
newline-free pieces, and nlOK3 of a join depends only on the emptiness
pattern of the pieces. -/

theorem splitNl_nl (rest : Chars) : splitNl ('\n' :: rest) = [] :: splitNl rest := rfl

theorem splitNl_ne_nil : ∀ l : Chars, splitNl l ≠ [] := by
  intro l
  induction l with
  | nil => simp [splitNl]
  | cons c t ih =>
    by_cases hc : c = '\n'
    · subst hc
      rw [splitNl_nl]
      simp
    · rw [splitNl_cons_ne c t hc]
      cases h : splitNl t with
      | nil => exact absurd h ih
      | cons p ps => simp [consHead]

theorem joinNl_cons (p : Chars) (L : List Chars) (hL : L ≠ []) :
    joinNl (p :: L) = p ++ '\n' :: joinNl L := by
  cases L with
  | nil => exact absurd rfl hL
  | cons q qs => rfl

theorem splitNl_pieces_nlfree : ∀ (l : Chars), ∀ p ∈ splitNl l, ∀ c ∈ p, c ≠ '\n' := by
  intro l
  induction l with
  | nil =>
    intro p hp
    simp [splitNl] at hp
    subst hp
    intro c hc
    simp at hc
  | cons a t ih =>
    intro p hp
    by_cases ha : a = '\n'
    · subst ha
      rw [splitNl_nl] at hp
      rcases List.mem_cons.mp hp with h | h
      · subst h; intro c hc; simp at hc
      · exact ih p h
    · rw [splitNl_cons_ne a t ha] at hp
      cases hs : splitNl t with
      | nil => exact absurd hs (splitNl_ne_nil t)
      | cons p0 ps =>
        rw [hs] at hp
        rcases List.mem_cons.mp hp with h | h
        · subst h
          intro c hc
          rcases List.mem_cons.mp hc with h1 | h1
          · rw [h1]; exact ha
          · exact ih p0 (hs ▸ List.mem_cons_self p0 ps) c h1
        · exact ih p (hs ▸ List.mem_cons_of_mem p0 h)

theorem joinNl_splitNl : ∀ l : Chars, joinNl (splitNl l) = l := by
  intro l
  induction l with
  | nil => rfl
  | cons a t ih =>
    by_cases ha : a = '\n'
    · subst ha
      rw [splitNl_nl, joinNl_cons [] (splitNl t) (splitNl_ne_nil t), ih]
      rfl
    · rw [splitNl_cons_ne a t ha]
      cases hs : splitNl t with
      | nil => exact absurd hs (splitNl_ne_nil t)
      | cons p ps =>
        rw [hs] at ih
        cases ps with
        | nil =>
          show joinNl [a :: p] = a :: t
          have : joinNl [p] = t := ih
          simp [joinNl] at this ⊢
          exact this
        | cons q qs =>
          show joinNl ((a :: p) :: q :: qs) = a :: t
          rw [joinNl_cons (a :: p) (q :: qs) (by simp),
            show ((a :: p) ++ '\n' :: joinNl (q :: qs)) =
              a :: (p ++ '\n' :: joinNl (q :: qs)) from rfl,
            ← joinNl_cons p (q :: qs) (by simp), ih]

theorem splitNl_joinNl : ∀ (M : List Chars), M ≠ [] →
    (∀ p ∈ M, ∀ c ∈ p, c ≠ '\n') → splitNl (joinNl M) = M := by
  intro M
  induction M with
  | nil => intro h; exact absurd rfl h
  | cons p ps ih =>
    intro _ hfree
    cases ps with
    | nil =>
      show splitNl (joinNl [p]) = [p]
      exact splitNl_nlfree p (hfree p (by simp))
    | cons q qs =>
      rw [joinNl_cons p (q :: qs) (by simp)]
      obtain ⟨h0, t0, h1, h2⟩ := splitNl_append_nlfree p ('\n' :: joinNl (q :: qs))
        (hfree p (by simp))
      rw [splitNl_nl] at h1
      rw [ih (by simp) (fun r hr => hfree r (List.mem_cons_of_mem p hr))] at h1
      injection h1 with h1a h1b
      rw [h2, ← h1a, ← h1b, List.append_nil]

theorem csp_joinNl : ∀ M : List Chars,
    collapse_spaces (joinNl M) = joinNl (M.map collapse_spaces) := by
  intro M
  induction M with
  | nil => rfl
  | cons p ps ih =>
    cases ps with
    | nil => rfl
    | cons q qs =>
      rw [joinNl_cons p (q :: qs) (by simp),
        csp_nonspace_split '\n' (by decide) p (joinNl (q :: qs)), ih]
      simp only [List.map_cons]
      rw [joinNl_cons (collapse_spaces p) (collapse_spaces q :: qs.map collapse_spaces)
          (by simp)]

theorem usev_joinNl : ∀ M : List Chars, (∀ p ∈ M, ∀ c ∈ p, c ≠ '\n') →
    uppercase_severity (joinNl M) = joinNl (M.map uppercase_severity) := by
  intro M
  induction M with
  | nil => intro _; rfl
  | cons p ps ih =>
    intro hfree
    cases ps with
    | nil => rfl
    | cons q qs =>
      rw [joinNl_cons p (q :: qs) (by simp),
        usev_join p (joinNl (q :: qs)) (hfree p (by simp)),
        ih (fun r hr => hfree r (List.mem_cons_of_mem p hr))]
      simp only [List.map_cons]
      rw [joinNl_cons (uppercase_severity p)
          (uppercase_severity q :: qs.map uppercase_severity) (by simp)]

theorem nlOK3_nl_cons_ne (d : Char) (t : Chars) (hd : d ≠ '\n') :
    nlOK3 ('\n' :: d :: t) = nlOK3 (d :: t) := by
  cases t with
  | nil => rfl
  | cons e u =>
    rw [nlOK3_cons3]
    have : (d == '\n') = false := by
      cases h : d == '\n' with
      | false => rfl
      | true => exact absurd (beq_iff_eq.mp h) hd
    simp [this]

theorem nlOK3_nl_nl (J : Chars) :
    nlOK3 ('\n' :: '\n' :: J) = (!(J.head? == some '\n') && nlOK3 ('\n' :: J)) := by
  cases J with
  | nil => rfl
  | cons d u =>
    rw [nlOK3_cons3]
    simp

theorem joinNl_head_nl : ∀ (ps : List Chars), (∀ p ∈ ps, ∀ c ∈ p, c ≠ '\n') →
    ((joinNl ps).head? = some '\n' ↔ ∃ t, ps = [] :: t ∧ t ≠ []) := by
  intro ps hfree
  cases ps with
  | nil =>
    simp [joinNl]
  | cons p t =>
    cases t with
    | nil =>
      show (joinNl [p]).head? = some '\n' ↔ _
      constructor
      · intro h
        cases p with
        | nil => simp [joinNl] at h
        | cons c cs =>
          have : c = '\n' := by
            have : (joinNl [c :: cs]).head? = some c := rfl
            rw [this] at h
            exact Option.some.inj h
          exact absurd this (hfree (c :: cs) (by simp) c (by simp))
      · rintro ⟨t, ht, htn⟩
        injection ht with h1 h2
        exact absurd h2.symm htn
    | cons q qs =>
      rw [joinNl_cons p (q :: qs) (by simp)]
      constructor
      · intro h
        cases p with
        | nil => exact ⟨q :: qs, rfl, by simp⟩
        | cons c cs =>
          have : c = '\n' := by
            have h2 : ((c :: cs) ++ '\n' :: joinNl (q :: qs)).head? = some c := rfl
            rw [h2] at h
            exact Option.some.inj h
          exact absurd this (hfree (c :: cs) (by simp) c (by simp))
      · rintro ⟨t, ht, _⟩
        injection ht with h1 h2
        rw [h1]
        rfl

theorem nlOK3_joinNl_congr : ∀ (M M' : List Chars),
    (∀ p ∈ M, ∀ c ∈ p, c ≠ '\n') → (∀ p ∈ M', ∀ c ∈ p, c ≠ '\n') →
    List.Forall₂ (fun p q => (p = [] ↔ q = [])) M M' →
    nlOK3 ('\n' :: joinNl M) = nlOK3 ('\n' :: joinNl M') ∧
    nlOK3 (joinNl M) = nlOK3 (joinNl M') := by
  intro M
  induction M with
  | nil =>
    intro M' _ _ hF
    cases hF
    exact ⟨rfl, rfl⟩
  | cons p ps ih =>
    intro M' hM hM' hF
    cases hF with
    | cons hpq hF0 =>
      rename_i q qs
      have hpfree : ∀ c ∈ p, c ≠ '\n' := hM p (by simp)
      have hqfree : ∀ c ∈ q, c ≠ '\n' := hM' q (by simp)
      have hpsfree : ∀ r ∈ ps, ∀ c ∈ r, c ≠ '\n' :=
        fun r hr => hM r (List.mem_cons_of_mem p hr)
      have hqsfree : ∀ r ∈ qs, ∀ c ∈ r, c ≠ '\n' :=
        fun r hr => hM' r (List.mem_cons_of_mem q hr)
      have ihr := ih qs hpsfree hqsfree hF0
      constructor
      · -- the '\n'-prefixed level
        cases hp : p with
        | cons d p' =>
          -- then q is also nonempty
          cases hq : q with
          | nil => exact absurd (hpq.mpr hq) (by rw [hp]; simp)
          | cons e q' =>
            have hd : d ≠ '\n' := hpfree d (by rw [hp]; simp)
            have he : e ≠ '\n' := hqfree e (by rw [hq]; simp)
            cases hps : ps with
            | nil =>
              have hqs : qs = [] := by
                cases hqs : qs with
                | nil => rfl
                | cons r rs => rw [hps, hqs] at hF0; cases hF0
              rw [hqs]
              show nlOK3 ('\n' :: d :: p') = nlOK3 ('\n' :: e :: q')
              rw [nlOK3_nl_cons_ne d p' hd, nlOK3_nl_cons_ne e q' he,
                nlOK3_nlfree (d :: p') (hp ▸ hpfree),
                nlOK3_nlfree (e :: q') (hq ▸ hqfree)]
            | cons r rs =>
              have hqs : qs ≠ [] := by
                cases hqs : qs with
                | nil => rw [hps, hqs] at hF0; cases hF0
                | cons u us => simp
              rw [← hps]
              rw [joinNl_cons (d :: p') ps (by rw [hps]; simp),
                joinNl_cons (e :: q') qs hqs]
              show nlOK3 ('\n' :: (d :: (p' ++ '\n' :: joinNl ps))) =
                nlOK3 ('\n' :: (e :: (q' ++ '\n' :: joinNl qs)))
              rw [nlOK3_nl_cons_ne d _ hd, nlOK3_nl_cons_ne e _ he]
              rw [show (d :: (p' ++ '\n' :: joinNl ps)) =
                (d :: p') ++ '\n' :: joinNl ps from rfl,
                show (e :: (q' ++ '\n' :: joinNl qs)) =
                  (e :: q') ++ '\n' :: joinNl qs from rfl,
                nlOK3_append_nlfree (d :: p') ('\n' :: joinNl ps) (hp ▸ hpfree),
                nlOK3_append_nlfree (e :: q') ('\n' :: joinNl qs) (hq ▸ hqfree)]
              exact ihr.1
        | nil =>
          have hq : q = [] := hpq.mp hp
          rw [hq]
          cases hps : ps with
          | nil =>
            have hqs : qs = [] := by
              cases hqs : qs with
              | nil => rfl
              | cons r rs => rw [hps, hqs] at hF0; cases hF0
            rw [hqs]
          | cons r rs =>
            have hqs : qs ≠ [] := by
              cases hqs : qs with
              | nil => rw [hps, hqs] at hF0; cases hF0
              | cons u us => simp
            rw [← hps]
            rw [joinNl_cons [] ps (by rw [hps]; simp), joinNl_cons [] qs hqs,
              List.nil_append, List.nil_append]
            rw [nlOK3_nl_nl (joinNl ps), nlOK3_nl_nl (joinNl qs)]
            have hheads : ((joinNl ps).head? == some '\n') =
                ((joinNl qs).head? == some '\n') := by
              rw [Bool.eq_iff_iff, beq_iff_eq, beq_iff_eq,
                joinNl_head_nl ps hpsfree, joinNl_head_nl qs hqsfree]
              constructor
              · rintro ⟨t, ht, htn⟩
                rw [ht] at hF0
                cases hF0 with
                | cons h1 h2 =>
                  rename_i b bs
                  refine ⟨bs, by rw [h1.mp rfl], ?_⟩
                  cases hbs : bs with
                  | nil => rw [hbs] at h2; cases h2; exact absurd rfl htn
                  | cons x xs => simp
              · rintro ⟨t, ht, htn⟩
                rw [ht] at hF0
                cases hF0 with
                | cons h1 h2 =>
                  rename_i b bs
                  refine ⟨bs, by rw [h1.mpr rfl], ?_⟩
                  cases hbs : bs with
                  | nil => rw [hbs] at h2; cases h2; exact absurd rfl htn
                  | cons x xs => simp
            rw [hheads, ihr.1]
      · -- the bare level
        cases hps : ps with
        | nil =>
          have hqs : qs = [] := by
            cases hqs : qs with
            | nil => rfl
            | cons r rs => rw [hps, hqs] at hF0; cases hF0
          rw [hqs]
          show nlOK3 (joinNl [p]) = nlOK3 (joinNl [q])
          rw [show joinNl [p] = p from rfl, show joinNl [q] = q from rfl,
            nlOK3_nlfree p hpfree, nlOK3_nlfree q hqfree]
        | cons r rs =>
          have hqs : qs ≠ [] := by
            cases hqs : qs with
            | nil => rw [hps, hqs] at hF0; cases hF0
            | cons u us => simp
          rw [← hps]
          rw [joinNl_cons p ps (by rw [hps]; simp), joinNl_cons q qs hqs,
            nlOK3_append_nlfree p ('\n' :: joinNl ps) hpfree,
            nlOK3_append_nlfree q ('\n' :: joinNl qs) hqfree]
          exact ihr.1

/-! ### capitalize_medications: scanner equations and line locality -/

theorem capGo_nil (f : Nat) : capGo f [] = [] := by cases f <;> rfl

theorem capGo_cons_none (fuel : Nat) (c : Char) (rest : Chars)
    (h : matchInterLine (c :: rest) = none) :
    capGo (fuel + 1) (c :: rest) = c :: capGo fuel rest := by
  show (match matchInterLine (c :: rest) with
    | some (repl, after) => repl ++ capGo fuel after
    | none => c :: capGo fuel rest) = _
  rw [h]

theorem capGo_cons_some (fuel : Nat) (c : Char) (rest ρ A : Chars)
    (h : matchInterLine (c :: rest) = some (ρ, A)) :
    capGo (fuel + 1) (c :: rest) = ρ ++ capGo fuel A := by
  show (match matchInterLine (c :: rest) with
    | some (repl, after) => repl ++ capGo fuel after
    | none => c :: capGo fuel rest) = _
  rw [h]

theorem takeAfter_nl_ctx (p : Chars) (hp : ∀ c ∈ p, c ≠ '\n') :
    ∀ (v q : Chars), takeAfter p (v ++ '\n' :: q) = (takeAfter p v).map (· ++ '\n' :: q) := by
  induction p with
  | nil => intro v q; rfl
  | cons c ps ih =>
    intro v q
    cases v with
    | nil =>
      show takeAfter (c :: ps) ('\n' :: q) = none
      have hc : '\n' ≠ c := fun h => hp c (by simp) h.symm
      show (if '\n' = c then takeAfter ps q else none) = none
      rw [if_neg hc]
    | cons d vs =>
      show (if d = c then takeAfter ps (vs ++ '\n' :: q) else none) =
        ((if d = c then takeAfter ps vs else none)).map (· ++ '\n' :: q)
      by_cases hd : d = c
      · rw [if_pos hd, if_pos hd, ih (fun x hx => hp x (by simp [hx])) vs q]
      · rw [if_neg hd, if_neg hd]
        rfl

theorem takeWhile_stop (p : Char → Bool) (K : Char) (hK : p K = false) :
    ∀ (v q : Chars), (v ++ K :: q).takeWhile p = v.takeWhile p ∧
      (v ++ K :: q).dropWhile p = v.dropWhile p ++ K :: q := by
  intro v
  induction v with
  | nil =>
    intro q
    constructor
    · rw [List.nil_append, List.takeWhile_cons, hK]
      rfl
    · rw [List.nil_append, List.dropWhile_cons, hK]
      rfl
  | cons c vs ih =>
    intro q
    rw [List.cons_append, List.takeWhile_cons, List.takeWhile_cons,
      List.dropWhile_cons, List.dropWhile_cons]
    cases hc : p c with
    | true =>
      simp only [if_true]
      exact ⟨by rw [(ih q).1], by rw [(ih q).2]⟩
    | false =>
      simp only [Bool.false_eq_true, if_false]
      exact ⟨trivial, rfl⟩

theorem matchInterLine_nl_ctx (v q : Chars) :
    matchInterLine (v ++ '\n' :: q) =
      (matchInterLine v).map (fun pr => (pr.1, pr.2 ++ '\n' :: q)) := by
  unfold matchInterLine
  rw [takeAfter_nl_ctx "**Interaction ".data (by decide) v q]
  cases h1 : takeAfter "**Interaction ".data v with
  | none => rfl
  | some r1 =>
    rw [Option.map_some', Option.some_bind, Option.some_bind]
    rw [(takeWhile_stop Char.isDigit '\n' (by decide) r1 q).1]
    by_cases hds : r1.takeWhile Char.isDigit = []
    · rw [if_pos hds, if_pos hds]
      rfl
    · rw [if_neg hds, if_neg hds]
      rw [(takeWhile_stop Char.isDigit '\n' (by decide) r1 q).2]
      rw [takeAfter_nl_ctx "**: ".data (by decide) (r1.dropWhile Char.isDigit) q]
      cases h3 : takeAfter "**: ".data (r1.dropWhile Char.isDigit) with
      | none => rfl
      | some r3 =>
        rw [Option.map_some', Option.some_bind, Option.some_bind]
        rw [(takeWhile_stop (fun c => c ≠ '\n') '\n' (by simp) r3 q).1]
        by_cases hb : r3.takeWhile (fun c => c ≠ '\n') = []
        · rw [if_pos hb, if_pos hb]
          rfl
        · rw [if_neg hb, if_neg hb]
          rw [Option.map_some']
          have hle : (r3.takeWhile (fun c => c ≠ '\n')).length ≤ r3.length := by
            exact (List.takeWhile_prefix (fun c => c ≠ '\n')).length_le
          rw [List.drop_append_of_le_length hle]

theorem drop_takeWhile_length (p : Char → Bool) (l : Chars) :
    l.drop (l.takeWhile p).length = l.dropWhile p := by
  have h := List.takeWhile_append_dropWhile p l
  calc l.drop (l.takeWhile p).length
      = (l.takeWhile p ++ l.dropWhile p).drop (l.takeWhile p).length := by rw [h]
    _ = l.dropWhile p := List.drop_left _ _

theorem mem_of_head? (c : Char) (A : Chars) (h : A.head? = some c) : c ∈ A := by
  cases A with
  | nil => simp at h
  | cons a t =>
    rw [List.head?_cons] at h
    exact (Option.some.inj h) ▸ List.mem_cons_self a t

theorem matchInterLine_nil : matchInterLine [] = none := rfl

theorem matchInterLine_none_head (c : Char) (t : Chars) (hc : c ≠ '*') :
    matchInterLine (c :: t) = none := by
  unfold matchInterLine
  rw [show takeAfter "**Interaction ".data (c :: t) =
    (if c = '*' then takeAfter "*Interaction ".data t else none) from rfl,
    if_neg hc]
  rfl

theorem matchInterLine_none_head2 (c : Char) (t : Chars) (hc : c ≠ '*') :
    matchInterLine ('*' :: c :: t) = none := by
  unfold matchInterLine
  rw [show takeAfter "**Interaction ".data ('*' :: c :: t) =
    (if c = '*' then takeAfter "Interaction ".data t else none) from rfl,
    if_neg hc]
  rfl

theorem matchInterLine_none_head3 (c : Char) (t : Chars) (hc : c ≠ 'I') :
    matchInterLine ('*' :: '*' :: c :: t) = none := by
  unfold matchInterLine
  rw [show takeAfter "**Interaction ".data ('*' :: '*' :: c :: t) =
    (if c = 'I' then takeAfter "nteraction ".data t else none) from rfl,
    if_neg hc]
  rfl

theorem matchInterLine_shape (l ρ A : Chars) (h : matchInterLine l = some (ρ, A)) :
    ∃ ds body, (∀ d ∈ ds, d.isDigit = true) ∧ ds ≠ [] ∧ body ≠ [] ∧
      (∀ c ∈ body, c ≠ '\n') ∧
      l = "**Interaction ".data ++ ds ++ "**: ".data ++ body ++ A ∧
      ρ = "**Interaction ".data ++ ds ++ "**: ".data ++ capDrugs body ∧
      (A = [] ∨ A.head? = some '\n') := by
  unfold matchInterLine at h
  cases h1 : takeAfter "**Interaction ".data l with
  | none => rw [h1] at h; exact Option.noConfusion h
  | some r1 =>
    rw [h1, Option.some_bind] at h
    by_cases hds : r1.takeWhile Char.isDigit = []
    · rw [if_pos hds] at h
      exact Option.noConfusion h
    · rw [if_neg hds] at h
      cases h3 : takeAfter "**: ".data (r1.dropWhile Char.isDigit) with
      | none => rw [h3] at h; exact Option.noConfusion h
      | some r3 =>
        rw [h3, Option.some_bind] at h
        by_cases hb : r3.takeWhile (fun c => c ≠ '\n') = []
        · rw [if_pos hb] at h
          exact Option.noConfusion h
        · rw [if_neg hb] at h
          have h2 : ("**Interaction ".data ++ r1.takeWhile Char.isDigit ++ "**: ".data
              ++ capDrugs (r3.takeWhile (fun c => c ≠ '\n')),
              r3.drop (r3.takeWhile (fun c => c ≠ '\n')).length) = (ρ, A) :=
            Option.some.inj h
          injection h2 with hρ hA
          refine ⟨r1.takeWhile Char.isDigit, r3.takeWhile (fun c => c ≠ '\n'),
            ?_, hds, hb, ?_, ?_, hρ.symm, ?_⟩
          · intro d hd
            exact List.mem_takeWhile_imp hd
          · intro c hc
            have := List.mem_takeWhile_imp hc
            simpa using this
          · have hl1 : l = "**Interaction ".data ++ r1 := (takeAfter_some_iff _ _ _).mp h1
            have hr2 : r1.dropWhile Char.isDigit = "**: ".data ++ r3 :=
              (takeAfter_some_iff _ _ _).mp h3
            have hr3 : r3 = r3.takeWhile (fun c => c ≠ '\n') ++ A := by
              rw [← hA, drop_takeWhile_length]
              exact (List.takeWhile_append_dropWhile _ r3).symm
            have hmain : "**Interaction ".data ++ r1.takeWhile Char.isDigit ++
                "**: ".data ++ r3.takeWhile (fun c => c ≠ '\n') ++ A =
                "**Interaction ".data ++ r1 := by
              simp only [List.append_assoc]
              congr 1
              rw [← hr3, ← hr2]
              exact List.takeWhile_append_dropWhile Char.isDigit r1
            exact hl1.trans hmain.symm
          · rw [← hA, drop_takeWhile_length]
            cases hd : r3.dropWhile (fun c => c ≠ '\n') with
            | nil => exact Or.inl rfl
            | cons x xs =>
              right
              have hx := dropWhile_head_false (fun c => c ≠ '\n') r3 x xs hd
              have : x = '\n' := by simpa using hx
              rw [List.head?_cons, this]

theorem matchInterLine_consume (l ρ A : Chars) (h : matchInterLine l = some (ρ, A)) :
    ∃ pre, l = pre ++ A ∧ 14 ≤ pre.length ∧ (∀ c ∈ A, c ∈ l) := by
  obtain ⟨ds, body, _, _, _, _, hl, _, _⟩ := matchInterLine_shape l ρ A h
  refine ⟨"**Interaction ".data ++ ds ++ "**: ".data ++ body, hl, ?_, ?_⟩
  · simp only [List.length_append, List.length_cons, List.length_nil]
    omega
  · intro c hc
    rw [hl]
    exact List.mem_append_right _ hc

theorem capGo_fuel2 : ∀ (f1 f2 : Nat) (l : Chars), l.length ≤ f1 → l.length ≤ f2 →
    capGo f1 l = capGo f2 l := by
  intro f1
  induction f1 with
  | zero =>
    intro f2 l h1 _
    have hl : l = [] := List.eq_nil_of_length_eq_zero (by omega)
    rw [hl, capGo_nil, capGo_nil]
  | succ f ih =>
    intro f2 l h1 h2
    cases l with
    | nil => rw [capGo_nil, capGo_nil]
    | cons c t =>
      cases f2 with
      | zero => simp at h2
      | succ g =>
        cases hm : matchInterLine (c :: t) with
        | none =>
          rw [capGo_cons_none f c t hm, capGo_cons_none g c t hm,
            ih g t (by rw [List.length_cons] at h1; omega)
              (by rw [List.length_cons] at h2; omega)]
        | some p =>
          obtain ⟨ρ, A⟩ := p
          obtain ⟨pre, hpre, hprelen, _⟩ := matchInterLine_consume (c :: t) ρ A hm
          have hAlen : A.length + 14 ≤ t.length + 1 := by
            have := congrArg List.length hpre
            rw [List.length_cons, List.length_append] at this
            omega
          rw [capGo_cons_some f c t ρ A hm, capGo_cons_some g c t ρ A hm,
            ih g A (by rw [List.length_cons] at h1; omega)
              (by rw [List.length_cons] at h2; omega)]

theorem capGo_join : ∀ (fuel : Nat) (s q : Chars), (∀ c ∈ s, c ≠ '\n') →
    s.length + (1 + q.length) ≤ fuel →
    capGo fuel (s ++ '\n' :: q) = capGo s.length s ++ '\n' :: capGo q.length q := by
  intro fuel
  induction fuel with
  | zero => intro s q _ hle; omega
  | succ f ih =>
    intro s q hs hle
    cases s with
    | nil =>
      rw [List.nil_append]
      have hnl : matchInterLine ('\n' :: q) = none :=
        matchInterLine_none_head '\n' q (by decide)
      rw [capGo_cons_none f '\n' q hnl]
      show _ = [] ++ '\n' :: capGo q.length q
      rw [List.nil_append]
      congr 1
      exact capGo_fuel2 f q.length q (by simp at hle; omega) le_rfl
    | cons c s2 =>
      have hs2 : ∀ x ∈ s2, x ≠ '\n' := fun x hx => hs x (List.mem_cons_of_mem c hx)
      have hctx := matchInterLine_nl_ctx (c :: s2) q
      cases hm : matchInterLine (c :: s2) with
      | none =>
        rw [hm] at hctx
        have hm2 : matchInterLine (c :: (s2 ++ '\n' :: q)) = none := by
          rw [show (c :: (s2 ++ '\n' :: q)) = (c :: s2) ++ '\n' :: q from rfl, hctx]
          rfl
        rw [show (c :: s2) ++ '\n' :: q = c :: (s2 ++ '\n' :: q) from rfl,
          capGo_cons_none f _ _ hm2,
          ih s2 q hs2 (by rw [List.length_cons] at hle; omega)]
        rw [show (c :: s2).length = s2.length + 1 from rfl,
          capGo_cons_none s2.length c s2 hm]
        rfl
      | some p =>
        obtain ⟨ρ, A⟩ := p
        rw [hm] at hctx
        have hm2 : matchInterLine (c :: (s2 ++ '\n' :: q)) = some (ρ, A ++ '\n' :: q) := by
          rw [show (c :: (s2 ++ '\n' :: q)) = (c :: s2) ++ '\n' :: q from rfl, hctx]
          rfl
        obtain ⟨pre, hpre, hprelen, hmem⟩ := matchInterLine_consume (c :: s2) ρ A hm
        have hAnl : ∀ x ∈ A, x ≠ '\n' := fun x hx => hs x (hmem x hx)
        have hAlen : A.length + 14 ≤ s2.length + 1 := by
          have := congrArg List.length hpre
          rw [List.length_cons, List.length_append] at this
          omega
        rw [show (c :: s2) ++ '\n' :: q = c :: (s2 ++ '\n' :: q) from rfl,
          capGo_cons_some f _ _ ρ (A ++ '\n' :: q) hm2,
          ih A q hAnl (by rw [List.length_cons] at hle; omega)]
        rw [show (c :: s2).length = s2.length + 1 from rfl,
          capGo_cons_some s2.length c s2 ρ A hm,
          capGo_fuel2 s2.length A.length A (by omega) le_rfl, List.append_assoc]

theorem cap_join (s q : Chars) (hs : ∀ c ∈ s, c ≠ '\n') :
    capitalize_medications (s ++ '\n' :: q) =
      capitalize_medications s ++ '\n' :: capitalize_medications q := by
  unfold capitalize_medications
  rw [capGo_join (s ++ '\n' :: q).length s q hs
    (by rw [List.length_append, List.length_cons]; omega)]

theorem cap_joinNl : ∀ M : List Chars, (∀ p ∈ M, ∀ c ∈ p, c ≠ '\n') →
    capitalize_medications (joinNl M) = joinNl (M.map capitalize_medications) := by
  intro M
  induction M with
  | nil => intro _; rfl
  | cons p ps ih =>
    intro hfree
    cases ps with
    | nil => rfl
    | cons q qs =>
      rw [joinNl_cons p (q :: qs) (by simp),
        cap_join p (joinNl (q :: qs)) (hfree p (by simp)),
        ih (fun r hr => hfree r (List.mem_cons_of_mem p hr))]
      simp only [List.map_cons]
      rw [joinNl_cons (capitalize_medications p)
          (capitalize_medications q :: qs.map capitalize_medications) (by simp)]

theorem capGo_fix_of_none : ∀ (l : Chars) (fuel : Nat),
    (∀ i, matchInterLine (l.drop i) = none) → capGo fuel l = l := by
  intro l
  induction l with
  | nil => intro fuel _; exact capGo_nil fuel
  | cons c t ih =>
    intro fuel h
    cases fuel with
    | zero => rfl
    | succ f =>
      rw [capGo_cons_none f c t (h 0), ih f (fun i => h (i + 1))]

theorem capGo_decomp : ∀ (fuel : Nat) (a m : Chars), a.length + m.length ≤ fuel →
    (∀ i, i < a.length → matchInterLine (a.drop i ++ m) = none) →
    capGo fuel (a ++ m) = a ++ capGo m.length m := by
  intro fuel
  induction fuel with
  | zero =>
    intro a m hle _
    have ha : a = [] := List.eq_nil_of_length_eq_zero (by omega)
    have hm : m = [] := List.eq_nil_of_length_eq_zero (by omega)
    rw [ha, hm]
    rfl
  | succ f ih =>
    intro a m hle hnone
    cases a with
    | nil =>
      rw [List.nil_append, List.nil_append]
      exact capGo_fuel2 (f + 1) m.length m (by simpa using hle) le_rfl
    | cons c a2 =>
      have h0 : matchInterLine (c :: (a2 ++ m)) = none := hnone 0 (by simp)
      rw [show (c :: a2) ++ m = c :: (a2 ++ m) from rfl, capGo_cons_none f _ _ h0,
        ih a2 m (by rw [List.length_cons] at hle; omega)
          (fun i hi => hnone (i + 1) (by rw [List.length_cons]; omega))]
      rfl

theorem capGo_cases : ∀ (l : Chars),
    (∀ i, matchInterLine (l.drop i) = none) ∨
    ∃ a m ρ A, l = a ++ m ∧
      (∀ i, i < a.length → matchInterLine (a.drop i ++ m) = none) ∧
      matchInterLine m = some (ρ, A) := by
  intro l
  induction l with
  | nil =>
    left
    intro i
    rw [List.drop_nil]
    exact matchInterLine_nil
  | cons c t ih =>
    cases hm : matchInterLine (c :: t) with
    | some p =>
      right
      exact ⟨[], c :: t, p.1, p.2, rfl, fun i hi => absurd hi (by simp), by rw [hm]⟩
    | none =>
      rcases ih with h | ⟨a, m, ρ, A, hl, hnone, hsome⟩
      · left
        intro i
        cases i with
        | zero => exact hm
        | succ j => exact h j
      · right
        refine ⟨c :: a, m, ρ, A, by rw [hl]; rfl, ?_, hsome⟩
        intro i hi
        cases i with
        | zero =>
          show matchInterLine (c :: (a ++ m)) = none
          rw [← hl]
          exact hm
        | succ j =>
          exact hnone j (by rw [List.length_cons] at hi; omega)

theorem getLast?_mem_list (l : Chars) (a : Char) (h : l.getLast? = some a) : a ∈ l :=
  List.mem_of_mem_getLast? (by rw [Option.mem_def]; exact h)

theorem takeWhile_all (p : Char → Bool) : ∀ l : Chars, (∀ c ∈ l, p c = true) →
    l.takeWhile p = l := by
  intro l
  induction l with
  | nil => intro _; rfl
  | cons c t ih =>
    intro h
    rw [List.takeWhile_cons_of_pos (h c (by simp)),
      ih (fun x hx => h x (List.mem_cons_of_mem c hx))]

theorem takeWhile_all_append (p : Char → Bool) : ∀ (a b : Chars), (∀ c ∈ a, p c = true) →
    (a ++ b).takeWhile p = a ++ b.takeWhile p := by
  intro a
  induction a with
  | nil => intro b _; rfl
  | cons c t ih =>
    intro b h
    rw [List.cons_append, List.takeWhile_cons_of_pos (h c (by simp)),
      ih b (fun x hx => h x (List.mem_cons_of_mem c hx))]
    rfl

theorem dropWhile_ne_nil_mem (p : Char → Bool) (y : Chars) (c : Char) (hc : c ∈ y)
    (hcp : p c = false) : y.dropWhile p ≠ [] := by
  intro h
  have h2 := List.takeWhile_append_dropWhile p y
  rw [h, List.append_nil] at h2
  rw [← h2] at hc
  exact absurd (List.mem_takeWhile_imp hc) (by simp [hcp])

theorem dropWhile_getLast (p : Char → Bool) (y : Chars) (h : y.dropWhile p ≠ []) :
    (y.dropWhile p).getLast? = y.getLast? := by
  conv_rhs => rw [← List.takeWhile_append_dropWhile p y]
  rw [List.getLast?_append_of_ne_nil _ h]

theorem takeWhile_stop_mem (p : Char → Bool) : ∀ (y z : Chars), (∃ c ∈ y, p c = false) →
    (y ++ z).takeWhile p = y.takeWhile p ∧ (y ++ z).dropWhile p = y.dropWhile p ++ z := by
  intro y
  induction y with
  | nil =>
    rintro z ⟨c, hc, _⟩
    simp at hc
  | cons d ys ih =>
    rintro z ⟨c, hc, hcp⟩
    rw [List.cons_append, List.takeWhile_cons, List.takeWhile_cons,
      List.dropWhile_cons, List.dropWhile_cons]
    cases hd : p d with
    | false =>
      simp only [Bool.false_eq_true, if_false]
      exact ⟨trivial, rfl⟩
    | true =>
      simp only [if_true]
      have hcy : c ∈ ys := by
        rcases List.mem_cons.mp hc with h | h
        · rw [h] at hcp
          rw [hcp] at hd
          exact absurd hd (by simp)
        · exact h
      obtain ⟨h1, h2⟩ := ih z ⟨c, hcy, hcp⟩
      exact ⟨by rw [h1], by rw [h2]⟩

theorem takeAfter_none_mismatch : ∀ (j : Nat) (p y z : Chars) (a b : Char),
    p[j]? = some a → y[j]? = some b → b ≠ a → takeAfter p (y ++ z) = none := by
  intro j
  induction j with
  | zero =>
    intro p y z a b hp hy hab
    cases p with
    | nil => simp at hp
    | cons c ps =>
      cases y with
      | nil => simp at hy
      | cons d ys =>
        have hc : c = a := by simpa using hp
        have hd : d = b := by simpa using hy
        show (if d = c then takeAfter ps (ys ++ z) else none) = none
        rw [if_neg (by rw [hc, hd]; exact hab)]
  | succ i ih =>
    intro p y z a b hp hy hab
    cases p with
    | nil => simp at hp
    | cons c ps =>
      cases y with
      | nil => simp at hy
      | cons d ys =>
        show (if d = c then takeAfter ps (ys ++ z) else none) = none
        by_cases hdc : d = c
        · rw [if_pos hdc]
          exact ih ps ys z a b (by simpa using hp) (by simpa using hy) hab
        · rw [if_neg hdc]

theorem digit_ne_star (c : Char) (h : c.isDigit = true) : c ≠ '*' := by
  intro he
  have h2 := isDigit_toNat c h
  rw [he] at h2
  have h42 : ('*' : Char).toNat = 42 := by decide
  omega

theorem mil_some_at_hdr (ds U : Chars) (hds : ∀ d ∈ ds, d.isDigit = true) (hne : ds ≠ [])
    (hU : U ≠ []) (hUnl : ∀ c ∈ U, c ≠ '\n') :
    matchInterLine ("**Interaction ".data ++ (ds ++ ("**: ".data ++ U))) =
      some ("**Interaction ".data ++ ds ++ "**: ".data ++ capDrugs U, []) := by
  unfold matchInterLine
  rw [takeAfter_self_append, Option.some_bind]
  have ht : (ds ++ ("**: ".data ++ U)).takeWhile Char.isDigit = ds := by
    rw [show ("**: ".data ++ U) = '*' :: ("*: ".data ++ U) from rfl]
    exact takeWhile_sat_append Char.isDigit ds '*' _ hds (by decide)
  have hd : (ds ++ ("**: ".data ++ U)).dropWhile Char.isDigit = "**: ".data ++ U :=
    dropWhile_sat_append Char.isDigit ds _ hds
  rw [ht, hd, if_neg hne, takeAfter_self_append, Option.some_bind]
  have hbU : U.takeWhile (fun c => c ≠ '\n') = U :=
    takeWhile_all _ U (fun c hc => by simpa using hUnl c hc)
  rw [hbU, if_neg hU, List.drop_length]

theorem mil_none_hdr_pos (ds : Chars) (hds : ∀ d ∈ ds, d.isDigit = true) :
    ∀ i, 1 ≤ i →
    matchInterLine (("**Interaction ".data ++ ds ++ "**: ".data).drop i) = none := by
  intro i h1
  have hlit : ("**Interaction ".data).length = 14 := by decide
  have hsep : ("**: ".data).length = 4 := by decide
  have hLlen : ("**Interaction ".data ++ ds ++ "**: ".data).length =
      14 + ds.length + 4 := by
    rw [List.length_append, List.length_append, hlit, hsep]
  by_cases hbig : ("**Interaction ".data ++ ds ++ "**: ".data).length ≤ i
  · rw [List.drop_eq_nil_of_le hbig]
    exact matchInterLine_nil
  · push_neg at hbig
    by_cases h13 : i ≤ 13
    · have hdrop : ("**Interaction ".data ++ ds ++ "**: ".data).drop i =
          ("**Interaction ".data).drop i ++ (ds ++ "**: ".data) := by
        rw [List.append_assoc]
        exact List.drop_append_of_le_length (by rw [hlit]; omega)
      rw [hdrop]
      interval_cases i
      · exact matchInterLine_none_head2 'I' _ (by decide)
      · exact matchInterLine_none_head 'I' _ (by decide)
      · exact matchInterLine_none_head 'n' _ (by decide)
      · exact matchInterLine_none_head 't' _ (by decide)
      · exact matchInterLine_none_head 'e' _ (by decide)
      · exact matchInterLine_none_head 'r' _ (by decide)
      · exact matchInterLine_none_head 'a' _ (by decide)
      · exact matchInterLine_none_head 'c' _ (by decide)
      · exact matchInterLine_none_head 't' _ (by decide)
      · exact matchInterLine_none_head 'i' _ (by decide)
      · exact matchInterLine_none_head 'o' _ (by decide)
      · exact matchInterLine_none_head 'n' _ (by decide)
      · exact matchInterLine_none_head ' ' _ (by decide)
    · by_cases hdig : i < 14 + ds.length
      · have hdrop : ("**Interaction ".data ++ ds ++ "**: ".data).drop i =
            ds.drop (i - 14) ++ "**: ".data := by
          rw [List.append_assoc,
            drop_append_ge "**Interaction ".data (ds ++ "**: ".data) i (by omega),
            hlit, List.drop_append_of_le_length (by omega)]
        rw [hdrop]
        cases he : ds.drop (i - 14) with
        | nil =>
          exfalso
          have := congrArg List.length he
          rw [List.length_drop] at this
          simp at this
          omega
        | cons d rest =>
          have hdmem : d ∈ ds := List.drop_subset (i - 14) ds (he ▸ List.mem_cons_self d rest)
          exact matchInterLine_none_head d _ (digit_ne_star d (hds d hdmem))
      · have hdrop : ("**Interaction ".data ++ ds ++ "**: ".data).drop i =
            ("**: ".data).drop (i - (14 + ds.length)) := by
          rw [drop_append_ge ("**Interaction ".data ++ ds) "**: ".data i
            (by rw [List.length_append, hlit]; omega)]
          congr 1
          rw [List.length_append, hlit]
        rw [hdrop]
        have ho : i - (14 + ds.length) = 0 ∨ i - (14 + ds.length) = 1 ∨
            i - (14 + ds.length) = 2 ∨ i - (14 + ds.length) = 3 := by omega
        rcases ho with ho | ho | ho | ho <;> rw [ho]
        · exact matchInterLine_none_head3 ':' _ (by decide)
        · exact matchInterLine_none_head2 ':' _ (by decide)
        · exact matchInterLine_none_head ':' _ (by decide)
        · exact matchInterLine_none_head ' ' _ (by decide)

theorem mil_none_transport (x body Z : Chars)
    (hxlen : 18 ≤ x.length)
    (hxlast : x.getLast? = some ' ')
    (hxnl : ∀ c ∈ x, c ≠ '\n')
    (hbody : body ≠ []) (hbodynl : ∀ c ∈ body, c ≠ '\n')
    (hb : matchInterLine (x ++ body) = none) :
    matchInterLine (x ++ Z) = none := by
  unfold matchInterLine at hb ⊢
  have hlit : ("**Interaction ".data).length = 14 := by decide
  rw [takeAfter_append_split "**Interaction ".data x body (by rw [hlit]; omega)] at hb
  rw [takeAfter_append_split "**Interaction ".data x Z (by rw [hlit]; omega)]
  cases h1 : takeAfter "**Interaction ".data x with
  | none => rfl
  | some r1 =>
    rw [h1, Option.map_some', Option.some_bind] at hb
    rw [Option.map_some', Option.some_bind]
    have hxr : x = "**Interaction ".data ++ r1 := (takeAfter_some_iff _ _ _).mp h1
    have hr1len : 4 ≤ r1.length := by
      have := congrArg List.length hxr
      rw [List.length_append, hlit] at this
      omega
    have hr1ne : r1 ≠ [] := by
      intro h
      rw [h] at hr1len
      simp at hr1len
    have hr1last : r1.getLast? = some ' ' := by
      rw [hxr, List.getLast?_append_of_ne_nil _ hr1ne] at hxlast
      exact hxlast
    have hsp : ' ' ∈ r1 := getLast?_mem_list r1 ' ' hr1last
    have hspd : Char.isDigit ' ' = false := by decide
    obtain ⟨ht1, hd1⟩ := takeWhile_stop_mem Char.isDigit r1 body ⟨' ', hsp, hspd⟩
    obtain ⟨ht2, hd2⟩ := takeWhile_stop_mem Char.isDigit r1 Z ⟨' ', hsp, hspd⟩
    rw [ht1, hd1] at hb
    rw [ht2, hd2]
    by_cases hds : r1.takeWhile Char.isDigit = []
    · rw [if_pos hds]
    · rw [if_neg hds] at hb
      rw [if_neg hds]
      have hr2ne : r1.dropWhile Char.isDigit ≠ [] :=
        dropWhile_ne_nil_mem Char.isDigit r1 ' ' hsp hspd
      have hr2last : (r1.dropWhile Char.isDigit).getLast? = some ' ' := by
        rw [dropWhile_getLast Char.isDigit r1 hr2ne]
        exact hr1last
      by_cases h4 : 4 ≤ (r1.dropWhile Char.isDigit).length
      · rw [takeAfter_append_split "**: ".data (r1.dropWhile Char.isDigit) body
          (by rw [show ("**: ".data).length = 4 from by decide]; omega)] at hb
        rw [takeAfter_append_split "**: ".data (r1.dropWhile Char.isDigit) Z
          (by rw [show ("**: ".data).length = 4 from by decide]; omega)]
        cases h3 : takeAfter "**: ".data (r1.dropWhile Char.isDigit) with
        | none => rfl
        | some r3 =>
          exfalso
          rw [h3, Option.map_some', Option.some_bind] at hb
          have hr3x : r1.dropWhile Char.isDigit = "**: ".data ++ r3 :=
            (takeAfter_some_iff _ _ _).mp h3
          have hr3nl : ∀ c ∈ r3, c ≠ '\n' := by
            intro c hc
            apply hxnl c
            rw [hxr]
            apply List.mem_append_right
            apply (List.dropWhile_suffix Char.isDigit).subset
            rw [hr3x]
            exact List.mem_append_right _ hc
          have hball : (r3 ++ body).takeWhile (fun c => c ≠ '\n') =
              r3 ++ body.takeWhile (fun c => c ≠ '\n') :=
            takeWhile_all_append _ r3 body (fun c hc => by simpa using hr3nl c hc)
          have hbodyall : body.takeWhile (fun c => c ≠ '\n') = body :=
            takeWhile_all _ body (fun c hc => by simpa using hbodynl c hc)
          rw [hball, hbodyall, if_neg (by
            intro h
            exact hbody (List.append_eq_nil.mp h).2)] at hb
          exact Option.noConfusion hb
      · push_neg at h4
        have hr2len1 : 1 ≤ (r1.dropWhile Char.isDigit).length := by
          cases hr2 : r1.dropWhile Char.isDigit with
          | nil => exact absurd hr2 hr2ne
          | cons c t => rw [List.length_cons]; omega
        have hget : (r1.dropWhile Char.isDigit)[(r1.dropWhile Char.isDigit).length - 1]? =
            some ' ' := by
          rw [← List.getLast?_eq_getElem?]
          exact hr2last
        have hpat : ∃ pc, ("**: ".data)[(r1.dropWhile Char.isDigit).length - 1]? =
            some pc ∧ pc ≠ ' ' := by
          have ho : (r1.dropWhile Char.isDigit).length - 1 = 0 ∨
              (r1.dropWhile Char.isDigit).length - 1 = 1 ∨
              (r1.dropWhile Char.isDigit).length - 1 = 2 := by omega
          rcases ho with ho | ho | ho <;> rw [ho]
          · exact ⟨'*', by decide, by decide⟩
          · exact ⟨'*', by decide, by decide⟩
          · exact ⟨':', by decide, by decide⟩
        obtain ⟨pc, hpc, hpcne⟩ := hpat
        rw [takeAfter_none_mismatch ((r1.dropWhile Char.isDigit).length - 1)
          "**: ".data (r1.dropWhile Char.isDigit) Z pc ' ' hpc hget (Ne.symm hpcne)]
        rfl

/-! ### splitPlus: structure of the '+'-split and its interplay with the
space-collapser (used for the capitalize_medications replacement algebra) -/

theorem splitPlus_plus (rest : Chars) : splitPlus ('+' :: rest) = [] :: splitPlus rest := rfl

theorem splitPlus_cons_ne (c : Char) (l : Chars) (h : c ≠ '+') :
    splitPlus (c :: l) = consHead c (splitPlus l) := by
  rw [splitPlus.eq_def]
  split
  · rename_i rest heq
    injection heq with h1 h2
    exact absurd h1 h
  · rename_i c' rest heq
    injection heq with h1 h2
    rw [← h1, ← h2]
  · rename_i heq
    exact absurd heq (by simp)

theorem splitPlus_ne_nil : ∀ l : Chars, splitPlus l ≠ [] := by
  intro l
  induction l with
  | nil => simp [splitPlus]
  | cons c t ih =>
    by_cases hc : c = '+'
    · subst hc
      rw [splitPlus_plus]
      simp
    · rw [splitPlus_cons_ne c t hc]
      cases h : splitPlus t with
      | nil => exact absurd h ih
      | cons p ps => simp [consHead]

theorem splitPlus_append_plusfree (a l : Chars) (ha : ∀ c ∈ a, c ≠ '+') :
    ∃ h0 t0, splitPlus l = h0 :: t0 ∧ splitPlus (a ++ l) = (a ++ h0) :: t0 := by
  induction a with
  | nil =>
    cases hsp : splitPlus l with
    | nil => exact absurd hsp (splitPlus_ne_nil l)
    | cons h0 t0 => exact ⟨h0, t0, rfl, by simpa using hsp⟩
  | cons c a ih =>
    obtain ⟨h0, t0, heq, heq2⟩ := ih fun x hx => ha x (by simp [hx])
    refine ⟨h0, t0, heq, ?_⟩
    rw [List.cons_append, splitPlus_cons_ne c _ (ha c (by simp)), heq2]
    rfl

theorem splitPlus_plusfree (a : Chars) (ha : ∀ c ∈ a, c ≠ '+') : splitPlus a = [a] := by
  obtain ⟨h0, t0, heq, heq2⟩ := splitPlus_append_plusfree a [] ha
  have hinj : ([[]] : List Chars) = h0 :: t0 := heq
  injection hinj with e1 e2
  rw [← e1, ← e2] at heq2
  simpa using heq2

theorem splitPlus_head_pre : ∀ l : Chars, ∃ p ps, splitPlus l = p :: ps ∧ p <+: l := by
  intro l
  induction l with
  | nil => exact ⟨[], [], rfl, List.nil_prefix⟩
  | cons c t ih =>
    by_cases hc : c = '+'
    · subst hc
      rw [splitPlus_plus]
      exact ⟨[], splitPlus t, rfl, List.nil_prefix⟩
    · obtain ⟨p, ps, heq, hpre⟩ := ih
      rw [splitPlus_cons_ne c t hc, heq]
      exact ⟨c :: p, ps, rfl, by
        obtain ⟨r, hr⟩ := hpre
        exact ⟨r, by rw [List.cons_append, hr]⟩⟩

theorem splitPlus_pieces_plusfree : ∀ (l : Chars), ∀ p ∈ splitPlus l, ∀ c ∈ p, c ≠ '+' := by
  intro l
  induction l with
  | nil =>
    intro p hp
    simp [splitPlus] at hp
    subst hp
    intro c hc
    simp at hc
  | cons a t ih =>
    intro p hp
    by_cases ha : a = '+'
    · subst ha
      rw [splitPlus_plus] at hp
      rcases List.mem_cons.mp hp with h | h
      · subst h; intro c hc; simp at hc
      · exact ih p h
    · rw [splitPlus_cons_ne a t ha] at hp
      cases hs : splitPlus t with
      | nil => exact absurd hs (splitPlus_ne_nil t)
      | cons p0 ps =>
        rw [hs] at hp
        rcases List.mem_cons.mp hp with h | h
        · subst h
          intro c hc
          rcases List.mem_cons.mp hc with h1 | h1
          · rw [h1]; exact ha
          · exact ih p0 (hs ▸ List.mem_cons_self p0 ps) c h1
        · exact ih p (hs ▸ List.mem_cons_of_mem p0 h)

theorem sp2OK_infix (l y : Chars) (h : sp2OK l = true) (hy : y <:+: l) : sp2OK y = true := by
  obtain ⟨s, t, hst⟩ := hy
  rw [← hst] at h
  exact sp2OK_append_left y t (sp2OK_append_right s (y ++ t) (by rw [List.append_assoc] at h; exact h))

theorem sp2OK_splitPlus (l : Chars) (h : sp2OK l = true) :
    ∀ p ∈ splitPlus l, sp2OK p = true := by
  induction l with
  | nil =>
    intro p hp
    simp [splitPlus] at hp
    subst hp
    rfl
  | cons a t ih =>
    intro p hp
    have htOK : sp2OK t = true := sp2OK_cons_elim a t h
    by_cases ha : a = '+'
    · subst ha
      rw [splitPlus_plus] at hp
      rcases List.mem_cons.mp hp with h1 | h1
      · subst h1; rfl
      · exact ih htOK p h1
    · rw [splitPlus_cons_ne a t ha] at hp
      obtain ⟨p0, ps, heq, hpre⟩ := splitPlus_head_pre t
      rw [heq] at hp
      rcases List.mem_cons.mp hp with h1 | h1
      · subst h1
        obtain ⟨r, hr⟩ := hpre
        apply sp2OK_append_left (a :: p0) r
        rw [show ((a :: p0) ++ r) = a :: (p0 ++ r) from rfl, hr]
        exact h
      · exact ih htOK p (heq ▸ List.mem_cons_of_mem p0 h1)


theorem splitPlus_csp : ∀ l : Chars,
    splitPlus (collapse_spaces l) = (splitPlus l).map collapse_spaces := by
  intro l
  induction l with
  | nil => rfl
  | cons c t ih =>
    cases t with
    | nil =>
      by_cases hc : c = '+'
      · subst hc
        rfl
      · rw [show collapse_spaces [c] = [c] from rfl, splitPlus_cons_ne c [] hc]
        rfl
    | cons d r =>
      by_cases hc : c = '+'
      · subst hc
        rw [csp_cons2, if_neg (by rintro ⟨h1, _⟩; exact absurd h1 (by decide)),
          splitPlus_plus, splitPlus_plus, List.map_cons,
          show collapse_spaces ([] : Chars) = [] from rfl, ih]
      · by_cases hsp : c = ' ' ∧ d = ' '
        · have hd : d ≠ '+' := by rw [hsp.2]; decide
          rw [csp_cons2, if_pos hsp, ih, splitPlus_cons_ne c (d :: r) hc,
            splitPlus_cons_ne d r hd]
          cases hpr : splitPlus r with
          | nil => exact absurd hpr (splitPlus_ne_nil r)
          | cons p1 ps1 =>
            rw [show consHead d (p1 :: ps1) = (d :: p1) :: ps1 from rfl,
              show consHead c ((d :: p1) :: ps1) = (c :: d :: p1) :: ps1 from rfl,
              List.map_cons, List.map_cons, csp_cons2, if_pos hsp]
        · rw [csp_cons2, if_neg hsp, splitPlus_cons_ne c _ hc, ih,
            splitPlus_cons_ne c (d :: r) hc]
          by_cases hd : d = '+'
          · subst hd
            rw [splitPlus_plus]
            cases hpr : splitPlus r with
            | nil => exact absurd hpr (splitPlus_ne_nil r)
            | cons p1 ps1 =>
              rw [List.map_cons,
                show collapse_spaces ([] : Chars) = [] from rfl,
                show consHead c (([] : Chars) :: p1 :: ps1) = [c] :: p1 :: ps1 from rfl,
                show consHead c (([] : Chars) :: (p1 :: ps1).map collapse_spaces) =
                  [c] :: (p1 :: ps1).map collapse_spaces from rfl,
                List.map_cons, List.map_cons,
                show collapse_spaces [c] = [c] from rfl]
              rfl
          · rw [splitPlus_cons_ne d r hd]
            cases hpr : splitPlus r with
            | nil => exact absurd hpr (splitPlus_ne_nil r)
            | cons p1 ps1 =>
              rw [show consHead d (p1 :: ps1) = (d :: p1) :: ps1 from rfl,
                show consHead c ((d :: p1) :: ps1) = (c :: d :: p1) :: ps1 from rfl,
                List.map_cons, List.map_cons,
                show consHead c ((collapse_spaces (d :: p1)) :: ps1.map collapse_spaces)
                  = (c :: collapse_spaces (d :: p1)) :: ps1.map collapse_spaces from rfl,
                csp_cons2, if_neg hsp]

theorem splitPlus_dropSpW : ∀ l : Chars, ∃ p ps, splitPlus l = p :: ps ∧
    splitPlus (l.dropWhile (· == ' ')) = p.dropWhile (· == ' ') :: ps := by
  intro l
  induction l with
  | nil => exact ⟨[], [], rfl, rfl⟩
  | cons c t ih =>
    by_cases hc : c = ' '
    · subst hc
      obtain ⟨p, ps, h1, h2⟩ := ih
      refine ⟨' ' :: p, ps, ?_, ?_⟩
      · rw [splitPlus_cons_ne ' ' t (by decide), h1]
        rfl
      · rw [List.dropWhile_cons, if_pos (by decide), h2]
        rw [show (' ' :: p).dropWhile (· == ' ') = p.dropWhile (· == ' ') from by
          rw [List.dropWhile_cons, if_pos (by decide)]]
    · have hdw : (c :: t).dropWhile (· == ' ') = c :: t := by
        rw [List.dropWhile_cons, if_neg (by simpa using hc)]
      by_cases hp : c = '+'
      · subst hp
        refine ⟨[], splitPlus t, by rw [splitPlus_plus], ?_⟩
        rw [hdw, splitPlus_plus]
        rfl
      · obtain ⟨p, ps, h1, _⟩ := splitPlus_head_pre t
        refine ⟨c :: p, ps, ?_, ?_⟩
        · rw [splitPlus_cons_ne c t hp, h1]
          rfl
        · rw [hdw, splitPlus_cons_ne c t hp, h1,
            show (c :: p).dropWhile (· == ' ') = c :: p from by
              rw [List.dropWhile_cons, if_neg (by simpa using hc)]]
          rfl

theorem lowStr_nil_iff (p : Chars) : lowStr p = [] ↔ p = [] := by
  constructor
  · intro h
    cases p with
    | nil => rfl
    | cons c t => simp [lowStr] at h
  · intro h
    rw [h]
    rfl

theorem splitPlus_ci : ∀ (X Y : Chars), lowStr X = lowStr Y →
    List.Forall₂ (fun p q => lowStr p = lowStr q) (splitPlus X) (splitPlus Y) := by
  intro X
  induction X with
  | nil =>
    intro Y h
    have hY : Y = [] := by
      rw [← lowStr_nil_iff]
      exact h.symm ▸ rfl
    rw [hY]
    exact List.Forall₂.cons rfl List.Forall₂.nil
  | cons c xs ih =>
    intro Y h
    cases Y with
    | nil => simp [lowStr] at h
    | cons d ys =>
      simp only [lowStr, List.map_cons] at h
      injection h with h1 h2
      have hparts := ih ys h2
      by_cases hc : c = '+'
      · have hd : d = '+' := by
          apply toLower_eq_nonletter d '+' (by decide)
          rw [← h1, hc]
          decide
        rw [hc, hd, splitPlus_plus, splitPlus_plus]
        exact List.Forall₂.cons rfl hparts
      · have hd : d ≠ '+' := by
          intro hdp
          apply hc
          apply toLower_eq_nonletter c '+' (by decide)
          rw [h1, hdp]
          decide
        rw [splitPlus_cons_ne c xs hc, splitPlus_cons_ne d ys hd]
        cases hpx : splitPlus xs with
        | nil => exact absurd hpx (splitPlus_ne_nil xs)
        | cons p ps =>
          cases hpy : splitPlus ys with
          | nil => exact absurd hpy (splitPlus_ne_nil ys)
          | cons q qs =>
            rw [hpx, hpy] at hparts
            cases hparts with
            | cons hhead htail =>
              refine List.Forall₂.cons ?_ htail
              show lowStr (c :: p) = lowStr (d :: q)
              rw [show lowStr (c :: p) = c.toLower :: lowStr p from rfl,
                show lowStr (d :: q) = d.toLower :: lowStr q from rfl, h1, hhead]

theorem map_toLower_dropWhile (l : Chars) :
    lowStr (l.dropWhile isPySpace) = (lowStr l).dropWhile isPySpace := by
  induction l with
  | nil => rfl
  | cons c t ih =>
    simp only [lowStr, List.map_cons, List.dropWhile_cons]
    rw [isPySpace_toLower]
    cases h : isPySpace c with
    | true =>
      simp only [if_true]
      exact ih
    | false =>
      simp only [Bool.false_eq_true, if_false]
      rfl

theorem lowStr_reverse (l : Chars) : lowStr l.reverse = (lowStr l).reverse :=
  List.map_reverse Char.toLower l

theorem lowStr_pyStripEnd (l : Chars) :
    lowStr (pyStripEnd l) = pyStripEnd (lowStr l) := by
  unfold pyStripEnd
  rw [← lowStr_reverse, ← map_toLower_dropWhile, ← lowStr_reverse]

theorem lowStr_pyStrip (l : Chars) : lowStr (pyStrip l) = pyStrip (lowStr l) := by
  unfold pyStrip
  rw [lowStr_pyStripEnd, map_toLower_dropWhile]

theorem pyStrip_ci (p q : Chars) (h : lowStr p = lowStr q) :
    lowStr (pyStrip p) = lowStr (pyStrip q) := by
  rw [lowStr_pyStrip, lowStr_pyStrip, h]

theorem lowStr_cons (c : Char) (t : Chars) : lowStr (c :: t) = c.toLower :: lowStr t := rfl

theorem pyCapitalize_ci (z z' : Chars) (h : lowStr z = lowStr z') :
    pyCapitalize z = pyCapitalize z' := by
  cases z with
  | nil =>
    have : z' = [] := by
      rw [← lowStr_nil_iff]
      exact h.symm ▸ rfl
    rw [this]
  | cons c cs =>
    cases z' with
    | nil => simp [lowStr] at h
    | cons d ds =>
      rw [lowStr_cons, lowStr_cons] at h
      injection h with h1 h2
      show c.toUpper :: cs.map Char.toLower = d.toUpper :: ds.map Char.toLower
      rw [toUpper_congr c d h1]
      congr 1

theorem lowStr_pyCapitalize (z : Chars) : lowStr (pyCapitalize z) = lowStr z := by
  cases z with
  | nil => rfl
  | cons c cs =>
    show lowStr (c.toUpper :: cs.map Char.toLower) = lowStr (c :: cs)
    rw [lowStr_cons, lowStr_cons, toLower_toUpper]
    congr 1
    show lowStr (lowStr cs) = lowStr cs
    exact lowStr_lowStr cs

theorem pyCapitalize_idem (z : Chars) : pyCapitalize (pyCapitalize z) = pyCapitalize z := by
  cases z with
  | nil => rfl
  | cons c cs =>
    show pyCapitalize (c.toUpper :: cs.map Char.toLower) = _
    show c.toUpper.toUpper :: (cs.map Char.toLower).map Char.toLower = _
    rw [toUpper_toUpper]
    congr 1
    show lowStr (lowStr cs) = lowStr cs
    exact lowStr_lowStr cs

theorem phi_ci (p q : Chars) (h : lowStr p = lowStr q) :
    pyCapitalize (pyStrip p) = pyCapitalize (pyStrip q) :=
  pyCapitalize_ci _ _ (pyStrip_ci p q h)

theorem pyStripEnd_concat_space (t : Chars) (d : Char) (hd : isPySpace d = true) :
    pyStripEnd (t ++ [d]) = pyStripEnd t := by
  unfold pyStripEnd
  rw [show (t ++ [d]).reverse = d :: t.reverse from by simp,
    List.dropWhile_cons, if_pos hd]

theorem pyStrip_fix_parts (p : Chars) (h : pyStrip p = p) :
    p.dropWhile isPySpace = p ∧ pyStripEnd p = p := by
  have h1 : (p.dropWhile isPySpace).length ≤ p.length :=
    (List.dropWhile_suffix isPySpace).length_le
  have h2 : (pyStripEnd (p.dropWhile isPySpace)).length ≤ (p.dropWhile isPySpace).length :=
    (pyStripEnd_pre _).length_le
  have hlen : (pyStrip p).length = p.length := by rw [h]
  unfold pyStrip at hlen
  have hdw : p.dropWhile isPySpace = p :=
    (List.dropWhile_suffix isPySpace).eq_of_length (by omega)
  constructor
  · exact hdw
  · have := h
    unfold pyStrip at this
    rw [hdw] at this
    exact this

theorem pyStrip_fix_head (p : Chars) (h : pyStrip p = p) :
    ∀ c t, p = c :: t → isPySpace c = false := by
  intro c t hct
  have hdw := (pyStrip_fix_parts p h).1
  cases hc : isPySpace c with
  | false => rfl
  | true =>
    exfalso
    rw [hct, List.dropWhile_cons, if_pos hc] at hdw
    have := congrArg List.length hdw
    have hle : (t.dropWhile isPySpace).length ≤ t.length :=
      (List.dropWhile_suffix isPySpace).length_le
    rw [List.length_cons] at this
    omega

theorem pyStrip_fix_last (p : Chars) (h : pyStrip p = p) :
    ∀ t d, p = t ++ [d] → isPySpace d = false := by
  intro t d htd
  have hse := (pyStrip_fix_parts p h).2
  cases hd : isPySpace d with
  | false => rfl
  | true =>
    exfalso
    rw [htd, pyStripEnd_concat_space t d hd] at hse
    have := congrArg List.length hse
    have hle : (pyStripEnd t).length ≤ t.length := (pyStripEnd_pre t).length_le
    rw [List.length_append, List.length_cons, List.length_nil] at this
    omega

theorem sp2OK_concat_space (p : Chars) (hOK : sp2OK p = true)
    (hlast : ∀ t d, p = t ++ [d] → d ≠ ' ') : sp2OK (p ++ [' ']) = true := by
  induction p with
  | nil => rfl
  | cons c t ih =>
    cases t with
    | nil =>
      have hc : c ≠ ' ' := hlast [] c rfl
      rw [show (([c] : Chars) ++ [' ']) = c :: ' ' :: [] from rfl, sp2OK_cons2]
      have hcb : (c == ' ') = false := by
        cases hb : c == ' ' with
        | false => rfl
        | true => exact absurd (beq_iff_eq.mp hb) hc
      rw [hcb]
      rfl
    | cons d t2 =>
      rw [show ((c :: d :: t2) ++ [' ']) = c :: d :: (t2 ++ [' ']) from rfl, sp2OK_cons2]
      rw [sp2OK_cons2, Bool.and_eq_true] at hOK
      obtain ⟨h1, h2⟩ := hOK
      rw [Bool.and_eq_true]
      refine ⟨h1, ?_⟩
      have hlast2 : ∀ t' e, d :: t2 = t' ++ [e] → e ≠ ' ' := by
        intro t' e he
        exact hlast (c :: t') e (by rw [List.cons_append, ← he])
      exact ih h2 hlast2

theorem pyStrip_nonempty_shape (c : Char) (t : Chars) (h : pyStrip (c :: t) = c :: t) :
    (∃ c0 t0, (c :: t) = c0 :: t0 ∧ isPySpace c0 = false) ∧
    (∃ p0 d0, (c :: t) = p0 ++ [d0] ∧ isPySpace d0 = false) := by
  constructor
  · exact ⟨c, t, rfl, pyStrip_fix_head _ h c t rfl⟩
  · rcases List.eq_nil_or_concat (c :: t) with hnil | ⟨p0, d0, hcat⟩
    · exact absurd hnil (by simp)
    · rw [List.concat_eq_append] at hcat
      exact ⟨p0, d0, hcat, pyStrip_fix_last _ h p0 d0 hcat⟩

theorem strip_pad (c : Char) (t : Chars) (h : pyStrip (c :: t) = c :: t) :
    pyStrip ((c :: t) ++ [' ']) = c :: t := by
  obtain ⟨hh, hl⟩ := pyStrip_nonempty_shape c t h
  exact pyStrip_append_pad (c :: t) [' '] hh hl (by decide)

theorem csp_pad (c : Char) (t : Chars) (h1 : pyStrip (c :: t) = c :: t)
    (h3 : sp2OK (c :: t) = true) :
    collapse_spaces ((c :: t) ++ [' ']) = (c :: t) ++ [' '] := by
  apply csp_fix
  apply sp2OK_concat_space (c :: t) h3
  intro t' d htd
  intro hd
  have := pyStrip_fix_last _ h1 t' d htd
  rw [hd] at this
  simp [isPySpace] at this

theorem dropSpW_fix_head (c : Char) (t : Chars) (hc : isPySpace c = false) :
    (c :: t).dropWhile (· == ' ') = c :: t := by
  rw [List.dropWhile_cons, if_neg]
  intro hb
  have : c = ' ' := by simpa using hb
  rw [this] at hc
  simp [isPySpace] at hc

theorem dropSpW_pad_fix (c : Char) (t : Chars) (hc : isPySpace c = false) :
    ((c :: t) ++ [' ']).dropWhile (· == ' ') = (c :: t) ++ [' '] := by
  rw [show ((c :: t) ++ [' ']) = c :: (t ++ [' ']) from rfl]
  exact dropSpW_fix_head c (t ++ [' ']) hc

theorem pyStrip_head_nonspace (l : Chars) (c : Char) (h : (pyStrip l).head? = some c) :
    isPySpace c = false := by
  rw [pyStrip_head?] at h
  cases hd : l.dropWhile isPySpace with
  | nil => rw [hd] at h; simp at h
  | cons x xs =>
    rw [hd, List.head?_cons] at h
    have := dropWhile_head_false isPySpace l x xs hd
    rw [← Option.some.inj h]
    exact this

theorem pyStripEnd_last_nonspace (l : Chars) (d : Char)
    (h : (pyStripEnd l).getLast? = some d) : isPySpace d = false := by
  unfold pyStripEnd at h
  rw [List.getLast?_reverse] at h
  cases hd : l.reverse.dropWhile isPySpace with
  | nil => rw [hd] at h; simp at h
  | cons x xs =>
    rw [hd, List.head?_cons] at h
    have := dropWhile_head_false isPySpace l.reverse x xs hd
    rw [← Option.some.inj h]
    exact this

theorem pyStrip_last_nonspace (l : Chars) (d : Char)
    (h : (pyStrip l).getLast? = some d) : isPySpace d = false :=
  pyStripEnd_last_nonspace (l.dropWhile isPySpace) d h

theorem pyCapitalize_concat_shape (t : Chars) (d : Char) :
    ∃ t2 e, pyCapitalize (t ++ [d]) = t2 ++ [e] ∧ e.toLower = d.toLower := by
  cases t with
  | nil => exact ⟨[], d.toUpper, rfl, toLower_toUpper d⟩
  | cons c0 t0 =>
    refine ⟨c0.toUpper :: t0.map Char.toLower, d.toLower, ?_, toLower_toLower d⟩
    show c0.toUpper :: (t0 ++ [d]).map Char.toLower = _
    rw [List.map_append]
    rfl

theorem phi_good (q : Chars) (hq2 : sp2OK q = true) (hqp : ∀ c ∈ q, c ≠ '+') :
    pyStrip (pyCapitalize (pyStrip q)) = pyCapitalize (pyStrip q) ∧
    pyCapitalize (pyCapitalize (pyStrip q)) = pyCapitalize (pyStrip q) ∧
    sp2OK (pyCapitalize (pyStrip q)) = true ∧
    (∀ c ∈ pyCapitalize (pyStrip q), c ≠ '+') := by
  refine ⟨?_, pyCapitalize_idem (pyStrip q), ?_, ?_⟩
  · cases hz : pyStrip q with
    | nil => rfl
    | cons c0 t0 =>
      have hc0 : isPySpace c0 = false := by
        apply pyStrip_head_nonspace q c0
        rw [hz]
        rfl
      rcases List.eq_nil_or_concat (c0 :: t0) with hnil | ⟨p0, d0, hcat⟩
      · exact absurd hnil (by simp)
      · rw [List.concat_eq_append] at hcat
        have hd0 : isPySpace d0 = false := by
          apply pyStrip_last_nonspace q d0
          rw [hz, hcat, List.getLast?_append_of_ne_nil _ (by simp)]
          rfl
        show pyStrip (c0.toUpper :: t0.map Char.toLower) = _
        apply pyStrip_eq_self_of
        · exact ⟨c0.toUpper, t0.map Char.toLower, rfl, by rw [isPySpace_toUpper]; exact hc0⟩
        · obtain ⟨t2, e, he, helow⟩ := pyCapitalize_concat_shape p0 d0
          rw [← hcat] at he
          refine ⟨t2, e, he, ?_⟩
          rw [← isPySpace_toLower e, helow, isPySpace_toLower]
          exact hd0
  · apply (sp2OK_ci _ _ (lowStr_pyCapitalize (pyStrip q))).trans
    exact sp2OK_infix q (pyStrip q) hq2 (pyStrip_inf q)
  · intro c hc hplus
    have hcl : c.toLower ∈ lowStr (pyCapitalize (pyStrip q)) :=
      List.mem_map_of_mem Char.toLower hc
    rw [lowStr_pyCapitalize] at hcl
    obtain ⟨d, hd, hdl⟩ := List.mem_map.mp hcl
    have hdq : d ∈ q := (pyStrip_inf q).subset hd
    have hd2 : d = '+' := by
      apply toLower_eq_nonletter d '+' (by decide)
      rw [hdl, hplus]
      decide
    exact hqp d hdq hd2

theorem phi_sp_drop (p : Chars) (h1 : pyStrip p = p) (h2 : pyCapitalize p = p)
    (h3 : sp2OK p = true) :
    pyCapitalize (pyStrip (collapse_spaces (p.dropWhile (· == ' ')))) = p := by
  cases p with
  | nil => rfl
  | cons c t =>
    rw [dropSpW_fix_head c t (pyStrip_fix_head _ h1 c t rfl), csp_fix _ h3, h1, h2]

theorem phi_sp_cons (p : Chars) (h1 : pyStrip p = p) (h2 : pyCapitalize p = p)
    (h3 : sp2OK p = true) :
    pyCapitalize (pyStrip (collapse_spaces (' ' :: p))) = p := by
  rw [csp_space_cons]
  cases p with
  | nil => rfl
  | cons c t =>
    rw [dropSpW_fix_head c t (pyStrip_fix_head _ h1 c t rfl), csp_fix _ h3,
      pyStrip_cons_space ' ' (c :: t) (by decide), h1, h2]

theorem phi_sp_cons_pad (p : Chars) (h1 : pyStrip p = p) (h2 : pyCapitalize p = p)
    (h3 : sp2OK p = true) :
    pyCapitalize (pyStrip (collapse_spaces (' ' :: (p ++ [' '])))) = p := by
  rw [csp_space_cons]
  cases p with
  | nil => rfl
  | cons c t =>
    rw [dropSpW_pad_fix c t (pyStrip_fix_head _ h1 c t rfl), csp_pad c t h1 h3,
      pyStrip_cons_space ' ' ((c :: t) ++ [' ']) (by decide), strip_pad c t h1, h2]

theorem phi_sp_drop_pad (p : Chars) (h1 : pyStrip p = p) (h2 : pyCapitalize p = p)
    (h3 : sp2OK p = true) :
    pyCapitalize (pyStrip (collapse_spaces ((p ++ [' ']).dropWhile (· == ' ')))) = p := by
  cases p with
  | nil => rfl
  | cons c t =>
    rw [dropSpW_pad_fix c t (pyStrip_fix_head _ h1 c t rfl), csp_pad c t h1 h3,
      strip_pad c t h1, h2]

theorem cda_aux : ∀ (ps : List Chars),
    (∀ p ∈ ps, pyStrip p = p ∧ pyCapitalize p = p ∧ sp2OK p = true ∧ ∀ c ∈ p, c ≠ '+') →
    ps ≠ [] →
    ∃ h t, splitPlus (List.intercalate " + ".data ps) = h :: t ∧
      ((h.dropWhile (· == ' ')) :: t).map
        (fun d => pyCapitalize (pyStrip (collapse_spaces d))) = ps ∧
      ((' ' :: h) :: t).map (fun d => pyCapitalize (pyStrip (collapse_spaces d))) = ps := by
  intro ps
  induction ps with
  | nil => intro _ hne; exact absurd rfl hne
  | cons p ps2 ih =>
    intro hyp _
    obtain ⟨hp1, hp2, hp3, hp4⟩ := hyp p (by simp)
    cases ps2 with
    | nil =>
      have hsingle : List.intercalate " + ".data [p] = p := by
        simp [List.intercalate, List.intersperse]
      rw [hsingle, splitPlus_plusfree p hp4]
      refine ⟨p, [], rfl, ?_, ?_⟩
      · rw [List.map_cons, List.map_nil, phi_sp_drop p hp1 hp2 hp3]
      · rw [List.map_cons, List.map_nil, phi_sp_cons p hp1 hp2 hp3]
    | cons q qs =>
      obtain ⟨hJ, tJ, hsJ, _, hC1J⟩ := ih
        (fun r hr => hyp r (List.mem_cons_of_mem p hr)) (by simp)
      have hstep : List.intercalate " + ".data (p :: q :: qs) =
          (p ++ [' ']) ++ '+' :: ' ' :: List.intercalate " + ".data (q :: qs) := by
        have h0 : List.intercalate " + ".data (p :: q :: qs) =
            p ++ (" + ".data ++ List.intercalate " + ".data (q :: qs)) := by
          simp [List.intercalate, List.intersperse]
        rw [h0, show (" + ".data ++ List.intercalate " + ".data (q :: qs)) =
          [' '] ++ '+' :: ' ' :: List.intercalate " + ".data (q :: qs) from rfl,
          ← List.append_assoc]
      obtain ⟨h0, t0, hsplit0, hsplit⟩ := splitPlus_append_plusfree (p ++ [' '])
        ('+' :: ' ' :: List.intercalate " + ".data (q :: qs))
        (fun c hc => by
          rcases List.mem_append.mp hc with h | h
          · exact hp4 c h
          · simp at h; rw [h]; decide)
      rw [splitPlus_plus] at hsplit0
      have hsJ2 : splitPlus (' ' :: List.intercalate " + ".data (q :: qs)) =
          (' ' :: hJ) :: tJ := by
        rw [splitPlus_cons_ne ' ' _ (by decide), hsJ]
        rfl
      rw [hsJ2] at hsplit0
      injection hsplit0 with e1 e2
      refine ⟨p ++ [' '], (' ' :: hJ) :: tJ, ?_, ?_, ?_⟩
      · rw [hstep, hsplit, ← e1, ← e2, List.append_nil]
      · rw [List.map_cons, phi_sp_drop_pad p hp1 hp2 hp3, hC1J]
      · rw [List.map_cons, phi_sp_cons_pad p hp1 hp2 hp3, hC1J]

theorem map_phi_forall₂ : ∀ (xs ys : List Chars),
    List.Forall₂ (fun p q => lowStr p = lowStr q) xs ys →
    xs.map (fun d => pyCapitalize (pyStrip d)) =
      ys.map (fun d => pyCapitalize (pyStrip d)) := by
  intro xs
  induction xs with
  | nil =>
    intro ys h
    cases h
    rfl
  | cons x xs2 ih =>
    intro ys h
    cases h with
    | cons hxy htail =>
      rename_i y ys2
      rw [List.map_cons, List.map_cons, phi_ci x y hxy, ih ys2 htail]

theorem capDrugs_ci (X Y : Chars) (h : lowStr X = lowStr Y) : capDrugs X = capDrugs Y := by
  unfold capDrugs
  rw [map_phi_forall₂ _ _ (splitPlus_ci X Y h)]

theorem capDrugs_reform (body : Chars) (hOK : sp2OK body = true) :
    capDrugs (collapse_spaces ((capDrugs body).dropWhile (· == ' '))) = capDrugs body := by
  have hgood : ∀ p ∈ (splitPlus body).map (fun d => pyCapitalize (pyStrip d)),
      pyStrip p = p ∧ pyCapitalize p = p ∧ sp2OK p = true ∧ ∀ c ∈ p, c ≠ '+' := by
    intro p hp
    obtain ⟨q, hq, hqp⟩ := List.mem_map.mp hp
    obtain ⟨g1, g2, g3, g4⟩ := phi_good q (sp2OK_splitPlus body hOK q hq)
      (splitPlus_pieces_plusfree body q hq)
    rw [← hqp]
    exact ⟨g1, g2, g3, g4⟩
  have hne : (splitPlus body).map (fun d => pyCapitalize (pyStrip d)) ≠ [] := by
    intro h
    exact splitPlus_ne_nil body (List.map_eq_nil_iff.mp h)
  obtain ⟨h, t, hsD, hC0, _⟩ := cda_aux _ hgood hne
  obtain ⟨p', ps', hD1, hD2⟩ := splitPlus_dropSpW (capDrugs body)
  have hcd : splitPlus (capDrugs body) =
      splitPlus (List.intercalate " + ".data
        ((splitPlus body).map fun d => pyCapitalize (pyStrip d))) := rfl
  rw [hcd, hsD] at hD1
  injection hD1 with e1 e2
  have hfuse : ∀ (L : List Chars),
      (L.map collapse_spaces).map (fun d => pyCapitalize (pyStrip d)) =
        L.map (fun d => pyCapitalize (pyStrip (collapse_spaces d))) := by
    intro L
    rw [List.map_map]
    rfl
  show List.intercalate " + ".data
      ((splitPlus (collapse_spaces ((capDrugs body).dropWhile (· == ' ')))).map
        fun d => pyCapitalize (pyStrip d)) = capDrugs body
  rw [splitPlus_csp, hD2, ← e1, ← e2,
    show ((h.dropWhile (· == ' ')) :: t).map collapse_spaces =
      collapse_spaces (h.dropWhile (· == ' ')) :: t.map collapse_spaces from rfl,
    show (collapse_spaces (h.dropWhile (· == ' ')) :: t.map collapse_spaces).map
        (fun d => pyCapitalize (pyStrip d)) =
      pyCapitalize (pyStrip (collapse_spaces (h.dropWhile (· == ' ')))) ::
        (t.map collapse_spaces).map (fun d => pyCapitalize (pyStrip d)) from rfl,
    hfuse t]
  rw [List.map_cons] at hC0
  rw [hC0]
  rfl

/-! ### Character-class preservation through the normalizer passes -/

theorem splitPlus_subset : ∀ (l : Chars), ∀ p ∈ splitPlus l, ∀ c ∈ p, c ∈ l := by
  intro l
  induction l with
  | nil =>
    intro p hp
    simp [splitPlus] at hp
    subst hp
    intro c hc
    simp at hc
  | cons a t ih =>
    intro p hp
    by_cases ha : a = '+'
    · subst ha
      rw [splitPlus_plus] at hp
      rcases List.mem_cons.mp hp with h | h
      · subst h; intro c hc; simp at hc
      · intro c hc
        exact List.mem_cons_of_mem '+' (ih p h c hc)
    · rw [splitPlus_cons_ne a t ha] at hp
      cases hs : splitPlus t with
      | nil => exact absurd hs (splitPlus_ne_nil t)
      | cons p0 ps =>
        rw [hs] at hp
        rcases List.mem_cons.mp hp with h | h
        · subst h
          intro c hc
          rcases List.mem_cons.mp hc with h1 | h1
          · rw [h1]; exact List.mem_cons_self a t
          · exact List.mem_cons_of_mem a
              (ih p0 (hs ▸ List.mem_cons_self p0 ps) c h1)
        · intro c hc
          exact List.mem_cons_of_mem a (ih p (hs ▸ List.mem_cons_of_mem p0 h) c hc)

theorem nlfree_of_lowStr (l m : Chars) (h : lowStr l = lowStr m)
    (hm : ∀ c ∈ m, c ≠ '\n') : ∀ c ∈ l, c ≠ '\n' := by
  intro c hc hcn
  have hcl : c.toLower ∈ lowStr l := List.mem_map_of_mem Char.toLower hc
  rw [h] at hcl
  obtain ⟨d, hd, hdl⟩ := List.mem_map.mp hcl
  have hd2 : d = '\n' := by
    apply toLower_eq_nonletter d '\n' (by decide)
    rw [hdl, hcn]
    decide
  exact hm d hd hd2

theorem usev_nlfree (l : Chars) (h : ∀ c ∈ l, c ≠ '\n') :
    ∀ c ∈ uppercase_severity l, c ≠ '\n' :=
  nlfree_of_lowStr (uppercase_severity l) l (usev_lowStr l) h

theorem pyCapitalize_nlfree (z : Chars) (h : ∀ c ∈ z, c ≠ '\n') :
    ∀ c ∈ pyCapitalize z, c ≠ '\n' :=
  nlfree_of_lowStr (pyCapitalize z) z (lowStr_pyCapitalize z) h

theorem intercalate_mem (sep : Chars) : ∀ (ps : List Chars) (c : Char),
    c ∈ List.intercalate sep ps → c ∈ sep ∨ ∃ p ∈ ps, c ∈ p := by
  intro ps
  induction ps with
  | nil =>
    intro c hc
    simp [List.intercalate] at hc
  | cons p ps2 ih =>
    intro c hc
    cases ps2 with
    | nil =>
      rw [show List.intercalate sep [p] = p from by
        simp [List.intercalate, List.intersperse]] at hc
      exact Or.inr ⟨p, by simp, hc⟩
    | cons q qs =>
      rw [show List.intercalate sep (p :: q :: qs) =
        p ++ (sep ++ List.intercalate sep (q :: qs)) from by
          simp [List.intercalate, List.intersperse]] at hc
      rcases List.mem_append.mp hc with h1 | h1
      · exact Or.inr ⟨p, by simp, h1⟩
      · rcases List.mem_append.mp h1 with h2 | h2
        · exact Or.inl h2
        · rcases ih c h2 with h3 | ⟨r, hr, hcr⟩
          · exact Or.inl h3
          · exact Or.inr ⟨r, List.mem_cons_of_mem p hr, hcr⟩

theorem capDrugs_nlfree (body : Chars) (h : ∀ c ∈ body, c ≠ '\n') :
    ∀ c ∈ capDrugs body, c ≠ '\n' := by
  intro c hc
  unfold capDrugs at hc
  rcases intercalate_mem " + ".data _ c hc with h1 | ⟨p, hp, hcp⟩
  · intro he
    rw [he] at h1
    simp at h1
  · obtain ⟨q, hq, hqp⟩ := List.mem_map.mp hp
    rw [← hqp] at hcp
    apply pyCapitalize_nlfree (pyStrip q) _ c hcp
    intro d hd
    exact h d (splitPlus_subset body q hq d ((pyStrip_inf q).subset hd))

theorem cap_nlfree : ∀ (fuel : Nat) (l : Chars), (∀ c ∈ l, c ≠ '\n') →
    ∀ c ∈ capGo fuel l, c ≠ '\n' := by
  intro fuel
  induction fuel with
  | zero => intro l h; exact h
  | succ f ih =>
    intro l h
    cases l with
    | nil => intro c hc; simp [capGo_nil] at hc
    | cons a t =>
      cases hm : matchInterLine (a :: t) with
      | none =>
        rw [capGo_cons_none f a t hm]
        intro c hc
        rcases List.mem_cons.mp hc with h1 | h1
        · rw [h1]; exact h a (by simp)
        · exact ih t (fun x hx => h x (List.mem_cons_of_mem a hx)) c h1
      | some pr =>
        obtain ⟨ρ, A⟩ := pr
        rw [capGo_cons_some f a t ρ A hm]
        obtain ⟨ds, bd, hdig, _, _, hbdnl, hl, hρ, _⟩ :=
          matchInterLine_shape (a :: t) ρ A hm
        intro c hc
        rcases List.mem_append.mp hc with h1 | h1
        · rw [hρ] at h1
          rcases List.mem_append.mp h1 with h2 | h2
          · rcases List.mem_append.mp h2 with h3 | h3
            · rcases List.mem_append.mp h3 with h4 | h4
              · intro he; rw [he] at h4; simp at h4
              · intro he
                rw [he] at h4
                have hmem : ('\n' : Char) ∈ a :: t := by
                  rw [hl]
                  apply List.mem_append_left
                  apply List.mem_append_left
                  apply List.mem_append_left
                  exact List.mem_append_right _ h4
                exact h '\n' hmem rfl
            · intro he; rw [he] at h3; simp at h3
          · exact capDrugs_nlfree bd hbdnl c h2
        · apply ih A _ c h1
          intro x hx
          apply h x
          rw [hl]
          exact List.mem_append_right _ hx

theorem csp_ne_nil (l : Chars) (h : l ≠ []) : collapse_spaces l ≠ [] := by
  intro he
  have h2 := csp_head? l
  rw [he] at h2
  cases l with
  | nil => exact h rfl
  | cons c t => simp at h2

theorem usev_ne_nil (l : Chars) (h : l ≠ []) : uppercase_severity l ≠ [] := by
  intro he
  have h2 := usev_length l
  rw [he] at h2
  cases l with
  | nil => exact h rfl
  | cons c t => simp at h2

theorem cap_ne_nil (l : Chars) (h : l ≠ []) : capitalize_medications l ≠ [] := by
  cases l with
  | nil => exact absurd rfl h
  | cons c t =>
    unfold capitalize_medications
    rw [show (c :: t).length = t.length + 1 from rfl]
    cases hm : matchInterLine (c :: t) with
    | none =>
      rw [capGo_cons_none t.length c t hm]
      simp
    | some pr =>
      obtain ⟨ρ, A⟩ := pr
      rw [capGo_cons_some t.length c t ρ A hm]
      obtain ⟨ds, bd, _, _, _, _, _, hρ, _⟩ := matchInterLine_shape _ ρ A hm
      rw [hρ]
      simp

theorem lineNorm_nil : lineNorm [] = [] := rfl

theorem lineNorm_ne_nil (u : Chars) (h : u ≠ []) : lineNorm u ≠ [] :=
  cap_ne_nil _ (usev_ne_nil _ (csp_ne_nil _ h))

theorem lineNorm_nlfree (u : Chars) (h : ∀ c ∈ u, c ≠ '\n') :
    ∀ c ∈ lineNorm u, c ≠ '\n' := by
  intro c hc
  unfold lineNorm capitalize_medications at hc
  exact cap_nlfree _ _
    (usev_nlfree _ (fun x hx => h x (csp_subset u x hx))) c hc

theorem getLast?_drop_of_lt (l : Chars) (i : Nat) (hi : i < l.length) :
    (l.drop i).getLast? = l.getLast? := by
  conv_rhs => rw [← List.take_append_drop i l]
  rw [List.getLast?_append_of_ne_nil _ (by
    intro he
    have h2 := congrArg List.length he
    rw [List.length_drop] at h2
    simp at h2
    omega)]

theorem cap_single_match (m ρm : Chars) (h : matchInterLine m = some (ρm, [])) :
    capitalize_medications m = ρm := by
  cases m with
  | nil => rw [matchInterLine_nil] at h; exact Option.noConfusion h
  | cons c t =>
    unfold capitalize_medications
    rw [show (c :: t).length = t.length + 1 from rfl,
      capGo_cons_some t.length c t ρm [] h, capGo_nil, List.append_nil]

theorem cap_fix_of_none (l : Chars) (h : ∀ i, matchInterLine (l.drop i) = none) :
    capitalize_medications l = l :=
  capGo_fix_of_none l l.length h

theorem mil_none_at_hdr_nil (ds : Chars) (hds : ∀ d ∈ ds, d.isDigit = true) :
    matchInterLine ("**Interaction ".data ++ (ds ++ "**: ".data)) = none := by
  unfold matchInterLine
  rw [takeAfter_self_append, Option.some_bind]
  have ht : (ds ++ "**: ".data).takeWhile Char.isDigit = ds := by
    rw [show ("**: ".data : Chars) = '*' :: "*: ".data from rfl]
    exact takeWhile_sat_append Char.isDigit ds '*' _ hds (by decide)
  have hd : (ds ++ "**: ".data).dropWhile Char.isDigit = "**: ".data :=
    dropWhile_sat_append Char.isDigit ds _ hds
  rw [ht, hd]
  by_cases hne : ds = []
  · rw [if_pos hne]
  · rw [if_neg hne]
    have hta : takeAfter "**: ".data "**: ".data = some [] := by
      have h2 := takeAfter_self_append "**: ".data []
      rw [List.append_nil] at h2
      exact h2
    rw [hta, Option.some_bind]
    rfl

theorem capDrugs_has_nonspace (body : Chars) (h : capDrugs body ≠ []) :
    ∃ c ∈ capDrugs body, (c == ' ') = false := by
  cases hps : splitPlus body with
  | nil => exact absurd hps (splitPlus_ne_nil body)
  | cons q qs =>
    cases qs with
    | nil =>
      have hD : capDrugs body = pyCapitalize (pyStrip q) := by
        unfold capDrugs
        rw [hps]
        simp [List.intercalate, List.intersperse]
      cases hz : pyStrip q with
      | nil =>
        exfalso
        apply h
        rw [hD, hz]
        rfl
      | cons c0 t0 =>
        have hc0 : isPySpace c0 = false := by
          apply pyStrip_head_nonspace q c0
          rw [hz]
          rfl
        refine ⟨c0.toUpper, ?_, ?_⟩
        · rw [hD, hz]
          show c0.toUpper ∈ c0.toUpper :: t0.map Char.toLower
          exact List.mem_cons_self _ _
        · cases hb : c0.toUpper == ' ' with
          | false => rfl
          | true =>
            exfalso
            have he : c0.toUpper = ' ' := beq_iff_eq.mp hb
            have h2 := isPySpace_toUpper c0
            rw [he] at h2
            rw [← h2] at hc0
            simp [isPySpace] at hc0
    | cons r rs =>
      refine ⟨'+', ?_, by decide⟩
      unfold capDrugs
      rw [hps,
        show ((q :: r :: rs).map fun d => pyCapitalize (pyStrip d)) =
          pyCapitalize (pyStrip q) :: pyCapitalize (pyStrip r) ::
            (rs.map fun d => pyCapitalize (pyStrip d)) from rfl,
        show List.intercalate " + ".data (pyCapitalize (pyStrip q) ::
            pyCapitalize (pyStrip r) :: (rs.map fun d => pyCapitalize (pyStrip d))) =
          pyCapitalize (pyStrip q) ++ (" + ".data ++ List.intercalate " + ".data
            (pyCapitalize (pyStrip r) :: (rs.map fun d => pyCapitalize (pyStrip d))))
          from by simp [List.intercalate, List.intersperse]]
      apply List.mem_append_right
      apply List.mem_append_left
      decide

theorem lineNorm_idem (u : Chars) (hu : ∀ c ∈ u, c ≠ '\n') :
    lineNorm (lineNorm u) = lineNorm u := by
  have hwOK : sp2OK (uppercase_severity (collapse_spaces u)) = true := by
    rw [sp2OK_ci _ _ (usev_lowStr (collapse_spaces u))]
    exact sp2OK_csp u
  have hwsev : sevOK (uppercase_severity (collapse_spaces u)) :=
    sevOK_usev (collapse_spaces u)
  have hwnl : ∀ c ∈ uppercase_severity (collapse_spaces u), c ≠ '\n' :=
    usev_nlfree _ (fun c hc => hu c (csp_subset u c hc))
  have hLu : lineNorm u = capitalize_medications (uppercase_severity (collapse_spaces u)) :=
    rfl
  rcases capGo_cases (uppercase_severity (collapse_spaces u)) with
    hnone | ⟨a, m, ρ, A, hwm, hanone, hmsome⟩
  · have hcw : capitalize_medications (uppercase_severity (collapse_spaces u)) =
        uppercase_severity (collapse_spaces u) := cap_fix_of_none _ hnone
    rw [hLu, hcw]
    show capitalize_medications (uppercase_severity (collapse_spaces
      (uppercase_severity (collapse_spaces u)))) = uppercase_severity (collapse_spaces u)
    rw [csp_fix _ hwOK, usev_idem (collapse_spaces u), hcw]
  · obtain ⟨ds, body, hdig, hdsne, hbdne, hbdnl, hml, hρeq, hAalt⟩ :=
      matchInterLine_shape m ρ A hmsome
    have hmnl : ∀ c ∈ m, c ≠ '\n' := fun c hc => hwnl c
      (by rw [hwm]; exact List.mem_append_right a hc)
    have hA : A = [] := by
      rcases hAalt with h | h
      · exact h
      · exact absurd rfl (hmnl '\n'
          (by rw [hml]; exact List.mem_append_right _ (mem_of_head? '\n' A h)))
    subst hA
    rw [List.append_nil] at hml
    have hanl : ∀ c ∈ a, c ≠ '\n' := fun c hc => hwnl c
      (by rw [hwm]; exact List.mem_append_left m hc)
    have hcapw : capitalize_medications (uppercase_severity (collapse_spaces u)) =
        a ++ ρ := by
      unfold capitalize_medications
      rw [hwm, capGo_decomp (a ++ m).length a m
        (le_of_eq (List.length_append a m).symm) hanone]
      congr 1
      exact cap_single_match m ρ hmsome
    rw [hLu, hcapw]
    -- facts about the decomposition
    have hwfull : uppercase_severity (collapse_spaces u) =
        (a ++ ("**Interaction ".data ++ (ds ++ ['*', '*', ':']))) ++ (' ' :: body) := by
      rw [hwm, hml]
      simp [List.append_assoc]
    have hP_OK : sp2OK (a ++ ("**Interaction ".data ++ (ds ++ ['*', '*', ':']))) = true := by
      apply sp2OK_append_left _ (' ' :: body)
      rw [← hwfull]
      exact hwOK
    have hbodyOK : sp2OK body = true := by
      apply sp2OK_append_right
        ((a ++ ("**Interaction ".data ++ (ds ++ ['*', '*', ':']))) ++ [' ']) body
      rw [show ((a ++ ("**Interaction ".data ++ (ds ++ ['*', '*', ':']))) ++ [' ']) ++ body
        = (a ++ ("**Interaction ".data ++ (ds ++ ['*', '*', ':']))) ++ (' ' :: body) from by
          simp]
      rw [← hwfull]
      exact hwOK
    have hPlast : (a ++ ("**Interaction ".data ++ (ds ++ ['*', '*', ':']))).getLast? =
        some ':' := by
      rw [List.getLast?_append_of_ne_nil _ (by simp),
        List.getLast?_append_of_ne_nil _ (by simp),
        List.getLast?_append_of_ne_nil _ (by simp)]
      rfl
    -- pass 2, step Sp
    have hSp : collapse_spaces (a ++ ρ) =
        a ++ ("**Interaction ".data ++ (ds ++ ("**: ".data ++
          collapse_spaces ((capDrugs body).dropWhile (· == ' '))))) := by
      have hsplit : a ++ ρ = (a ++ ("**Interaction ".data ++ (ds ++ ['*', '*', ':'])))
          ++ (' ' :: capDrugs body) := by
        rw [hρeq]
        simp [List.append_assoc]
      rw [hsplit, csp_append_gen _ _ hP_OK (by
          intro e he hsp
          exfalso
          rw [hPlast] at he
          have h2 : ':' = e := Option.some.inj he
          rw [← h2] at hsp
          exact absurd hsp (by decide)),
        csp_space_cons]
      simp [List.append_assoc]
    -- pass 2, step Sev
    have hOKsev : sevOK (a ++ '*' :: '*' :: 'I' :: ("nteraction ".data ++
        (ds ++ ("**: ".data ++ body)))) := by
      rw [hwm, hml] at hwsev
      have he : "**Interaction ".data ++ ds ++ "**: ".data ++ body =
          "**Interaction ".data ++ (ds ++ ("**: ".data ++ body)) := by
        simp [List.append_assoc]
      rw [he] at hwsev
      exact hwsev
    have hSev : uppercase_severity (a ++ ("**Interaction ".data ++ (ds ++ ("**: ".data ++
          collapse_spaces ((capDrugs body).dropWhile (· == ' ')))))) =
        a ++ ("**Interaction ".data ++ (ds ++ ("**: ".data ++
          uppercase_severity (collapse_spaces ((capDrugs body).dropWhile (· == ' ')))))) := by
      unfold uppercase_severity
      rw [usevGo_decomp (a ++ ("**Interaction ".data ++ (ds ++ ("**: ".data ++
          collapse_spaces ((capDrugs body).dropWhile (· == ' ')))))).length a _
        (le_of_eq (List.length_append a _).symm)
        (fun i hi => sev_inert_transport a
          ("nteraction ".data ++ (ds ++ ("**: ".data ++ body)))
          ("nteraction ".data ++ (ds ++ ("**: ".data ++
            collapse_spaces ((capDrugs body).dropWhile (· == ' ')))))
          hOKsev i hi)]
      congr 1
      exact usev_hdr_scan ds _ hdig _ le_rfl
    -- MIL-noneness at positions in a, for any continuation Z
    have hcapnone : ∀ (Z : Chars) (i : Nat), i < a.length →
        matchInterLine ((a.drop i ++ ("**Interaction ".data ++ (ds ++ "**: ".data))) ++ Z)
          = none := by
      intro Z i hi
      apply mil_none_transport _ body Z
      · rw [List.length_append, List.length_append, List.length_append]
        have h14 : ("**Interaction ".data).length = 14 := by decide
        have h4 : ("**: ".data).length = 4 := by decide
        omega
      · rw [List.getLast?_append_of_ne_nil _ (by simp),
          List.getLast?_append_of_ne_nil _ (by simp),
          List.getLast?_append_of_ne_nil _ (by simp)]
        rfl
      · intro c hc
        rcases List.mem_append.mp hc with h1 | h1
        · exact hanl c (List.drop_subset i a h1)
        · rcases List.mem_append.mp h1 with h2 | h2
          · intro he; rw [he] at h2; exact absurd h2 (by decide)
          · rcases List.mem_append.mp h2 with h3 | h3
            · apply hmnl c
              rw [hml]
              exact List.mem_append_left _ (List.mem_append_left _
                (List.mem_append_right _ h3))
            · intro he; rw [he] at h3; exact absurd h3 (by decide)
      · exact hbdne
      · exact hbdnl
      · have he : (a.drop i ++ ("**Interaction ".data ++ (ds ++ "**: ".data))) ++ body =
            a.drop i ++ m := by
          rw [hml]
          simp [List.append_assoc]
        rw [he]
        exact hanone i hi
    -- final assembly
    show capitalize_medications (uppercase_severity (collapse_spaces (a ++ ρ))) = a ++ ρ
    rw [hSp, hSev]
    by_cases hD : capDrugs body = []
    · have hU : uppercase_severity (collapse_spaces
          ((capDrugs body).dropWhile (· == ' '))) = [] := by
        rw [hD]
        rfl
      rw [hU, show a ++ ("**Interaction ".data ++ (ds ++ ("**: ".data ++ ([] : Chars)))) =
          a ++ ("**Interaction ".data ++ ds ++ "**: ".data) from by simp]
      unfold capitalize_medications
      rw [capGo_decomp (a ++ ("**Interaction ".data ++ ds ++ "**: ".data)).length a _
        (le_of_eq (List.length_append a _).symm)
        (fun i hi => by
          rw [show a.drop i ++ ("**Interaction ".data ++ ds ++ "**: ".data) =
            (a.drop i ++ ("**Interaction ".data ++ (ds ++ "**: ".data))) ++ [] from by
              simp [List.append_assoc]]
          exact hcapnone [] i hi)]
      rw [capGo_fix_of_none ("**Interaction ".data ++ ds ++ "**: ".data) _
        (fun i => by
          cases i with
          | zero =>
            show matchInterLine ("**Interaction ".data ++ ds ++ "**: ".data) = none
            rw [show "**Interaction ".data ++ ds ++ "**: ".data =
              "**Interaction ".data ++ (ds ++ "**: ".data) from by simp [List.append_assoc]]
            exact mil_none_at_hdr_nil ds hdig
          | succ j => exact mil_none_hdr_pos ds hdig (j + 1) (by omega))]
      rw [hρeq, hD, List.append_nil]
    · have hdw_ne : (capDrugs body).dropWhile (· == ' ') ≠ [] := by
        obtain ⟨c, hc, hcb⟩ := capDrugs_has_nonspace body hD
        exact dropWhile_ne_nil_mem _ _ c hc hcb
      have hU_ne : uppercase_severity (collapse_spaces
          ((capDrugs body).dropWhile (· == ' '))) ≠ [] :=
        usev_ne_nil _ (csp_ne_nil _ hdw_ne)
      have hDnl : ∀ c ∈ capDrugs body, c ≠ '\n' := capDrugs_nlfree body hbdnl
      have hU_nl : ∀ c ∈ uppercase_severity (collapse_spaces
          ((capDrugs body).dropWhile (· == ' '))), c ≠ '\n' :=
        usev_nlfree _ (fun c hc => hDnl c
          ((List.dropWhile_suffix _).subset (csp_subset _ c hc)))
      unfold capitalize_medications
      rw [capGo_decomp (a ++ ("**Interaction ".data ++ (ds ++ ("**: ".data ++
          uppercase_severity (collapse_spaces
            ((capDrugs body).dropWhile (· == ' '))))))).length a _
        (le_of_eq (List.length_append a _).symm)
        (fun i hi => by
          rw [show a.drop i ++ ("**Interaction ".data ++ (ds ++ ("**: ".data ++
              uppercase_severity (collapse_spaces
                ((capDrugs body).dropWhile (· == ' ')))))) =
            (a.drop i ++ ("**Interaction ".data ++ (ds ++ "**: ".data))) ++
              uppercase_severity (collapse_spaces
                ((capDrugs body).dropWhile (· == ' '))) from by
              simp [List.append_assoc]]
          exact hcapnone _ i hi)]
      have hM2 := mil_some_at_hdr ds
        (uppercase_severity (collapse_spaces ((capDrugs body).dropWhile (· == ' '))))
        hdig hdsne hU_ne hU_nl
      have hcap2 : capGo ("**Interaction ".data ++ (ds ++ ("**: ".data ++
            uppercase_severity (collapse_spaces
              ((capDrugs body).dropWhile (· == ' ')))))).length
          ("**Interaction ".data ++ (ds ++ ("**: ".data ++
            uppercase_severity (collapse_spaces
              ((capDrugs body).dropWhile (· == ' ')))))) =
          "**Interaction ".data ++ ds ++ "**: ".data ++ capDrugs
            (uppercase_severity (collapse_spaces
              ((capDrugs body).dropWhile (· == ' ')))) :=
        cap_single_match _ _ hM2
      rw [hcap2]
      have hcdU : capDrugs (uppercase_severity (collapse_spaces
          ((capDrugs body).dropWhile (· == ' ')))) = capDrugs body := by
        rw [capDrugs_ci _ _ (usev_lowStr _)]
        exact capDrugs_reform body hbodyOK
      rw [hcdU, hρeq]

/-! ### Global assembly: the normalizer acts line by line -/

theorem normalize_line_decomp (y : Chars) :
    capitalize_medications (uppercase_severity (collapse_spaces y)) =
      joinNl ((splitNl y).map lineNorm) := by
  have hpieces := splitNl_pieces_nlfree y
  conv_lhs => rw [← joinNl_splitNl y]
  rw [csp_joinNl, usev_joinNl _ (by
      intro p hp c hc
      obtain ⟨q, hq, hqp⟩ := List.mem_map.mp hp
      rw [← hqp] at hc
      exact hpieces q hq c (csp_subset q c hc)),
    cap_joinNl _ (by
      intro p hp c hc
      obtain ⟨p2, hp2, hp2e⟩ := List.mem_map.mp hp
      obtain ⟨q, hq, hqp⟩ := List.mem_map.mp hp2
      rw [← hp2e] at hc
      rw [← hqp] at hc
      exact usev_nlfree _ (fun x hx => hpieces q hq x (csp_subset q x hx)) c hc)]
  rw [List.map_map, List.map_map]
  rfl

theorem forall₂_emptiness_map_lineNorm : ∀ (L : List Chars),
    List.Forall₂ (fun p q => (p = [] ↔ q = [])) L (L.map lineNorm) := by
  intro L
  induction L with
  | nil => exact List.Forall₂.nil
  | cons p ps ih =>
    refine List.Forall₂.cons ?_ ih
    constructor
    · intro h
      rw [h]
      exact lineNorm_nil
    · intro h
      by_contra hne
      exact lineNorm_ne_nil p hne h

theorem normalize_nlOK (x : Chars) : nlOK3 (normalize_answer x) = true := by
  have hd : normalize_answer x =
      joinNl ((splitNl (collapse_newlines x)).map lineNorm) :=
    normalize_line_decomp (collapse_newlines x)
  rw [hd]
  have hpieces := splitNl_pieces_nlfree (collapse_newlines x)
  have hpieces2 : ∀ p ∈ (splitNl (collapse_newlines x)).map lineNorm,
      ∀ c ∈ p, c ≠ '\n' := by
    intro p hp
    obtain ⟨q, hq, hqp⟩ := List.mem_map.mp hp
    rw [← hqp]
    exact lineNorm_nlfree q (hpieces q hq)
  have hcong := (nlOK3_joinNl_congr (splitNl (collapse_newlines x))
    ((splitNl (collapse_newlines x)).map lineNorm) hpieces hpieces2
    (forall₂_emptiness_map_lineNorm _)).2
  rw [← hcong, joinNl_splitNl]
  exact nlOK3_cnl x

/-- C6: the Response Normalizer is idempotent.  `normalize_answer` is the
post-processing chain applied to the generator's reply in the `/interactions`
endpoint (newline collapsing, space-run collapsing, severity
case-normalization, interaction-line drug capitalization); applying it twice
yields the same string as applying it once, for every input. -/
theorem c6_normalize_idempotent (x : Chars) :
    normalize_answer (normalize_answer x) = normalize_answer x := by
  have hz : normalize_answer x =
      joinNl ((splitNl (collapse_newlines x)).map lineNorm) :=
    normalize_line_decomp (collapse_newlines x)
  have hpieces := splitNl_pieces_nlfree (collapse_newlines x)
  have hpieces2 : ∀ p ∈ (splitNl (collapse_newlines x)).map lineNorm,
      ∀ c ∈ p, c ≠ '\n' := by
    intro p hp
    obtain ⟨q, hq, hqp⟩ := List.mem_map.mp hp
    rw [← hqp]
    exact lineNorm_nlfree q (hpieces q hq)
  show capitalize_medications (uppercase_severity (collapse_spaces
    (collapse_newlines (normalize_answer x)))) = normalize_answer x
  rw [cnl_fix _ (normalize_nlOK x), normalize_line_decomp (normalize_answer x)]
  conv_lhs => rw [hz]
  rw [splitNl_joinNl _ (by
      intro h
      exact splitNl_ne_nil (collapse_newlines x) (List.map_eq_nil_iff.mp h)) hpieces2]
  conv_rhs => rw [hz]
  congr 1
  rw [List.map_map]
  apply List.map_congr_left
  intro p hp
  exact lineNorm_idem p (hpieces p hp)
